import Mathlib

/-!
Sliding sync: state store, visibility resolver and request engine

A shallow embedding of the parts of `sync3/request.go`, `state/storage.go` and
`state/event_table.go` that the specification's claims are about, followed by the
theorems that settle them.

Conventions of the embedding:

* Go `int` / `int64` values are `Int`. The embedded code only compares, copies
  and converts indexes (`int64(x)`, `int(x)`), it never does arithmetic on them,
  so no wrap-around can occur (a 64-bit `int` is assumed for the conversions).
* A Go slice that the code compares with `nil` is an `Option (List α)`: `none`
  is the nil slice, `some []` the empty non-nil one. A slice that is only ranged
  over or appended to is a plain `List α` (`nil` is `[]`).
* A Go `map[string]V` is an association list `GoMap V` whose keys are pairwise
  distinct (`GoMap.WF`); reading a missing key gives `none`.
* A Go pointer that may be nil is an `Option`.
-/

/-! ## Go maps -/

/-- A Go `map[string]V`, as the list of its entries. -/
abbrev GoMap (V : Type) := List (String × V)

/-! ## Go maps: operations -/

namespace GoMap

variable {V W : Type}

/-- The keys of the map, in the order the entries are ranged over. -/
def keys (m : GoMap V) : List String := m.map Prod.fst

/-- Well-formedness: every key is bound once. -/
def WF (m : GoMap V) : Prop := (keys m).Nodup

instance (m : GoMap V) : Decidable (WF m) := by
  unfold WF; infer_instance

/-- The two-valued read `v, ok := m[k]`. -/
def get? (m : GoMap V) (k : String) : Option V :=
  match m with
  | [] => none
  | (k', v) :: rest => if k' = k then some v else get? rest k

/-- The presence test `_, ok := m[k]`. -/
def contains (m : GoMap V) (k : String) : Bool := (get? m k).isSome

/-- The statement `delete(m, k)`. -/
def delete (m : GoMap V) (k : String) : GoMap V :=
  m.filter (fun kv => decide (kv.1 ≠ k))

/-- The assignment `m[k] = v`. -/
def set (m : GoMap V) (k : String) (v : V) : GoMap V :=
  (k, v) :: delete m k

end GoMap

/-! ## Go maps: slice-valued entries -/

/-- Reading a slice-valued map entry, `m[k]`: the nil slice when `k` is missing. -/
def GoMap.getSlice {α : Type} (m : GoMap (List α)) (k : String) : List α :=
  (GoMap.get? m k).getD []

/-! ## `sync3/request.go` -/

namespace Sync3

/-- The list of `[lo, hi]` index ranges of a list, `type SliceRanges [][2]int64`. -/
abbrev SliceRanges := List (Int × Int)

/-- Modelled from the spec: `SliceRanges.Inside`, whose source file is not
included. The spec describes the ranges of a list as "each `[lo, hi]`
inclusive", so an index is inside when some range has `lo ≤ i ≤ hi`. -/
def SliceRanges.Inside (r : SliceRanges) (i : Int) : Bool :=
  r.any (fun sr => decide (sr.1 ≤ i) && decide (i ≤ sr.2))

/-- All the range boundaries of a range list: `lo` and `hi` of every range. -/
def SliceRanges.boundaries (r : SliceRanges) : List Int :=
  r.flatMap (fun sr => [sr.1, sr.2])

/-- The greatest element of `bs` that is strictly below `i`, if there is one. -/
def greatestBelow (i : Int) : List Int → Option Int
  | [] => none
  | b :: bs =>
    match greatestBelow i bs with
    | none => if b < i then some b else none
    | some c => if b < i ∧ c < b then some b else some c

/-- The least element of `bs` that is strictly above `i`, if there is one. -/
def leastAbove (i : Int) : List Int → Option Int
  | [] => none
  | b :: bs =>
    match leastAbove i bs with
    | none => if i < b then some b else none
    | some c => if i < b ∧ b < c then some b else some c

/-- Modelled from the spec: `SliceRanges.ClosestInDirection`, whose source is
outside the embedded files. The spec calls its result "the closest range boundary
in the direction of movement": heading towards zero it is the greatest boundary
below `i`, heading away from zero the least boundary above `i`. The spec leaves open
what is returned when no boundary lies in that direction; the model returns `-1`
there, and the theorems about snapped indexes show that a boundary exists. -/
def SliceRanges.ClosestInDirection (r : SliceRanges) (i : Int) (towardsZero : Bool) : Int :=
  if towardsZero then
    (greatestBelow i (SliceRanges.boundaries r)).getD (-1)
  else
    (leastAbove i (SliceRanges.boundaries r)).getD (-1)

/-- The struct `RoomSubscription`. -/
structure RoomSubscription where
  RequiredState : Option (List (String × String))
  TimelineLimit : Int
  deriving DecidableEq, Repr

/-- The struct `RequestFilters`. -/
structure RequestFilters where
  Spaces : Option (List String)
  IsDM : Option Bool
  IsEncrypted : Option Bool
  IsInvite : Option Bool
  IsTombstoned : Option Bool
  RoomNameFilter : String
  deriving DecidableEq, Repr

/-- The struct `RequestList`; the embedded `RoomSubscription` is the first field, and
the field `Sort` is named `SortOrder` because `Sort` is reserved in Lean. -/
structure RequestList where
  toRoomSubscription : RoomSubscription
  Ranges : Option SliceRanges
  SortOrder : Option (List String)
  Filters : Option RequestFilters
  deriving DecidableEq, Repr

/-- The ranges of a list as they are ranged over (a nil slice has no range). -/
def RequestList.ranges (rl : RequestList) : SliceRanges := rl.Ranges.getD []

/-- A single-index response operation, `ResponseOpSingle`. `Index` is the pointer
field, `RoomID` is empty when the operation carries no room. -/
structure ResponseOpSingle where
  Operation : String
  Index : Option Int
  RoomID : String
  deriving DecidableEq, Repr

/-- Modelled from the spec: the operation name constant `OpDelete`, declared outside
the embedded files; the spec writes the operation as `DELETE(index)`. -/
def OpDelete : String := "DELETE"

/-- Modelled from the spec: the operation name constant `OpInsert`, declared outside
the embedded files; the spec writes the operation as `INSERT(index, room_id)`. -/
def OpInsert : String := "INSERT"

/-- The method `RequestList.WriteDeleteOp`. -/
def WriteDeleteOp (rl : RequestList) (deletedIndex : Int) : Option ResponseOpSingle :=
  if deletedIndex < 0 then
    none
  else if !(SliceRanges.Inside rl.ranges deletedIndex) then
    none
  else
    some { Operation := OpDelete, Index := some deletedIndex, RoomID := "" }

/-- The loop of case C in `CalculateMoveIndexes`: the ranges both of whose bounds
lie strictly between `lo` and `hi`, in list order. -/
def jumpedOverRanges (ranges : SliceRanges) (lo hi : Int) : List (Int × Int) :=
  ranges.filter (fun r =>
    decide (r.1 > lo) && decide (r.1 < hi) && decide (r.2 > lo) && decide (r.2 < hi))

/-- The method `RequestList.CalculateMoveIndexes`, returning `(f, t, ok)`. -/
def CalculateMoveIndexes (rl : RequestList) (fromIndex toIndex : Int) : Int × Int × Bool :=
  let isFromInsideRange := SliceRanges.Inside rl.ranges fromIndex
  let isToInsideRange := SliceRanges.Inside rl.ranges toIndex
  if isFromInsideRange && isToInsideRange then
    (fromIndex, toIndex, true)
  else if !isFromInsideRange && !isToInsideRange then
    let hi := if fromIndex < toIndex then toIndex else fromIndex
    let lo := if fromIndex < toIndex then fromIndex else toIndex
    match jumpedOverRanges rl.ranges lo hi with
    | [] => (0, 0, false)
    | jumpedOverRange :: _ =>
      if fromIndex > toIndex then
        (jumpedOverRange.2, jumpedOverRange.1, true)
      else
        (jumpedOverRange.1, jumpedOverRange.2, true)
  else
    -- case B: the named results f and t start at zero
    let ft : Int × Int := (0, 0)
    let ft : Int × Int :=
      if isFromInsideRange then
        (fromIndex,
          SliceRanges.ClosestInDirection rl.ranges toIndex (decide (toIndex > fromIndex)))
      else ft
    let ft : Int × Int :=
      if isToInsideRange then
        (SliceRanges.ClosestInDirection rl.ranges fromIndex (decide (toIndex < fromIndex)),
          toIndex)
      else ft
    (ft.1, ft.2, true)

/-- The method `RequestList.WriteSwapOp`. -/
def WriteSwapOp (_rl : RequestList) (roomID : String) (fromIndex toIndex : Int) :
    List ResponseOpSingle :=
  if fromIndex = toIndex then
    []
  else
    [ { Operation := OpDelete, Index := some fromIndex, RoomID := "" },
      { Operation := OpInsert, Index := some toIndex, RoomID := roomID } ]

/-- The variable `SortByRecency`. -/
def SortByRecency : String := "by_recency"

/-- The struct `Request`. The `Extensions` field belongs to another package; its
type and its own `ApplyDelta` are parameters of the embedding. -/
structure Request (Ext : Type) where
  Lists : List RequestList
  RoomSubscriptions : GoMap RoomSubscription
  UnsubscribeRooms : List String
  Extensions : Ext

/-- The struct `RequestListDelta`. -/
structure RequestListDelta where
  Prev : Option RequestList
  Curr : Option RequestList
  deriving DecidableEq, Repr

/-- The struct `RequestDelta`. -/
structure RequestDelta where
  Subs : List String
  Unsubs : List String
  Lists : List RequestListDelta
  deriving DecidableEq, Repr

/-- The zero value `&Request{}` that stands in for a nil receiver (its `Extensions`
are never read). -/
def emptyRequest {Ext : Type} (e : Ext) : Request Ext :=
  { Lists := [], RoomSubscriptions := [], UnsubscribeRooms := [], Extensions := e }

/-- One iteration of the list loop of `ApplyDelta`, for the list at one position:
`existingList` is the previous list at that position (nil when there is none) and
`nextList` is `nextReq.Lists[i]`. The default sort order that the loop writes into
`nextReq.Lists[i]` is visible in the value copied into the result. -/
def applyListDelta (existingList : Option RequestList) (nextList : RequestList) : RequestList :=
  let nextList : RequestList :=
    if (nextList.SortOrder.getD []).length = 0 ∧ existingList = none then
      { nextList with SortOrder := some [SortByRecency] }
    else nextList
  match existingList with
  | none => nextList
  | some existingList =>
    let rooms := if nextList.Ranges = none then existingList.Ranges else nextList.Ranges
    let sort := if nextList.SortOrder = none then existingList.SortOrder else nextList.SortOrder
    let reqState :=
      if nextList.toRoomSubscription.RequiredState = none then
        existingList.toRoomSubscription.RequiredState
      else nextList.toRoomSubscription.RequiredState
    let timelineLimit :=
      if nextList.toRoomSubscription.TimelineLimit = 0 then
        existingList.toRoomSubscription.TimelineLimit
      else nextList.toRoomSubscription.TimelineLimit
    let filters := if nextList.Filters = none then existingList.Filters else nextList.Filters
    { toRoomSubscription := { RequiredState := reqState, TimelineLimit := timelineLimit },
      Ranges := rooms, SortOrder := sort, Filters := filters }

/-- The loops `for roomID, val := range subs { resultSubs[roomID] = val }`. -/
def copySubs (resultSubs : GoMap RoomSubscription) (subs : GoMap RoomSubscription) :
    GoMap RoomSubscription :=
  subs.foldl (fun m kv => GoMap.set m kv.1 kv.2) resultSubs

/-- The loop over `r.UnsubscribeRooms`, on the pair `(resultSubs, delta.Unsubs)`. -/
def applyPrevUnsubs (st : GoMap RoomSubscription × List String) (unsubscribeRooms : List String) :
    GoMap RoomSubscription × List String :=
  unsubscribeRooms.foldl (fun st roomID =>
    let unsubs := if GoMap.contains st.1 roomID then st.2 ++ [roomID] else st.2
    (GoMap.delete st.1 roomID, unsubs)) st

/-- The loop over `nextReq.UnsubscribeRooms`, on the pair `(resultSubs, delta.Unsubs)`. -/
def applyNextUnsubs (nextSubs : GoMap RoomSubscription)
    (st : GoMap RoomSubscription × List String) (unsubscribeRooms : List String) :
    GoMap RoomSubscription × List String :=
  unsubscribeRooms.foldl (fun st roomID =>
    let unsubs :=
      if GoMap.contains st.1 roomID then
        if !(GoMap.contains nextSubs roomID) then st.2 ++ [roomID] else st.2
      else st.2
    (GoMap.delete st.1 roomID, unsubs)) st

/-- The method `Request.ApplyDelta`: the receiver `r` may be nil, `extApplyDelta` is
the `ApplyDelta` of the extensions. Returns `(result, delta)`. -/
def ApplyDelta {Ext : Type} (extApplyDelta : Ext → Ext → Ext)
    (r : Option (Request Ext)) (nextReq : Request Ext) : Request Ext × RequestDelta :=
  let resultExtensions : Ext :=
    match r with
    | none => nextReq.Extensions
    | some r => extApplyDelta r.Extensions nextReq.Extensions
  let r : Request Ext :=
    match r with
    | none => emptyRequest nextReq.Extensions
    | some r => r
  let lists : List RequestList :=
    nextReq.Lists.mapIdx (fun i nextList => applyListDelta r.Lists[i]? nextList)
  let maxLen := if r.Lists.length > lists.length then r.Lists.length else lists.length
  let deltaLists : List RequestListDelta :=
    (List.range maxLen).map (fun i => { Prev := r.Lists[i]?, Curr := lists[i]? })
  let resultSubs := copySubs [] r.RoomSubscriptions
  let st := applyPrevUnsubs (resultSubs, []) r.UnsubscribeRooms
  let st := (copySubs st.1 nextReq.RoomSubscriptions, st.2)
  let st := applyNextUnsubs nextReq.RoomSubscriptions st nextReq.UnsubscribeRooms
  let subs := (GoMap.keys st.1).filter (fun roomID => !(GoMap.contains r.RoomSubscriptions roomID))
  ({ Lists := lists, RoomSubscriptions := st.1, UnsubscribeRooms := [],
     Extensions := resultExtensions },
   { Subs := subs, Unsubs := st.2, Lists := deltaLists })

/-- A list that tracks the given ranges and sets nothing else. -/
def listWithRanges (r : SliceRanges) : RequestList :=
  { toRoomSubscription := { RequiredState := none, TimelineLimit := 0 },
    Ranges := some r, SortOrder := none, Filters := none }

/-- The operation `DELETE(index)`. -/
def deleteOp (index : Int) : ResponseOpSingle :=
  { Operation := OpDelete, Index := some index, RoomID := "" }

/-- The operation `INSERT(index, room)`. -/
def insertOp (index : Int) (roomID : String) : ResponseOpSingle :=
  { Operation := OpInsert, Index := some index, RoomID := roomID }

/-- The bounds of `r` both lie strictly between `lo` and `hi`. -/
def Jumped (lo hi : Int) (r : Int × Int) : Prop :=
  lo < r.1 ∧ r.1 < hi ∧ lo < r.2 ∧ r.2 < hi

instance (lo hi : Int) (r : Int × Int) : Decidable (Jumped lo hi r) := by
  unfold Jumped; infer_instance

/-- A request without lists, for examples about subscriptions. -/
def subsRequest (subs : GoMap RoomSubscription) (unsubs : List String) : Request Unit :=
  { Lists := [], RoomSubscriptions := subs, UnsubscribeRooms := unsubs, Extensions := () }

/-- A request with the given lists and no subscriptions, for examples. -/
def listsRequest (lists : List RequestList) : Request Unit :=
  { Lists := lists, RoomSubscriptions := [], UnsubscribeRooms := [], Extensions := () }

/-- A request with one list, a subscription to A and an unsubscription from B, for
examples. -/
def selfMergeRequest : Request Unit :=
  { Lists := [⟨⟨none, 5⟩, some [(0, 9)], some ["by_name"], none⟩],
    RoomSubscriptions := [("A", ⟨none, 1⟩)], UnsubscribeRooms := ["B"], Extensions := () }

/-- Modelled from the spec: the value that `internal.NewRequiredStateMap` builds, a type
declared outside the embedded files. It is taken to hold the four arguments of the
constructor as they are passed: the event types with a wildcard state key (a Go set),
the state keys for the wildcard event type, the exact type to state keys map, and the
all-state flag. The spec calls it "a queryable object". -/
structure RequiredStateMap where
  eventTypesWithWildcardStateKeys : GoMap Unit
  stateKeysForWildcardEventType : List String
  eventTypeToStateKeys : GoMap (List String)
  allState : Bool
  deriving DecidableEq, Repr

/-- The three collections that the loop of `RoomSubscription.RequiredStateMap` fills. -/
structure RequiredStateAcc where
  result : GoMap (List String)
  eventTypesWithWildcardStateKeys : GoMap Unit
  stateKeysForWildcardEventType : List String
  deriving DecidableEq, Repr

/-- The loop over `rs.RequiredState` in `RoomSubscription.RequiredStateMap`; `none`
stands for the early return on the tuple `(*, *)`. -/
def requiredStateLoop : List (String × String) → RequiredStateAcc → Option RequiredStateAcc
  | [], acc => some acc
  | tuple :: rest, acc =>
    if tuple.1 = "*" then
      if tuple.2 = "*" then none
      else
        requiredStateLoop rest
          { acc with
            stateKeysForWildcardEventType := acc.stateKeysForWildcardEventType ++ [tuple.2] }
    else if tuple.2 = "*" then
      requiredStateLoop rest
        { acc with
          eventTypesWithWildcardStateKeys :=
            GoMap.set acc.eventTypesWithWildcardStateKeys tuple.1 () }
    else
      requiredStateLoop rest
        { acc with
          result := GoMap.set acc.result tuple.1 (GoMap.getSlice acc.result tuple.1 ++ [tuple.2]) }

/-- The method `RoomSubscription.RequiredStateMap`. -/
def RoomSubscription.RequiredStateMap (rs : RoomSubscription) : Sync3.RequiredStateMap :=
  match requiredStateLoop (rs.RequiredState.getD []) ⟨[], [], []⟩ with
  | none =>
    { eventTypesWithWildcardStateKeys := [], stateKeysForWildcardEventType := [],
      eventTypeToStateKeys := [], allState := true }
  | some acc =>
    { eventTypesWithWildcardStateKeys := acc.eventTypesWithWildcardStateKeys,
      stateKeysForWildcardEventType := acc.stateKeysForWildcardEventType,
      eventTypeToStateKeys := acc.result, allState := false }

/-- Modelled from the spec: the struct `RoomConnMetadata`, declared outside the embedded
files, as `RequestFilters.Include` reads it: the room flags that the spec's filter
predicates compare against ("`is_encrypted`, `is_dm`, `is_invite`, `is_tombstoned` each
compare a tri-state against the room flag") and the room metadata `M` that the display
name is computed from. -/
structure RoomConnMetadata (M : Type) where
  RoomMetadata : M
  Encrypted : Bool
  Tombstoned : Bool
  IsDM : Bool
  IsInvite : Bool

/-- The library function `strings.Contains`: `substr` occurs in `s`. -/
def stringsContains (s substr : String) : Bool := decide (List.IsInfix substr.data s.data)

/-- The test `p != nil && *p != flag` on a nil-able boolean. -/
def differsFrom (p : Option Bool) (flag : Bool) : Bool :=
  match p with
  | none => false
  | some b => b != flag

/-- The method `RequestFilters.Include`. The function `internal.CalculateRoomName` and
the library function `strings.ToLower` are parameters. -/
def RequestFilters.Include {M : Type} (calculateRoomName : M → Int → String)
    (toLower : String → String) (rf : RequestFilters) (r : RoomConnMetadata M) : Bool :=
  if differsFrom rf.IsEncrypted r.Encrypted then false
  else if differsFrom rf.IsTombstoned r.Tombstoned then false
  else if differsFrom rf.IsDM r.IsDM then false
  else if differsFrom rf.IsInvite r.IsInvite then false
  else if rf.RoomNameFilter ≠ "" ∧
      ¬ stringsContains (toLower (calculateRoomName r.RoomMetadata 5))
          (toLower rf.RoomNameFilter) = true then false
  else true

/-- A subscription with the given required-state tuples, for examples. -/
def requiredStateOf (tuples : List (String × String)) : RoomSubscription :=
  { RequiredState := some tuples, TimelineLimit := 0 }

/-- A room with the given name as its metadata and the given flags, for examples. -/
def namedRoom (name : String) (encrypted isDM : Bool) : RoomConnMetadata String :=
  { RoomMetadata := name, Encrypted := encrypted, Tombstoned := false, IsDM := isDM,
    IsInvite := false }

/-- A lower-casing of the ASCII letters of a string, for examples. -/
def asciiLower (s : String) : String := String.mk (s.data.map Char.toLower)

/-- The variable `DefaultTimelineLimit`. -/
def DefaultTimelineLimit : Int := 20

/-- The method `Request.GetTimelineLimit`. A nil map and an empty map both miss every
lookup. `none` stands for the run-time failure of `r.Lists[listIndex]` when the index
lies outside the slice, which is reached only when the room subscription gives no
limit. -/
def GetTimelineLimit {Ext : Type} (r : Request Ext) (listIndex : Int) (roomID : String) :
    Option Int :=
  let fromRoom : Option Int :=
    match GoMap.get? r.RoomSubscriptions roomID with
    | some room => if room.TimelineLimit > 0 then some room.TimelineLimit else none
    | none => none
  match fromRoom with
  | some limit => some limit
  | none =>
    if listIndex < 0 then none
    else
      match r.Lists[listIndex.toNat]? with
      | none => none
      | some list =>
        if list.toRoomSubscription.TimelineLimit > 0 then
          some list.toRoomSubscription.TimelineLimit
        else some DefaultTimelineLimit

/-- A request with two lists (limits 7 and 0) and subscriptions to A (limit 5) and B
(limit 0), for examples. -/
def timelineRequest : Request Unit :=
  { Lists := [⟨⟨none, 7⟩, none, none, none⟩, ⟨⟨none, 0⟩, none, none, none⟩],
    RoomSubscriptions := [("A", ⟨none, 5⟩), ("B", ⟨none, 0⟩)], UnsubscribeRooms := [],
    Extensions := () }

/-- The sort order of a list that may be absent: the elements of `rl.Sort`, none when
there is no list. -/
def sortOf (rl : Option RequestList) : List String :=
  match rl with
  | none => []
  | some rl => rl.SortOrder.getD []

/-- The message of the run-time failure on reading a field through a nil pointer. -/
def errNilDereference : String := "invalid memory address or nil pointer dereference"

/-- The method `RequestList.SortOrderChanged`; the receiver `rl` may be nil. The loop
`for i := range rl.Sort` evaluates `rl.Sort` also when `rl` is nil, which is a nil
pointer dereference: that failure is the `Except.error` result. Inside the loop both
slices have the same length, so `rl.Sort[i]` and `next.Sort[i]` are both in range and
are compared through `[i]?`. -/
def SortOrderChanged (rl : Option RequestList) (next : RequestList) : Except String Bool :=
  let prevLen : Nat :=
    match rl with
    | none => 0
    | some rl => (rl.SortOrder.getD []).length
  if prevLen ≠ (next.SortOrder.getD []).length then
    Except.ok true
  else
    match rl with
    | none => Except.error errNilDereference
    | some rl =>
      Except.ok ((List.range (rl.SortOrder.getD []).length).any (fun i =>
        (rl.SortOrder.getD [])[i]? != (next.SortOrder.getD [])[i]?))

/-- A previous request subscribed to A and B, for examples. -/
def deltaPrev : Request Unit := subsRequest [("A", ⟨none, 1⟩), ("B", ⟨none, 2⟩)] []

/-- A next request that subscribes to C and unsubscribes from B, for examples. -/
def deltaNext : Request Unit := subsRequest [("C", ⟨none, 3⟩)] ["B"]

end Sync3

/-! ## `state/storage.go` and `state/event_table.go` -/

namespace State

/-- The fields of an event's JSON body that the embedded code reads with `gjson`:
`state_key`, `content.membership`, `event_id`, `origin_server_ts` and `type` (`none` when
the path does not exist; the field for `type` is named `evType`). -/
structure EventJSON where
  state_key : Option String
  membership : Option String
  event_id : Option String := none
  origin_server_ts : Option Nat := none
  evType : Option String := none
  deriving DecidableEq, Repr

/-- The reading `.Str` of a `gjson` result: the empty string when the path is absent. -/
def gjsonStr (v : Option String) : String := v.getD ""

/-- Modelled from the spec: the struct `Event` that `storage.go` works with. The
declaration in `event_table.go` is an older one with only `NID`, `ID` and `JSON`, while
`storage.go` also reads `RoomID`, `BeforeStateSnapshotID` and `ReplacesNID`. The spec's
data model gives an event its `event_id`, `event_nid`, `room_id`, `event_type`,
`state_key`, `before_state_snapshot_id` and `replaces_nid` beside the JSON body. -/
structure Event where
  NID : Int
  ID : String
  RoomID : String
  EventType : String
  StateKey : String
  BeforeStateSnapshotID : Int
  ReplacesNID : Int
  JSON : EventJSON
  deriving DecidableEq, Repr

/-- The struct `membershipEvent`. -/
structure membershipEvent where
  toEvent : Event
  StateKey : String
  Membership : String
  deriving DecidableEq, Repr

/-- The first loop of `visibleEventNIDsWithData`: bucket the membership events by
room ID, keeping their order. -/
def bucketByRoom (membershipEvents : List Event) : GoMap (List membershipEvent) :=
  membershipEvents.foldl (fun roomIDToLogs ev =>
    GoMap.set roomIDToLogs ev.RoomID
      (GoMap.getSlice roomIDToLogs ev.RoomID ++
        [{ toEvent := ev, StateKey := gjsonStr ev.JSON.state_key,
           Membership := gjsonStr ev.JSON.membership }])) []

/-- The loop variables of the closure `calculateVisibleEventNIDs`. -/
structure VisibleState where
  result : List (Int × Int)
  startIndex : Int
  isJoined : Bool
  deriving DecidableEq, Repr

/-- One iteration of the loop over `logs` in `calculateVisibleEventNIDs`. -/
def visibleStep (st : VisibleState) (memEvent : membershipEvent) : VisibleState :=
  if st.isJoined && (memEvent.Membership == "leave" || memEvent.Membership == "ban") then
    -- a valid transition out of the joined state
    { st with result := st.result ++ [(st.startIndex, memEvent.toEvent.NID)], isJoined := false }
  else if !st.isJoined && memEvent.Membership == "join" then
    -- a valid transition into the joined state
    { st with startIndex := memEvent.toEvent.NID, isJoined := true }
  else if !st.isJoined && memEvent.Membership == "invite" then
    { st with result := st.result ++ [(memEvent.toEvent.NID, memEvent.toEvent.NID)] }
  else
    st

/-- The closure `calculateVisibleEventNIDs` of `visibleEventNIDsWithData`. -/
def calculateVisibleEventNIDs (isJoined : Bool) (fromIncl toIncl : Int)
    (logs : List membershipEvent) : List (Int × Int) :=
  if logs.length = 0 then
    [(fromIncl, toIncl)]
  else
    let st := logs.foldl visibleStep
      { result := [], startIndex := if isJoined then fromIncl else -1, isJoined := isJoined }
    if st.isJoined then st.result ++ [(st.startIndex, toIncl)] else st.result

/-- The loop over the joined rooms in `visibleEventNIDsWithData`, on the pair
`(result, roomIDToLogs)`. -/
def visibleJoinedRooms (fromNID toNID : Int) (joinedRoomIDs : List String)
    (st : GoMap (List (Int × Int)) × GoMap (List membershipEvent)) :
    GoMap (List (Int × Int)) × GoMap (List membershipEvent) :=
  joinedRoomIDs.foldl (fun st joinedRoomID =>
    let roomResult :=
      calculateVisibleEventNIDs true fromNID toNID (GoMap.getSlice st.2 joinedRoomID)
    (GoMap.set st.1 joinedRoomID roomResult, GoMap.delete st.2 joinedRoomID)) st

/-- The loop over the remaining logs in `visibleEventNIDsWithData`. -/
def visibleOtherRooms (fromNID toNID : Int) (result : GoMap (List (Int × Int)))
    (roomIDToLogs : GoMap (List membershipEvent)) : GoMap (List (Int × Int)) :=
  roomIDToLogs.foldl (fun result kv =>
    GoMap.set result kv.1 (calculateVisibleEventNIDs false fromNID toNID kv.2)) result

/-- The method `Storage.visibleEventNIDsWithData` (the `userID` argument is unused by
the code). It always returns a nil error. -/
def visibleEventNIDsWithData (joinNIDsByRoomID : GoMap Int) (membershipEvents : List Event)
    (_userID : String) (fromNID toNID : Int) : Except String (GoMap (List (Int × Int))) :=
  let roomIDToLogs := bucketByRoom membershipEvents
  let st := visibleJoinedRooms fromNID toNID (GoMap.keys joinNIDsByRoomID) ([], roomIDToLogs)
  Except.ok (visibleOtherRooms fromNID toNID st.1 st.2)

/-- One iteration of the loop of `determineJoinedRoomsFromMemberships`: the `switch`
on the membership of `ev`. -/
def determineJoinedStep (joinNIDsByRoomID : GoMap Int) (ev : Event) : GoMap Int :=
  let membership := gjsonStr ev.JSON.membership
  if membership = "join" then
    if GoMap.contains joinNIDsByRoomID ev.RoomID then joinNIDsByRoomID
    else GoMap.set joinNIDsByRoomID ev.RoomID ev.NID
  else if membership = "ban" ∨ membership = "leave" then
    GoMap.delete joinNIDsByRoomID ev.RoomID
  else joinNIDsByRoomID

/-- The method `Storage.determineJoinedRoomsFromMemberships`. It always returns a nil
error. -/
def determineJoinedRoomsFromMemberships (membershipEvents : List Event) :
    Except String (GoMap Int) :=
  Except.ok (membershipEvents.foldl determineJoinedStep [])

/-- Modelled from the spec: `EventTable.SelectEventsWithTypeStateKey`, whose source is
outside the embedded files. The spec gives it as "SelectEventsWithTypeStateKey(type,
state_key, from, to) → events[]. NID-ordered across all rooms", used to "load all
membership events for user with NID in (from, to]". The table is the list of its
rows in ascending NID order, so the selected rows keep that order. -/
def SelectEventsWithTypeStateKey (table : List Event) (eventType stateKey : String)
    (fromNID toNID : Int) : Except String (List Event) :=
  Except.ok (table.filter (fun ev =>
    decide (ev.EventType = eventType) && decide (ev.StateKey = stateKey) &&
      decide (fromNID < ev.NID) && decide (ev.NID ≤ toNID)))

/-- The method `Storage.JoinedRoomsAfterPosition`. -/
def JoinedRoomsAfterPosition (table : List Event) (userID : String) (pos : Int) :
    Except String (GoMap Int) := do
  let membershipEvents ← SelectEventsWithTypeStateKey table "m.room.member" userID 0 pos
  determineJoinedRoomsFromMemberships membershipEvents

/-- The method `Storage.VisibleEventNIDsBetween`. -/
def VisibleEventNIDsBetween (table : List Event) (userID : String) (fromNID toNID : Int) :
    Except String (GoMap (List (Int × Int))) := do
  let joinNIDsByRoomID ← JoinedRoomsAfterPosition table userID fromNID
  let membershipEvents ←
    SelectEventsWithTypeStateKey table "m.room.member" userID fromNID toNID
  visibleEventNIDsWithData joinNIDsByRoomID membershipEvents userID fromNID toNID

/-- A membership event of `user` in `room`, for examples. -/
def memberEvent (nid : Int) (room user membership : String) : Event :=
  { NID := nid, ID := "", RoomID := room, EventType := "m.room.member", StateKey := user,
    BeforeStateSnapshotID := 0, ReplacesNID := 0,
    JSON := { state_key := some user, membership := some membership } }

/-- The `membershipEvent` that `visibleEventNIDsWithData` builds from an event row. -/
def toMembershipEvent (ev : Event) : membershipEvent :=
  { toEvent := ev, StateKey := gjsonStr ev.JSON.state_key,
    Membership := gjsonStr ev.JSON.membership }

/-- The membership log of one room: the given events of that room, in their order. -/
def roomLog (roomID : String) (membershipEvents : List Event) : List membershipEvent :=
  (membershipEvents.filter (fun ev => decide (ev.RoomID = roomID))).map toMembershipEvent

/-- The state of the replay that the specification describes: the start of the
interval that is open, if there is one, and the intervals closed so far. -/
structure ReplayState where
  openAt : Option Int
  closed : List (Int × Int)
  deriving DecidableEq, Repr

/-- One step of the replay, in the specification's words: a leave or ban while joined
closes the open interval at that event's NID; a join while not joined opens an interval
at its NID; an invite while not joined adds the point interval `[N, N]`; every other
event changes nothing. -/
def replayStep (s : ReplayState) (e : membershipEvent) : ReplayState :=
  match s.openAt with
  | some a =>
    if e.Membership = "leave" ∨ e.Membership = "ban" then
      { openAt := none, closed := s.closed ++ [(a, e.toEvent.NID)] }
    else s
  | none =>
    if e.Membership = "join" then
      { openAt := some e.toEvent.NID, closed := s.closed }
    else if e.Membership = "invite" then
      { openAt := none, closed := s.closed ++ [(e.toEvent.NID, e.toEvent.NID)] }
    else s

/-- The replay of a room's membership log, in the specification's words: a room joined
at `from` starts with an open interval at `from`, a room not joined starts with none;
an interval still open at the end is closed at `to`. -/
def replayLog (joinedAtFrom : Bool) (fromNID toNID : Int) (log : List membershipEvent) :
    List (Int × Int) :=
  let s := log.foldl replayStep
    { openAt := if joinedAtFrom then some fromNID else none, closed := [] }
  match s.openAt with
  | some a => s.closed ++ [(a, toNID)]
  | none => s.closed

/-- The loop state of the code and the replay state of the specification agree. -/
def StateAgrees (vs : VisibleState) (rs : ReplayState) : Prop :=
  vs.result = rs.closed ∧ vs.isJoined = rs.openAt.isSome ∧
    ∀ a, rs.openAt = some a → vs.startIndex = a

inductive MemberKind where
  | join | leaveBan | invite | other
  deriving DecidableEq, Repr

def walk (toNID : Int) : Option Int → List (Int × MemberKind) → List (Int × Int)
  | some a, [] => [(a, toNID)]
  | none, [] => []
  | some a, (n, k) :: es =>
    if k = MemberKind.leaveBan then (a, n) :: walk toNID none es else walk toNID (some a) es
  | none, (n, k) :: es =>
    if k = MemberKind.join then walk toNID (some n) es
    else if k = MemberKind.invite then (n, n) :: walk toNID none es
    else walk toNID none es

def joinedStep (j : Bool) (k : MemberKind) : Bool :=
  if k = MemberKind.join then true else if k = MemberKind.leaveBan then false else j

def joinedAfter (j : Bool) (es : List (Int × MemberKind)) : Bool :=
  es.foldl (fun j e => joinedStep j e.2) j

def Covered (ivs : List (Int × Int)) (n : Int) : Prop := ∃ iv ∈ ivs, iv.1 ≤ n ∧ n ≤ iv.2

def upTo (n : Int) (es : List (Int × MemberKind)) : List (Int × MemberKind) :=
  es.filter (fun e => decide (e.1 ≤ n))

def before (n : Int) (es : List (Int × MemberKind)) : List (Int × MemberKind) :=
  es.filter (fun e => decide (e.1 < n))

def Ascending (es : List (Int × MemberKind)) : Prop := es.Pairwise (fun a b => a.1 < b.1)

/-- what is covered, semantically -/
def CoverSpec (j : Bool) (es : List (Int × MemberKind)) (n : Int) : Prop :=
  joinedAfter j (upTo n es) = true ∨
  (∃ e ∈ es, e.1 = n ∧ e.2 = MemberKind.leaveBan ∧ joinedAfter j (before n es) = true) ∨
  (∃ e ∈ es, e.1 = n ∧ e.2 = MemberKind.invite)

/-- The kind of a membership string, as the visibility code distinguishes them. -/
def kindOf (membership : String) : MemberKind :=
  if membership = "join" then MemberKind.join
  else if membership = "leave" ∨ membership = "ban" then MemberKind.leaveBan
  else if membership = "invite" then MemberKind.invite
  else MemberKind.other

/-- A membership log reduced to the NID and the kind of every event. -/
def abstractLog (log : List membershipEvent) : List (Int × MemberKind) :=
  log.map (fun e => (e.toEvent.NID, kindOf e.Membership))

/-- The row filter of `SelectEventsWithTypeStateKey` for the membership events of
`userID` with NID in `(lo, hi]`. -/
def selects (userID : String) (lo hi : Int) (ev : Event) : Bool :=
  decide (ev.EventType = "m.room.member") && decide (ev.StateKey = userID) &&
    decide (lo < ev.NID) && decide (ev.NID ≤ hi)

/-- Whether the user's membership in the room, resolved at position `n`, is join: the
room is in the map that `JoinedRoomsAfterPosition(user, n)` returns. -/
def joinedAt (table : List Event) (userID roomID : String) (n : Int) : Bool :=
  match JoinedRoomsAfterPosition table userID n with
  | Except.ok joinNIDsByRoomID => GoMap.contains joinNIDsByRoomID roomID
  | Except.error _ => false

/-- The row `ev` is a membership event of `userID` in `roomID`. -/
def IsMembership (userID roomID : String) (ev : Event) : Prop :=
  ev.EventType = "m.room.member" ∧ ev.StateKey = userID ∧ ev.RoomID = roomID

/-- The events table holds its rows in ascending NID order (NIDs are distinct), and
NIDs, drawn from a sequence, are positive. -/
def TableOK (table : List Event) : Prop :=
  table.Pairwise (fun a b => a.NID < b.NID) ∧ ∀ ev ∈ table, 0 < ev.NID

instance (table : List Event) : Decidable (TableOK table) := by
  unfold TableOK; infer_instance

/-- The abstract log of one room in the window `(lo, hi]` of the table. -/
def windowLog (table : List Event) (userID roomID : String) (lo hi : Int) :
    List (Int × MemberKind) :=
  abstractLog (roomLog roomID (table.filter (selects userID lo hi)))

/-- Modelled from the spec: a row of the snapshots table as `RoomStateAfterEventPosition`
reads it, declared outside the embedded files. The spec gives a snapshot as the record
`{snapshot_id, room_id, membership_events[], other_events[]}`, both arrays being NID
lists; the code reads `MembershipEvents` and `OtherEvents`. -/
structure SnapshotRow where
  MembershipEvents : List Int
  OtherEvents : List Int
  deriving DecidableEq, Repr

/-- The loop `for j := range allStateEventNIDs` of the empty-filter path: the first
entry equal to `replacesNID` is overwritten with `nid`, then the loop breaks. -/
def replaceFirstNID (replacesNID nid : Int) : List Int → List Int
  | [] => []
  | x :: xs =>
    if x = replacesNID then nid :: xs else x :: replaceFirstNID replacesNID nid xs

/-- The body of the loop over `latestEvents` on the empty-filter path of
`RoomStateAfterEventPosition`, from the snapshot row selected for
`ev.BeforeStateSnapshotID` to the NID list handed to `SelectByNIDs`. -/
def rollForwardStateNIDs (snapshotRow : SnapshotRow) (ev : Event) : List Int :=
  let allStateEventNIDs := snapshotRow.MembershipEvents ++ snapshotRow.OtherEvents
  if ev.JSON.state_key.isSome then
    if ev.ReplacesNID ≠ 0 then
      replaceFirstNID ev.ReplacesNID ev.NID allStateEventNIDs
    else
      let alreadyExists := allStateEventNIDs.any (fun nid => decide (nid = ev.NID))
      if !alreadyExists then allStateEventNIDs ++ [ev.NID] else allStateEventNIDs
  else allStateEventNIDs

/-- A state or message event with the given NID and `replaces_nid`, for examples. -/
def rollEvent (nid replacesNID : Int) (stateKey : Option String) : Event :=
  { NID := nid, ID := "", RoomID := "!r", EventType := "m.room.name",
    StateKey := stateKey.getD "", BeforeStateSnapshotID := 1, ReplacesNID := replacesNID,
    JSON := { state_key := stateKey, membership := none } }

/-- The membership of the event is `join`. -/
def isJoinEvent (ev : Event) : Bool := decide (gjsonStr ev.JSON.membership = "join")

/-- The membership of the event is `leave` or `ban`. -/
def isLeaveOrBanEvent (ev : Event) : Bool :=
  decide (gjsonStr ev.JSON.membership = "leave") || decide (gjsonStr ev.JSON.membership = "ban")

/-- The given events that belong to one room, in their order. -/
def roomEvents (roomID : String) (membershipEvents : List Event) : List Event :=
  membershipEvents.filter (fun ev => decide (ev.RoomID = roomID))

/-- The last join, leave or ban event of a list, if there is one. -/
def lastJoinLeaveBan (evs : List Event) : Option Event :=
  (evs.filter (fun ev => isJoinEvent ev || isLeaveOrBanEvent ev)).getLast?

/-- The events after the last leave or ban of a list (all of them when there is none). -/
def afterLastLeaveOrBan (evs : List Event) : List Event :=
  (evs.reverse.takeWhile (fun ev => !isLeaveOrBanEvent ev)).reverse

/-- The join NID that the claim describes for one room: the NID of the earliest join
after the room's last leave or ban, if there is such a join. -/
def joinNIDOf (evs : List Event) : Option Int :=
  ((afterLastLeaveOrBan evs).find? isJoinEvent).map (fun ev => ev.NID)

/-- The effect of one event of a room on that room's entry in `joinNIDsByRoomID`. -/
def joinNIDStep (entry : Option Int) (ev : Event) : Option Int :=
  if isJoinEvent ev then (if entry.isSome then entry else some ev.NID)
  else if isLeaveOrBanEvent ev then none
  else entry

/-- Modelled from the spec: the table `syncv3_events` together with its sequence
`syncv3_event_nids_seq`, as the Postgres statements of `event_table.go` see them. The
rows are kept in insertion order; `nextNID` is the value the sequence hands out next.
The spec: "NIDs come from a single monotonic sequence". -/
structure EventStore where
  rows : List Event
  nextNID : Int
  deriving DecidableEq, Repr

/-- The event IDs stored in the table. -/
def EventStore.ids (store : EventStore) : List String := store.rows.map (fun row => row.ID)

/-- Modelled from the spec: the effect of the statement `INSERT INTO syncv3_events
(event_id, event) VALUES (:event_id, :event) ON CONFLICT (event_id) DO NOTHING` for one
row, on the pair of the table and the count of affected rows. The spec: "Inserts are
conflict-safe on `event_id`: duplicates are silently skipped and do not consume a NID."
A row that is added gets the next NID of the sequence. -/
def insertOnConflictDoNothing (st : EventStore × Int) (ev : Event) : EventStore × Int :=
  if ev.ID ∈ st.1.ids then st
  else
    ({ rows := st.1.rows ++ [{ ev with NID := st.1.nextNID }], nextNID := st.1.nextNID + 1 },
      st.2 + 1)

/-- Modelled from the spec: the insert statement run over a slice of events, followed by
`RowsAffected`: the rows are handled in order and the count is the number of rows
actually inserted. -/
def namedExecInsert (store : EventStore) (events : List Event) : EventStore × Int :=
  events.foldl insertOnConflictDoNothing (store, 0)

/-- The error with which `txn.NamedExec` rejects an empty slice before anything reaches
the database. The library goes on with the Go syntax of the argument after this text;
the model keeps the fixed part. -/
def errEmptySlice : String := "length of array is 0"

/-- Modelled from the spec: the call `txn.NamedExec(..., events)` with its error result.
The library binds the named parameters for every element of the slice and fails on a
slice of length 0; otherwise the statement runs as `namedExecInsert` describes. Failures
of the connection are not part of the model. -/
def NamedExec (store : EventStore) (events : List Event) : Except String (EventStore × Int) :=
  if events.length = 0 then Except.error errEmptySlice
  else Except.ok (namedExecInsert store events)

/-- The error of `Insert` for an event without ID whose JSON has no `event_id` (the
spec's `BadEvent`). -/
def errMissingEventID : String := "event JSON missing event_id key"

/-- The first loop of `EventTable.Insert` ("ensure event_id is set"): returns the
caller's slice as the loop leaves it, and the error when the loop returns early. -/
def ensureEventIDs : List Event → List Event × Option String
  | [] => ([], none)
  | ev :: rest =>
    if ev.ID ≠ "" then
      ((ev :: (ensureEventIDs rest).1), (ensureEventIDs rest).2)
    else if ev.JSON.event_id.isNone || gjsonStr ev.JSON.event_id == "" then
      (ev :: rest, some errMissingEventID)
    else
      (({ ev with ID := gjsonStr ev.JSON.event_id } :: (ensureEventIDs rest).1),
        (ensureEventIDs rest).2)

/-- What a call of `EventTable.Insert` leaves behind: the caller's slice, the table,
and the two return values. -/
structure InsertResult where
  events : List Event
  store : EventStore
  numNew : Int
  err : Option String
  deriving DecidableEq, Repr

/-- The method `EventTable.Insert`: the loop that fills in the event IDs, then
`txn.NamedExec`, whose error is returned with the count 0, then `RowsAffected`. -/
def Insert (store : EventStore) (events : List Event) : InsertResult :=
  match ensureEventIDs events with
  | (events, some err) => { events := events, store := store, numNew := 0, err := some err }
  | (events, none) =>
    match NamedExec store events with
    | Except.error err => { events := events, store := store, numNew := 0, err := some err }
    | Except.ok result =>
      { events := events, store := result.1, numNew := result.2, err := none }

/-- An event record with the given ID and JSON `event_id`, for examples. -/
def eventRecord (id : String) (jsonEventID : Option String) : Event :=
  { NID := 0, ID := id, RoomID := "", EventType := "", StateKey := "",
    BeforeStateSnapshotID := 0, ReplacesNID := 0,
    JSON := { state_key := none, membership := none, event_id := jsonEventID } }

/-- The three events of `TestEventTable`: the third has no ID on the record. -/
def testEvents : List Event :=
  [eventRecord "100" (some "100"), eventRecord "101" (some "101"),
    eventRecord "" (some "102")]

/-- The record of an event after the first loop of `Insert`: an empty ID is taken from
the `event_id` of the JSON body. -/
def withEventID (ev : Event) : Event :=
  if ev.ID ≠ "" then ev else { ev with ID := gjsonStr ev.JSON.event_id }

/-- The record has no ID and its JSON has no `event_id` (or an empty one). -/
def LacksEventID (ev : Event) : Prop := ev.ID = "" ∧ gjsonStr ev.JSON.event_id = ""

instance (ev : Event) : Decidable (LacksEventID ev) := by
  unfold LacksEventID; infer_instance

/-- The empty events table, whose sequence starts at 1. -/
def emptyStore : EventStore := { rows := [], nextNID := 1 }

/-- The membership events of `userID` in `roomID` with NID in `(lo, hi]`, in the order of
the table: the rows that `SelectEventsWithTypeStateKey` returns, restricted to the
room. -/
def userRoomEvents (table : List Event) (userID roomID : String) (lo hi : Int) : List Event :=
  (table.filter (selects userID lo hi)).filter (fun ev => decide (ev.RoomID = roomID))

/-- The NID and membership kind of an event row. -/
def abstractEvent (ev : Event) : Int × MemberKind :=
  (ev.NID, kindOf (gjsonStr ev.JSON.membership))

/-- Modelled from the spec: the struct `internal.EventMetadata`, declared outside the
embedded files, as `MetadataForAllRooms` builds it: the NID and the `origin_server_ts`
of the latest event of one type. -/
structure EventMetadata where
  NID : Int
  Timestamp : Nat
  deriving DecidableEq, Repr

/-- Modelled from the spec: the struct `internal.RoomMetadata`, declared outside the
embedded files, with the fields that the first two blocks of `MetadataForAllRooms` and
`AllJoinedMembers` touch. The spec lists, per room, the join count, the invite count
and the "last message timestamp and latest-event-by-type". `LatestEventsByType` is a Go
map, which is nil (`none`) in the zero value of the struct. -/
structure RoomMetadata where
  RoomID : String
  JoinCount : Int
  InviteCount : Int
  LastMessageTimestamp : Nat
  LatestEventsByType : Option (GoMap EventMetadata)
  deriving DecidableEq, Repr

/-- The zero value of `RoomMetadata`, which `result[roomID]` yields for a missing key. -/
def zeroRoomMetadata : RoomMetadata :=
  { RoomID := "", JoinCount := 0, InviteCount := 0, LastMessageTimestamp := 0,
    LatestEventsByType := none }

/-- Modelled from the spec: the constructor `internal.NewRoomMetadata`, declared outside
the embedded files. It receives the room ID only; the spec calls its result "an initial
`RoomMetadata` per room". The model sets the room ID, makes the map, and leaves every
other field at its zero value. -/
def NewRoomMetadata (roomID : String) : RoomMetadata :=
  { RoomID := roomID, JoinCount := 0, InviteCount := 0, LastMessageTimestamp := 0,
    LatestEventsByType := some [] }

/-- The reading `.Uint()` of a `gjson` result: zero when the path is absent. -/
def gjsonUint (v : Option Nat) : Nat := v.getD 0

/-- The message of the run-time failure on writing into a nil map. -/
def errNilMap : String := "assignment to entry in nil map"

/-- The body of the loop `for _, ev := range events` of `MetadataForAllRooms` ("work out
latest timestamps"), with the constructor `internal.NewRoomMetadata` as a parameter. The
statements are kept in the order of the source: the timestamp is written into the copy
read from the map, and only then is that copy replaced by a new metadata value when the
room had no entry. -/
def latestEventStep (newRoomMetadata : String → RoomMetadata) (result : GoMap RoomMetadata)
    (ev : Event) : Except String (GoMap RoomMetadata) :=
  let ok := GoMap.contains result ev.RoomID
  let metadata := (GoMap.get? result ev.RoomID).getD zeroRoomMetadata
  let metadata :=
    { metadata with LastMessageTimestamp := gjsonUint ev.JSON.origin_server_ts }
  let metadata := if !ok then newRoomMetadata ev.RoomID else metadata
  let eventMetadata : EventMetadata :=
    { NID := ev.NID, Timestamp := gjsonUint ev.JSON.origin_server_ts }
  match metadata.LatestEventsByType with
  | none => Except.error errNilMap
  | some latestEventsByType =>
    let metadata :=
      { metadata with
        LatestEventsByType :=
          some (GoMap.set latestEventsByType (gjsonStr ev.JSON.evType) eventMetadata) }
    let metadata := { metadata with RoomID := ev.RoomID }
    Except.ok (GoMap.set result ev.RoomID metadata)

/-- The loop `for _, ev := range events` of `MetadataForAllRooms` over the rows of
`selectLatestEventByTypeInAllRooms`, on the map `result`. -/
def latestEventLoop (newRoomMetadata : String → RoomMetadata) :
    GoMap RoomMetadata → List Event → Except String (GoMap RoomMetadata)
  | result, [] => Except.ok result
  | result, ev :: rest =>
    match latestEventStep newRoomMetadata result ev with
    | Except.error e => Except.error e
    | Except.ok result => latestEventLoop newRoomMetadata result rest

/-- The rows of one room among the rows of `selectLatestEventByTypeInAllRooms`, in the
order in which the loop processes them. -/
def rowsOfRoom (roomID : String) (events : List Event) : List Event :=
  events.filter (fun ev => decide (ev.RoomID = roomID))

/-- The last message timestamp of a room after the loop, as the code computes it: with
no row the entry is as before; otherwise it is the `origin_server_ts` of the last row,
except that a room with no entry before and a single row keeps the timestamp of the
newly constructed metadata. -/
def timestampAfter (newRoomMetadata : String → RoomMetadata) (roomID : String)
    (entry : Option RoomMetadata) (rows : List Event) : Option Nat :=
  match rows.getLast? with
  | none => entry.map (fun m => m.LastMessageTimestamp)
  | some last =>
    if entry = none ∧ rows.length = 1 then
      some (newRoomMetadata roomID).LastMessageTimestamp
    else some (gjsonUint last.JSON.origin_server_ts)

/-- A row of the latest-event-by-type result, for examples. -/
def latestRow (nid : Int) (room evType : String) (ts : Nat) : Event :=
  { NID := nid, ID := "", RoomID := room, EventType := evType, StateKey := "",
    BeforeStateSnapshotID := 0, ReplacesNID := 0,
    JSON := { state_key := none, membership := none, origin_server_ts := some ts,
              evType := some evType } }

/-- Modelled from the spec: `EventTable.SelectByNIDs` as `storage.go` calls it, with a
leading flag that the embedded `event_table.go` does not have yet. The spec gives
"SelectByNIDs(nids[]) → events[] (ordered by NID ascending)", and the embedded version
runs `WHERE event_nid IN (?) ORDER BY event_nid ASC`: the rows of the table whose NID is
listed, each once, in the ascending NID order in which the table is held. -/
def SelectByNIDs (table : List Event) (nids : List Int) : Except String (List Event) :=
  Except.ok (table.filter (fun ev => decide (ev.NID ∈ nids)))

/-- The events that the empty-filter path of `RoomStateAfterEventPosition` stores for the
room of one latest event: the rows selected for the rolled-forward NID list. -/
def emptyFilterEvents (table : List Event) (snapshotRow : SnapshotRow) (ev : Event) :
    Except String (List Event) :=
  SelectByNIDs table (rollForwardStateNIDs snapshotRow ev)

/-- The `WHERE` clause that the filtered path builds from `eventTypesToStateKeys`: the
disjunction, over the event types of the filter, of `event_type = ?` for a type with no
state keys and of `(event_type = ? AND state_key = ?)` for each listed state key. -/
def matchesFilter (eventTypesToStateKeys : GoMap (List String)) (ev : Event) : Bool :=
  eventTypesToStateKeys.any (fun kv =>
    if kv.2.length = 0 then decide (ev.EventType = kv.1)
    else kv.2.any (fun skey => decide (ev.EventType = kv.1) && decide (ev.StateKey = skey)))

/-- The choice of `nidcols` on the filtered path, applied to one snapshot row:
`membership_events` when the filter names `m.room.member` only, `events` when it names
other types only, and `array_cat(events, membership_events)` otherwise. -/
def snapshotNIDColumns (hasMembershipFilter hasOtherFilter : Bool) (row : SnapshotRow) :
    List Int :=
  if hasMembershipFilter && !hasOtherFilter then row.MembershipEvents
  else if !hasMembershipFilter && hasOtherFilter then row.OtherEvents
  else row.OtherEvents ++ row.MembershipEvents

/-- The columns that the filtered path scans from a row of its query: `event_nid`,
`room_id`, `event_type`, `state_key` and `event`; the other fields stay zero. -/
def scanRow (row : Event) : Event :=
  { NID := row.NID, ID := "", RoomID := row.RoomID, EventType := row.EventType,
    StateKey := row.StateKey, BeforeStateSnapshotID := 0, ReplacesNID := 0, JSON := row.JSON }

/-- The statements `roomIndex[ev.RoomID] = i` of the loop over `latestEvents`. -/
def roomIndexOf (latestEvents : List Event) : GoMap Nat :=
  latestEvents.enum.foldl (fun roomIndex p => GoMap.set roomIndex p.2.RoomID p.1) []

/-- The statement `roomToEvents[ev.RoomID] = append(roomToEvents[ev.RoomID], ev)`. -/
def pushEvent (roomToEvents : GoMap (List Event)) (ev : Event) : GoMap (List Event) :=
  GoMap.set roomToEvents ev.RoomID (GoMap.getSlice roomToEvents ev.RoomID ++ [ev])

/-- The message of the run-time failure on an index outside a slice. -/
def errIndexOutOfRange : String := "index out of range"

/-- The loop `for rows.Next()` of the filtered path: a row whose NID is the
`replaces_nid` of the latest event of its room is replaced by that latest event, and
the event is appended to the list of its room. -/
def replaceLoop (latestEvents : List Event) (roomIndex : GoMap Nat) :
    GoMap (List Event) → List Event → Except String (GoMap (List Event))
  | roomToEvents, [] => Except.ok roomToEvents
  | roomToEvents, ev :: rest =>
    match latestEvents[(GoMap.get? roomIndex ev.RoomID).getD 0]? with
    | none => Except.error errIndexOutOfRange
    | some latest =>
      let ev := if latest.ReplacesNID = ev.NID then latest else ev
      replaceLoop latestEvents roomIndex (pushEvent roomToEvents ev) rest

/-- The body of the loop `for evType, stateKeys := range eventTypesToStateKeys` at the end
of the filtered path, for one latest event: the event is appended when its type is
`evType` and `stateKeys` is empty or lists its state key (the inner loop breaks at the
first hit). -/
def appendIfListed (latest : Event) (roomToEvents : GoMap (List Event))
    (kv : String × List String) : GoMap (List Event) :=
  if kv.1 ≠ latest.EventType then roomToEvents
  else if kv.2.length = 0 then pushEvent roomToEvents latest
  else if kv.2.any (fun skey => decide (skey = latest.StateKey)) then
    pushEvent roomToEvents latest
  else roomToEvents

/-- The body of the last loop of the filtered path, `for i := range latestEvents`: only
a latest event with `replaces_nid = 0` is looked at. -/
def appendLatest (eventTypesToStateKeys : GoMap (List String))
    (roomToEvents : GoMap (List Event)) (latest : Event) : GoMap (List Event) :=
  if latest.ReplacesNID = 0 then
    eventTypesToStateKeys.foldl (appendIfListed latest) roomToEvents
  else roomToEvents

/-- The filtered path of `RoomStateAfterEventPosition` (the `else` branch of
`len(eventTypesToStateKeys) == 0`), from the latest events with their before-snapshot
IDs filled in to the map `roomToEvents`. The events table is the list of its rows in
ascending NID order and the snapshots table is a lookup by `snapshot_id`. -/
def filteredStateEvents (table : List Event) (snapshots : Int → Option SnapshotRow)
    (latestEvents : List Event) (eventTypesToStateKeys : GoMap (List String)) :
    Except String (GoMap (List Event)) :=
  let roomIndex := roomIndexOf latestEvents
  let hasMembershipFilter :=
    (GoMap.keys eventTypesToStateKeys).any (fun evType => decide (evType = "m.room.member"))
  let hasOtherFilter :=
    (GoMap.keys eventTypesToStateKeys).any (fun evType => !decide (evType = "m.room.member"))
  let snapIDs := latestEvents.map (fun ev => ev.BeforeStateSnapshotID)
  let nids := (snapIDs.filterMap snapshots).flatMap
    (snapshotNIDColumns hasMembershipFilter hasOtherFilter)
  let rows := (table.filter (fun ev =>
    matchesFilter eventTypesToStateKeys ev && decide (ev.NID ∈ nids))).map scanRow
  match replaceLoop latestEvents roomIndex [] rows with
  | Except.error e => Except.error e
  | Except.ok roomToEvents =>
    Except.ok (latestEvents.foldl (appendLatest eventTypesToStateKeys) roomToEvents)

/-- A state event row of room `!r`, for examples. -/
def stateRow (nid : Int) (evType stateKey : String) (beforeSnapshot replacesNID : Int) :
    Event :=
  { NID := nid, ID := "", RoomID := "!r", EventType := evType, StateKey := stateKey,
    BeforeStateSnapshotID := beforeSnapshot, ReplacesNID := replacesNID,
    JSON := { state_key := some stateKey, membership := none, evType := some evType } }

/-- A snapshots table with the single snapshot 1, for examples. -/
def oneSnapshot (row : SnapshotRow) (snapshotID : Int) : Option SnapshotRow :=
  if snapshotID = 1 then some row else none

/-- The test of the last loop of the filtered path for one entry of the filter: the
entry names the type of the event and has no state keys or lists the event's state
key. -/
def listedBy (ev : Event) (kv : String × List String) : Bool :=
  decide (kv.1 = ev.EventType) &&
    (decide (kv.2.length = 0) || kv.2.any (fun skey => decide (skey = ev.StateKey)))

end State

/-! ## Theorems: Go maps -/

namespace GoMap

variable {V W : Type}

theorem get?_delete (m : GoMap V) (k k' : String) :
    get? (delete m k) k' = if k' = k then none else get? m k' := by
  induction m with
  | nil => simp [delete, get?]
  | cons kv rest ih =>
    obtain ⟨a, v⟩ := kv
    by_cases hak : a = k
    · subst hak
      have : delete ((a, v) :: rest) a = delete rest a := by simp [delete]
      rw [this, ih]
      by_cases h : k' = a
      · simp [h]
      · have h' : ¬ a = k' := fun e => h e.symm
        simp [h, get?, h']
    · have : delete ((a, v) :: rest) k = (a, v) :: delete rest k := by simp [delete, hak]
      rw [this]
      by_cases h : a = k'
      · subst h
        simp [get?, hak]
      · simp only [get?, h, if_false]
        exact ih

theorem get?_set (m : GoMap V) (k : String) (v : V) (k' : String) :
    get? (set m k v) k' = if k' = k then some v else get? m k' := by
  by_cases h : k' = k
  · subst h
    simp [set, get?]
  · have h' : ¬ k = k' := fun e => h e.symm
    simp only [set, get?, h', h, if_false]
    rw [get?_delete]
    simp [h]

theorem mem_keys_iff (m : GoMap V) (k : String) : k ∈ keys m ↔ contains m k = true := by
  induction m with
  | nil => simp [keys, contains, get?]
  | cons kv rest ih =>
    obtain ⟨a, v⟩ := kv
    by_cases h : a = k
    · simp [keys, contains, get?, h]
    · have h' : ¬ k = a := fun e => h e.symm
      have ih' : k ∈ List.map Prod.fst rest ↔ (get? rest k).isSome = true := ih
      simp only [keys, contains, get?, h, if_false, List.map_cons, List.mem_cons, h', false_or]
      exact ih'

theorem keys_delete (m : GoMap V) (k : String) :
    keys (delete m k) = (keys m).filter (fun a => decide (a ≠ k)) := by
  induction m with
  | nil => simp [keys, delete]
  | cons kv rest ih =>
    obtain ⟨a, v⟩ := kv
    have ih' : List.map Prod.fst (List.filter (fun kv => decide (kv.1 ≠ k)) rest) =
        List.filter (fun a => decide (a ≠ k)) (List.map Prod.fst rest) := ih
    by_cases h : a = k
    · simp only [keys, delete, List.filter_cons, h, List.map_cons, ne_eq, not_true_eq_false,
        decide_False, Bool.false_eq_true, if_false]
      exact ih'
    · simp only [keys, delete, List.filter_cons, h, List.map_cons, ne_eq, not_false_eq_true,
        decide_True, if_true, List.cons.injEq, true_and]
      exact ih'

theorem wf_delete (m : GoMap V) (k : String) (h : WF m) : WF (delete m k) := by
  unfold WF at *
  rw [keys_delete]
  exact h.filter _

theorem wf_set (m : GoMap V) (k : String) (v : V) (h : WF m) : WF (set m k v) := by
  have hd := wf_delete m k h
  unfold WF at *
  simp only [set, keys, List.map_cons, List.nodup_cons]
  refine ⟨?_, hd⟩
  have := keys_delete m k
  unfold keys at this
  rw [this]
  simp

theorem contains_eq_false_iff (m : GoMap V) (k : String) :
    contains m k = false ↔ get? m k = none := by
  unfold contains
  cases get? m k <;> simp

theorem wf_tail (kv : String × V) (rest : GoMap V) (h : WF (kv :: rest)) : WF rest := by
  unfold WF keys at *
  simp only [List.map_cons, List.nodup_cons] at h
  exact h.2

theorem get?_eq_none_of_wf_cons (a : String) (v : V) (rest : GoMap V)
    (h : WF ((a, v) :: rest)) : get? rest a = none := by
  have hnot : a ∉ keys rest := by
    unfold WF keys at *
    simp only [List.map_cons, List.nodup_cons] at h
    exact h.1
  rw [← contains_eq_false_iff]
  cases hc : contains rest a with
  | false => rfl
  | true => exact absurd ((mem_keys_iff rest a).2 hc) hnot

/-- Ranging over a map and storing an image of every value in another map. -/
theorem get?_foldl_set (f : V → W) (l : GoMap V) (hwf : WF l) (m : GoMap W) (k : String) :
    get? (l.foldl (fun m kv => set m kv.1 (f kv.2)) m) k =
      match get? l k with
      | some v => some (f v)
      | none => get? m k := by
  induction l generalizing m with
  | nil => simp [get?]
  | cons kv rest ih =>
    obtain ⟨a, v⟩ := kv
    have hnone := get?_eq_none_of_wf_cons a v rest hwf
    simp only [List.foldl_cons]
    rw [ih (wf_tail _ _ hwf), get?_set]
    by_cases hak : a = k
    · subst hak
      simp [hnone, get?]
    · have hka : ¬ k = a := fun e => hak e.symm
      simp only [get?, hak, hka, if_false]

theorem getSlice_set {α : Type} (m : GoMap (List α)) (k : String) (v : List α) (k' : String) :
    getSlice (set m k v) k' = if k' = k then v else getSlice m k' := by
  unfold getSlice
  rw [get?_set]
  by_cases h : k' = k <;> simp [h]

theorem getSlice_delete {α : Type} (m : GoMap (List α)) (k k' : String) :
    getSlice (delete m k) k' = if k' = k then [] else getSlice m k' := by
  unfold getSlice
  rw [get?_delete]
  by_cases h : k' = k <;> simp [h]

end GoMap

/-! ## Theorems: the request engine -/

namespace Sync3

theorem inside_iff (r : SliceRanges) (i : Int) :
    SliceRanges.Inside r i = true ↔ ∃ sr ∈ r, sr.1 ≤ i ∧ i ≤ sr.2 := by
  simp [SliceRanges.Inside, List.any_eq_true]

theorem inside_eq_false_iff (r : SliceRanges) (i : Int) :
    SliceRanges.Inside r i = false ↔ ∀ sr ∈ r, ¬ (sr.1 ≤ i ∧ i ≤ sr.2) := by
  rw [← Bool.not_eq_true, inside_iff]
  simp

theorem mem_boundaries (r : SliceRanges) (b : Int) :
    b ∈ SliceRanges.boundaries r ↔ ∃ sr ∈ r, b = sr.1 ∨ b = sr.2 := by
  simp [SliceRanges.boundaries, List.mem_flatMap]

theorem greatestBelow_spec (i : Int) (bs : List Int) :
    (∀ c, greatestBelow i bs = some c → c ∈ bs ∧ c < i ∧ ∀ b ∈ bs, b < i → b ≤ c) ∧
    (greatestBelow i bs = none → ∀ b ∈ bs, ¬ b < i) := by
  induction bs with
  | nil => simp [greatestBelow]
  | cons b bs ih =>
    obtain ⟨ih1, ih2⟩ := ih
    simp only [greatestBelow]
    cases hg : greatestBelow i bs with
    | none =>
      have hnone := ih2 hg
      by_cases hb : b < i
      · simp only [hb, if_true]
        refine ⟨?_, by simp⟩
        intro c hc
        simp only [Option.some.injEq] at hc
        subst hc
        refine ⟨by simp, hb, ?_⟩
        intro x hx hxi
        rcases List.mem_cons.1 hx with rfl | hx
        · exact le_refl _
        · exact absurd hxi (hnone x hx)
      · simp only [hb, if_false]
        refine ⟨by simp, ?_⟩
        intro _ x hx
        rcases List.mem_cons.1 hx with rfl | hx
        · exact hb
        · exact hnone x hx
    | some c =>
      obtain ⟨hcm, hci, hcmax⟩ := ih1 c hg
      by_cases hb : b < i ∧ c < b
      · simp only [hb, and_self, if_true]
        refine ⟨?_, by simp⟩
        intro d hd
        simp only [Option.some.injEq] at hd
        subst hd
        refine ⟨by simp, hb.1, ?_⟩
        intro x hx hxi
        rcases List.mem_cons.1 hx with rfl | hx
        · exact le_refl _
        · exact le_trans (hcmax x hx hxi) (le_of_lt hb.2)
      · simp only [hb, if_false]
        refine ⟨?_, by simp⟩
        intro d hd
        simp only [Option.some.injEq] at hd
        subst hd
        refine ⟨List.mem_cons_of_mem _ hcm, hci, ?_⟩
        intro x hx hxi
        rcases List.mem_cons.1 hx with rfl | hx
        · by_contra hlt
          exact hb ⟨hxi, not_le.1 hlt⟩
        · exact hcmax x hx hxi

theorem leastAbove_spec (i : Int) (bs : List Int) :
    (∀ c, leastAbove i bs = some c → c ∈ bs ∧ i < c ∧ ∀ b ∈ bs, i < b → c ≤ b) ∧
    (leastAbove i bs = none → ∀ b ∈ bs, ¬ i < b) := by
  induction bs with
  | nil => simp [leastAbove]
  | cons b bs ih =>
    obtain ⟨ih1, ih2⟩ := ih
    simp only [leastAbove]
    cases hg : leastAbove i bs with
    | none =>
      have hnone := ih2 hg
      by_cases hb : i < b
      · simp only [hb, if_true]
        refine ⟨?_, by simp⟩
        intro c hc
        simp only [Option.some.injEq] at hc
        subst hc
        refine ⟨by simp, hb, ?_⟩
        intro x hx hxi
        rcases List.mem_cons.1 hx with rfl | hx
        · exact le_refl _
        · exact absurd hxi (hnone x hx)
      · simp only [hb, if_false]
        refine ⟨by simp, ?_⟩
        intro _ x hx
        rcases List.mem_cons.1 hx with rfl | hx
        · exact hb
        · exact hnone x hx
    | some c =>
      obtain ⟨hcm, hci, hcmin⟩ := ih1 c hg
      by_cases hb : i < b ∧ b < c
      · simp only [hb, and_self, if_true]
        refine ⟨?_, by simp⟩
        intro d hd
        simp only [Option.some.injEq] at hd
        subst hd
        refine ⟨by simp, hb.1, ?_⟩
        intro x hx hxi
        rcases List.mem_cons.1 hx with rfl | hx
        · exact le_refl _
        · exact le_trans (le_of_lt hb.2) (hcmin x hx hxi)
      · simp only [hb, if_false]
        refine ⟨?_, by simp⟩
        intro d hd
        simp only [Option.some.injEq] at hd
        subst hd
        refine ⟨List.mem_cons_of_mem _ hcm, hci, ?_⟩
        intro x hx hxi
        rcases List.mem_cons.1 hx with rfl | hx
        · by_contra hlt
          exact hb ⟨hxi, not_le.1 hlt⟩
        · exact hcmin x hx hxi

theorem closest_towardsZero (r : SliceRanges) (i b : Int)
    (hb : b ∈ SliceRanges.boundaries r) (hlt : b < i) :
    SliceRanges.ClosestInDirection r i true ∈ SliceRanges.boundaries r ∧
    SliceRanges.ClosestInDirection r i true < i ∧
    ∀ x ∈ SliceRanges.boundaries r, x < i → x ≤ SliceRanges.ClosestInDirection r i true := by
  obtain ⟨h1, h2⟩ := greatestBelow_spec i (SliceRanges.boundaries r)
  cases hg : greatestBelow i (SliceRanges.boundaries r) with
  | none => exact absurd hlt (h2 hg b hb)
  | some c =>
    have hc := h1 c hg
    simp only [SliceRanges.ClosestInDirection, if_true, hg, Option.getD_some]
    exact hc

theorem closest_awayFromZero (r : SliceRanges) (i b : Int)
    (hb : b ∈ SliceRanges.boundaries r) (hlt : i < b) :
    SliceRanges.ClosestInDirection r i false ∈ SliceRanges.boundaries r ∧
    i < SliceRanges.ClosestInDirection r i false ∧
    ∀ x ∈ SliceRanges.boundaries r, i < x → SliceRanges.ClosestInDirection r i false ≤ x := by
  obtain ⟨h1, h2⟩ := leastAbove_spec i (SliceRanges.boundaries r)
  cases hg : leastAbove i (SliceRanges.boundaries r) with
  | none => exact absurd hlt (h2 hg b hb)
  | some c =>
    have hc := h1 c hg
    simp only [SliceRanges.ClosestInDirection, Bool.false_eq_true, if_false, hg,
      Option.getD_some]
    exact hc

/-- An index inside a range and an index outside every range: when the outside one is
the greater, the upper bound of that range is a boundary below it. -/
theorem boundary_below_outside (r : SliceRanges) (a b : Int)
    (ha : SliceRanges.Inside r a = true) (hb : SliceRanges.Inside r b = false) (hab : a < b) :
    ∃ x ∈ SliceRanges.boundaries r, x < b := by
  obtain ⟨sr, hsr, h1, h2⟩ := (inside_iff r a).1 ha
  have hout := (inside_eq_false_iff r b).1 hb sr hsr
  refine ⟨sr.2, (mem_boundaries r sr.2).2 ⟨sr, hsr, Or.inr rfl⟩, ?_⟩
  by_contra hcon
  exact hout ⟨by omega, by omega⟩

/-- An index inside a range and an index outside every range: when the outside one is
the smaller, the lower bound of that range is a boundary above it. -/
theorem boundary_above_outside (r : SliceRanges) (a b : Int)
    (ha : SliceRanges.Inside r a = true) (hb : SliceRanges.Inside r b = false) (hab : b < a) :
    ∃ x ∈ SliceRanges.boundaries r, b < x := by
  obtain ⟨sr, hsr, h1, h2⟩ := (inside_iff r a).1 ha
  have hout := (inside_eq_false_iff r b).1 hb sr hsr
  refine ⟨sr.1, (mem_boundaries r sr.1).2 ⟨sr, hsr, Or.inl rfl⟩, ?_⟩
  by_contra hcon
  exact hout ⟨by omega, by omega⟩

theorem calculateMoveIndexes_from_inside (rl : RequestList) (fromIndex toIndex : Int)
    (hf : SliceRanges.Inside rl.ranges fromIndex = true)
    (ht : SliceRanges.Inside rl.ranges toIndex = false) :
    CalculateMoveIndexes rl fromIndex toIndex =
      (fromIndex,
        SliceRanges.ClosestInDirection rl.ranges toIndex (decide (toIndex > fromIndex)),
        true) := by
  simp [CalculateMoveIndexes, hf, ht]

theorem calculateMoveIndexes_to_inside (rl : RequestList) (fromIndex toIndex : Int)
    (hf : SliceRanges.Inside rl.ranges fromIndex = false)
    (ht : SliceRanges.Inside rl.ranges toIndex = true) :
    CalculateMoveIndexes rl fromIndex toIndex =
      (SliceRanges.ClosestInDirection rl.ranges fromIndex (decide (toIndex < fromIndex)),
        toIndex, true) := by
  simp [CalculateMoveIndexes, hf, ht]

theorem calculateMoveIndexes_both_outside (rl : RequestList) (fromIndex toIndex : Int)
    (hf : SliceRanges.Inside rl.ranges fromIndex = false)
    (ht : SliceRanges.Inside rl.ranges toIndex = false) :
    CalculateMoveIndexes rl fromIndex toIndex =
      match jumpedOverRanges rl.ranges (min fromIndex toIndex) (max fromIndex toIndex) with
      | [] => (0, 0, false)
      | jumpedOverRange :: _ =>
        if fromIndex > toIndex then (jumpedOverRange.2, jumpedOverRange.1, true)
        else (jumpedOverRange.1, jumpedOverRange.2, true) := by
  have hmin : (if fromIndex < toIndex then fromIndex else toIndex) = min fromIndex toIndex := by
    by_cases h : fromIndex < toIndex
    · simp [h, min_eq_left (le_of_lt h)]
    · simp [h, min_eq_right (not_lt.1 h)]
  have hmax : (if fromIndex < toIndex then toIndex else fromIndex) = max fromIndex toIndex := by
    by_cases h : fromIndex < toIndex
    · simp [h, max_eq_right (le_of_lt h)]
    · simp [h, max_eq_left (not_lt.1 h)]
  simp only [CalculateMoveIndexes, hf, ht, Bool.and_self, Bool.false_eq_true, if_false,
    Bool.not_false, if_true, hmin, hmax]

theorem jumpedOverRanges_eq_nil (ranges : SliceRanges) (lo hi : Int)
    (h : ∀ r ∈ ranges, ¬ Jumped lo hi r) : jumpedOverRanges ranges lo hi = [] := by
  unfold jumpedOverRanges
  rw [List.filter_eq_nil_iff]
  intro r hr hj
  apply h r hr
  simp only [Bool.and_eq_true, decide_eq_true_eq] at hj
  exact ⟨hj.1.1.1, hj.1.1.2, hj.1.2, hj.2⟩

theorem jumpedOverRanges_first (pre post : SliceRanges) (r : Int × Int) (lo hi : Int)
    (hpre : ∀ q ∈ pre, ¬ Jumped lo hi q) (hr : Jumped lo hi r) :
    jumpedOverRanges (pre ++ r :: post) lo hi = r :: jumpedOverRanges post lo hi := by
  have h1 := jumpedOverRanges_eq_nil pre lo hi hpre
  unfold jumpedOverRanges at *
  rw [List.filter_append, h1, List.nil_append, List.filter_cons]
  obtain ⟨a, b, c, d⟩ := hr
  simp [a, b, c, d]

/-- C3: when both indexes of a move lie inside tracked ranges and differ,
`CalculateMoveIndexes` returns them unchanged with `ok = true`, and `WriteSwapOp` on
the returned indexes emits exactly `DELETE(from)` followed by `INSERT(to, room)`. -/
theorem move_both_inside (rl : RequestList) (roomID : String) (fromIndex toIndex : Int)
    (hne : fromIndex ≠ toIndex)
    (hf : SliceRanges.Inside rl.ranges fromIndex = true)
    (ht : SliceRanges.Inside rl.ranges toIndex = true) :
    CalculateMoveIndexes rl fromIndex toIndex = (fromIndex, toIndex, true) ∧
    WriteSwapOp rl roomID (CalculateMoveIndexes rl fromIndex toIndex).1
        (CalculateMoveIndexes rl fromIndex toIndex).2.1 =
      [deleteOp fromIndex, insertOp toIndex roomID] := by
  have h : CalculateMoveIndexes rl fromIndex toIndex = (fromIndex, toIndex, true) := by
    simp [CalculateMoveIndexes, hf, ht]
  refine ⟨h, ?_⟩
  rw [h]
  simp [WriteSwapOp, hne, deleteOp, insertOp]

/-- Witness for C3: ranges `[[0,3]]`, room R4 moving from index 3 to index 0 gives
`DELETE(3)`, `INSERT(0, R4)`. -/
theorem move_both_inside_witness :
    ((3 : Int) ≠ 0 ∧ SliceRanges.Inside (listWithRanges [(0, 3)]).ranges 3 = true ∧
      SliceRanges.Inside (listWithRanges [(0, 3)]).ranges 0 = true) ∧
    CalculateMoveIndexes (listWithRanges [(0, 3)]) 3 0 = (3, 0, true) ∧
    WriteSwapOp (listWithRanges [(0, 3)]) "R4"
        (CalculateMoveIndexes (listWithRanges [(0, 3)]) 3 0).1
        (CalculateMoveIndexes (listWithRanges [(0, 3)]) 3 0).2.1 =
      [deleteOp 3, insertOp 0 "R4"] :=
  ⟨⟨by decide, by decide, by decide⟩,
    move_both_inside (listWithRanges [(0, 3)]) "R4" 3 0 (by decide) (by decide) (by decide)⟩

/-- C4: when exactly one of the two indexes of a move lies inside a range,
`CalculateMoveIndexes` returns `ok = true`, keeps the inside index, and replaces the
outside index by the closest range boundary in the direction of movement: for an
outside `to`, the greatest boundary below it when `to > from` and the least boundary
above it otherwise; for an outside `from`, the greatest boundary below it when
`to < from` and the least boundary above it otherwise. -/
theorem move_one_inside (rl : RequestList) (fromIndex toIndex : Int)
    (hx : SliceRanges.Inside rl.ranges fromIndex ≠ SliceRanges.Inside rl.ranges toIndex) :
    ∃ f t, CalculateMoveIndexes rl fromIndex toIndex = (f, t, true) ∧
      (SliceRanges.Inside rl.ranges fromIndex = true →
        f = fromIndex ∧ t ∈ SliceRanges.boundaries rl.ranges ∧
        (toIndex > fromIndex →
          t < toIndex ∧ ∀ b ∈ SliceRanges.boundaries rl.ranges, b < toIndex → b ≤ t) ∧
        (¬ toIndex > fromIndex →
          toIndex < t ∧ ∀ b ∈ SliceRanges.boundaries rl.ranges, toIndex < b → t ≤ b)) ∧
      (SliceRanges.Inside rl.ranges toIndex = true →
        t = toIndex ∧ f ∈ SliceRanges.boundaries rl.ranges ∧
        (toIndex < fromIndex →
          f < fromIndex ∧ ∀ b ∈ SliceRanges.boundaries rl.ranges, b < fromIndex → b ≤ f) ∧
        (¬ toIndex < fromIndex →
          fromIndex < f ∧ ∀ b ∈ SliceRanges.boundaries rl.ranges, fromIndex < b → f ≤ b)) := by
  have hne : fromIndex ≠ toIndex := fun e => hx (by rw [e])
  cases hf : SliceRanges.Inside rl.ranges fromIndex with
  | true =>
    have ht : SliceRanges.Inside rl.ranges toIndex = false := by
      cases h : SliceRanges.Inside rl.ranges toIndex with
      | true => exact absurd (hf.trans h.symm) hx
      | false => rfl
    refine ⟨_, _, calculateMoveIndexes_from_inside rl fromIndex toIndex hf ht, ?_, ?_⟩
    · intro _
      by_cases hgt : toIndex > fromIndex
      · obtain ⟨b, hb, hlt⟩ := boundary_below_outside rl.ranges fromIndex toIndex hf ht hgt
        have hc := closest_towardsZero rl.ranges toIndex b hb hlt
        rw [decide_eq_true hgt]
        exact ⟨rfl, hc.1, fun _ => hc.2, fun h => absurd hgt h⟩
      · have hlt' : toIndex < fromIndex := by omega
        obtain ⟨b, hb, hlt⟩ := boundary_above_outside rl.ranges fromIndex toIndex hf ht hlt'
        have hc := closest_awayFromZero rl.ranges toIndex b hb hlt
        rw [decide_eq_false hgt]
        exact ⟨rfl, hc.1, fun h => absurd h hgt, fun _ => hc.2⟩
    · intro h
      rw [ht] at h
      exact absurd h (by simp)
  | false =>
    have ht : SliceRanges.Inside rl.ranges toIndex = true := by
      cases h : SliceRanges.Inside rl.ranges toIndex with
      | true => rfl
      | false => exact absurd (hf.trans h.symm) hx
    refine ⟨_, _, calculateMoveIndexes_to_inside rl fromIndex toIndex hf ht, ?_, ?_⟩
    · intro h
      exact absurd h (by simp)
    · intro _
      by_cases hlt' : toIndex < fromIndex
      · obtain ⟨b, hb, hlt⟩ := boundary_below_outside rl.ranges toIndex fromIndex ht hf hlt'
        have hc := closest_towardsZero rl.ranges fromIndex b hb hlt
        rw [decide_eq_true hlt']
        exact ⟨rfl, hc.1, fun _ => hc.2, fun h => absurd hlt' h⟩
      · have hgt : fromIndex < toIndex := by omega
        obtain ⟨b, hb, hlt⟩ := boundary_above_outside rl.ranges toIndex fromIndex ht hf hgt
        have hc := closest_awayFromZero rl.ranges fromIndex b hb hlt
        rw [decide_eq_false hlt']
        exact ⟨rfl, hc.1, fun h => absurd h hlt', fun _ => hc.2⟩

/-- Witness for C4, with ranges `[[1,4],[7,9]]`: the move 5 -> 3 has only `to` inside,
and the theorem forces the result `(4, 3)`; likewise 5 -> 8 gives `(7, 8)`, 3 -> 6
gives `(3, 4)` and 8 -> 5 gives `(8, 7)`. -/
theorem move_one_inside_witness :
    SliceRanges.Inside (listWithRanges [(1, 4), (7, 9)]).ranges 5 ≠
      SliceRanges.Inside (listWithRanges [(1, 4), (7, 9)]).ranges 3 ∧
    CalculateMoveIndexes (listWithRanges [(1, 4), (7, 9)]) 5 3 = (4, 3, true) ∧
    CalculateMoveIndexes (listWithRanges [(1, 4), (7, 9)]) 5 8 = (7, 8, true) ∧
    CalculateMoveIndexes (listWithRanges [(1, 4), (7, 9)]) 3 6 = (3, 4, true) ∧
    CalculateMoveIndexes (listWithRanges [(1, 4), (7, 9)]) 8 5 = (8, 7, true) := by
  refine ⟨by decide, ?_, by decide, by decide, by decide⟩
  obtain ⟨f, t, h, -, h2⟩ := move_one_inside (listWithRanges [(1, 4), (7, 9)]) 5 3 (by decide)
  obtain ⟨ht, -, hlt, -⟩ := h2 (by decide)
  obtain ⟨hf5, hmax⟩ := hlt (by decide)
  have h4 := hmax 4 (by decide) (by decide)
  have hf : f = 4 := by omega
  rw [h, hf, ht]

/-- C5: when both indexes of a move lie outside every range: if no range has both
bounds strictly between `min from to` and `max from to`, `CalculateMoveIndexes`
returns `ok = false`; otherwise the indexes differ and it returns `ok = true` with the
bounds of the first such range in list order (and of no other range), as `(hi, lo)`
when `from > to` and as `(lo, hi)` when `from < to`. -/
theorem move_both_outside (rl : RequestList) (fromIndex toIndex : Int)
    (hf : SliceRanges.Inside rl.ranges fromIndex = false)
    (ht : SliceRanges.Inside rl.ranges toIndex = false) :
    ((∀ r ∈ rl.ranges, ¬ Jumped (min fromIndex toIndex) (max fromIndex toIndex) r) →
      (CalculateMoveIndexes rl fromIndex toIndex).2.2 = false) ∧
    (∀ (pre post : SliceRanges) (r : Int × Int), rl.ranges = pre ++ r :: post →
      (∀ q ∈ pre, ¬ Jumped (min fromIndex toIndex) (max fromIndex toIndex) q) →
      Jumped (min fromIndex toIndex) (max fromIndex toIndex) r →
      fromIndex ≠ toIndex ∧
      (fromIndex > toIndex → CalculateMoveIndexes rl fromIndex toIndex = (r.2, r.1, true)) ∧
      (fromIndex < toIndex → CalculateMoveIndexes rl fromIndex toIndex = (r.1, r.2, true))) := by
  have hc := calculateMoveIndexes_both_outside rl fromIndex toIndex hf ht
  refine ⟨?_, ?_⟩
  · intro hnone
    rw [hc, jumpedOverRanges_eq_nil rl.ranges _ _ hnone]
  · intro pre post r hsplit hpre hr
    have hj := jumpedOverRanges_first pre post r _ _ hpre hr
    rw [← hsplit] at hj
    rw [hj] at hc
    refine ⟨?_, ?_, ?_⟩
    · intro e
      obtain ⟨h1, h2, -, -⟩ := hr
      rw [e] at h1 h2
      simp only [min_self, max_self] at h1 h2
      omega
    · intro hgt
      rw [hc]
      simp [hgt]
    · intro hlt
      have hngt : ¬ fromIndex > toIndex := by omega
      rw [hc]
      simp [hngt]

/-- Witness for C5, with ranges `[[1,4],[7,9]]`: 5 -> 6 jumps no range and is not ok;
5 -> 0 jumps `[1,4]` and gives `(4, 1)`; 10 -> 0 jumps both ranges and still gives
`(4, 1)` only. -/
theorem move_both_outside_witness :
    (SliceRanges.Inside (listWithRanges [(1, 4), (7, 9)]).ranges 5 = false ∧
      SliceRanges.Inside (listWithRanges [(1, 4), (7, 9)]).ranges 6 = false ∧
      SliceRanges.Inside (listWithRanges [(1, 4), (7, 9)]).ranges 0 = false ∧
      SliceRanges.Inside (listWithRanges [(1, 4), (7, 9)]).ranges 10 = false) ∧
    (CalculateMoveIndexes (listWithRanges [(1, 4), (7, 9)]) 5 6).2.2 = false ∧
    CalculateMoveIndexes (listWithRanges [(1, 4), (7, 9)]) 5 0 = (4, 1, true) ∧
    CalculateMoveIndexes (listWithRanges [(1, 4), (7, 9)]) 10 0 = (4, 1, true) ∧
    Jumped (min 10 0) (max 10 0) (7, 9) :=
  ⟨⟨by decide, by decide, by decide, by decide⟩,
    (move_both_outside (listWithRanges [(1, 4), (7, 9)]) 5 6 (by decide) (by decide)).1
      (by decide),
    ((move_both_outside (listWithRanges [(1, 4), (7, 9)]) 5 0 (by decide) (by decide)).2
      [] [(7, 9)] (1, 4) rfl (by decide) (by decide)).2.1 (by decide),
    ((move_both_outside (listWithRanges [(1, 4), (7, 9)]) 10 0 (by decide) (by decide)).2
      [] [(7, 9)] (1, 4) rfl (by decide) (by decide)).2.1 (by decide),
    by decide⟩

/-- C6: `WriteDeleteOp(i)` returns nil exactly when `i < 0` or `i` lies inside none of
the list's ranges (bounds inclusive), and in every other case it returns the single
operation `DELETE(i)`. -/
theorem writeDeleteOp_nil_iff (rl : RequestList) (i : Int) :
    (WriteDeleteOp rl i = none ↔ (i < 0 ∨ ∀ r ∈ rl.ranges, ¬ (r.1 ≤ i ∧ i ≤ r.2))) ∧
    (WriteDeleteOp rl i = none ∨ WriteDeleteOp rl i = some (deleteOp i)) := by
  unfold WriteDeleteOp
  by_cases hneg : i < 0
  · simp [hneg]
  · cases hin : SliceRanges.Inside rl.ranges i with
    | true =>
      have hex := (inside_iff rl.ranges i).1 hin
      simp only [hneg, if_false, Bool.not_true, Bool.false_eq_true, false_or, deleteOp,
        or_true, and_true]
      constructor
      · intro h
        exact absurd h (by simp)
      · intro h
        obtain ⟨sr, hsr, hb⟩ := hex
        exact absurd hb (h sr hsr)
    | false =>
      have hall := (inside_eq_false_iff rl.ranges i).1 hin
      simp only [hneg, if_false, Bool.not_false, if_true, true_or, and_true, false_or, true_iff]
      exact hall

/-- Witness for C6: `WriteDeleteOp(-1)` is nil; `WriteDeleteOp(3)` is nil with ranges
`[[0,2]]` and is `DELETE(3)` with ranges `[[0,5]]`. -/
theorem writeDeleteOp_nil_iff_witness :
    WriteDeleteOp (listWithRanges [(0, 5)]) (-1) = none ∧
    WriteDeleteOp (listWithRanges [(0, 2)]) 3 = none ∧
    WriteDeleteOp (listWithRanges [(0, 5)]) 3 = some (deleteOp 3) :=
  ⟨(writeDeleteOp_nil_iff (listWithRanges [(0, 5)]) (-1)).1.2 (Or.inl (by decide)),
    (writeDeleteOp_nil_iff (listWithRanges [(0, 2)]) 3).1.2 (Or.inr (by decide)),
    ((writeDeleteOp_nil_iff (listWithRanges [(0, 5)]) 3).2).resolve_left
      (fun h => absurd ((writeDeleteOp_nil_iff (listWithRanges [(0, 5)]) 3).1.1 h)
        (by decide))⟩

/-- C7: a move from `i` to `i` emits no operations: `WriteSwapOp(room, i, i)` is empty,
and when `CalculateMoveIndexes(i, i)` returns `ok = true` the two indexes it returns
are equal, so the swap built from them is empty as well. -/
theorem move_same_index (rl : RequestList) (roomID : String) (i : Int) :
    WriteSwapOp rl roomID i i = [] ∧
    ((CalculateMoveIndexes rl i i).2.2 = true →
      (CalculateMoveIndexes rl i i).1 = (CalculateMoveIndexes rl i i).2.1 ∧
      WriteSwapOp rl roomID (CalculateMoveIndexes rl i i).1
        (CalculateMoveIndexes rl i i).2.1 = []) := by
  refine ⟨by simp [WriteSwapOp], ?_⟩
  intro hok
  have heq : (CalculateMoveIndexes rl i i).1 = (CalculateMoveIndexes rl i i).2.1 := by
    cases hin : SliceRanges.Inside rl.ranges i with
    | true => simp [CalculateMoveIndexes, hin]
    | false =>
      have hc := calculateMoveIndexes_both_outside rl i i hin hin
      have hnil : jumpedOverRanges rl.ranges (min i i) (max i i) = [] := by
        apply jumpedOverRanges_eq_nil
        intro r _ hj
        obtain ⟨h1, h2, -, -⟩ := hj
        simp only [min_self, max_self] at h1 h2
        omega
      rw [hnil] at hc
      rw [hc]
  refine ⟨heq, ?_⟩
  rw [heq]
  simp [WriteSwapOp]

/-- Witness for C7: `CalculateMoveIndexes(5, 5)` with ranges `[[0,10]]` is ok with equal
indexes, and the swap is empty. -/
theorem move_same_index_witness :
    (CalculateMoveIndexes (listWithRanges [(0, 10)]) 5 5).2.2 = true ∧
    WriteSwapOp (listWithRanges [(0, 10)]) "R" 5 5 = [] ∧
    (CalculateMoveIndexes (listWithRanges [(0, 10)]) 5 5).1 =
      (CalculateMoveIndexes (listWithRanges [(0, 10)]) 5 5).2.1 ∧
    WriteSwapOp (listWithRanges [(0, 10)]) "R"
      (CalculateMoveIndexes (listWithRanges [(0, 10)]) 5 5).1
      (CalculateMoveIndexes (listWithRanges [(0, 10)]) 5 5).2.1 = [] :=
  ⟨by decide, (move_same_index (listWithRanges [(0, 10)]) "R" 5).1,
    (move_same_index (listWithRanges [(0, 10)]) "R" 5).2 (by decide)⟩

/-- Counterexample to C8 as stated: with ranges `[[0,3]]`, the move of the room at
index 4 to index 0 is ok and the swap built from the returned indexes is not empty. -/
theorem outside_to_top_swap_not_empty :
    ¬ ((CalculateMoveIndexes (listWithRanges [(0, 3)]) 4 0).2.2 = true →
      WriteSwapOp (listWithRanges [(0, 3)]) "R5"
        (CalculateMoveIndexes (listWithRanges [(0, 3)]) 4 0).1
        (CalculateMoveIndexes (listWithRanges [(0, 3)]) 4 0).2.1 = []) := by
  decide

/-- C8, amended: with ranges `[[0,3]]`, the move of the room at index 4 (outside the
range) to index 0 is snapped to the move 3 -> 0, and `WriteSwapOp` on the returned
indexes emits `DELETE(3)` followed by `INSERT(0, R5)`. -/
theorem move_from_outside_to_top (roomID : String) :
    CalculateMoveIndexes (listWithRanges [(0, 3)]) 4 0 = (3, 0, true) ∧
    WriteSwapOp (listWithRanges [(0, 3)]) roomID
        (CalculateMoveIndexes (listWithRanges [(0, 3)]) 4 0).1
        (CalculateMoveIndexes (listWithRanges [(0, 3)]) 4 0).2.1 =
      [deleteOp 3, insertOp 0 roomID] := by
  have h : CalculateMoveIndexes (listWithRanges [(0, 3)]) 4 0 = (3, 0, true) := by decide
  refine ⟨h, ?_⟩
  rw [h]
  simp [WriteSwapOp, deleteOp, insertOp]

theorem get?_copySubs (subs : GoMap RoomSubscription) (hwf : GoMap.WF subs)
    (m : GoMap RoomSubscription) (k : String) :
    GoMap.get? (copySubs m subs) k =
      match GoMap.get? subs k with
      | some v => some v
      | none => GoMap.get? m k := by
  induction subs generalizing m with
  | nil => simp [copySubs, GoMap.get?]
  | cons kv rest ih =>
    obtain ⟨a, v⟩ := kv
    have hwf' : GoMap.WF rest := by
      unfold GoMap.WF GoMap.keys at *
      simp only [List.map_cons, List.nodup_cons] at hwf
      exact hwf.2
    have hnot : a ∉ GoMap.keys rest := by
      unfold GoMap.WF GoMap.keys at *
      simp only [List.map_cons, List.nodup_cons] at hwf
      exact hwf.1
    have hstep : copySubs m ((a, v) :: rest) = copySubs (GoMap.set m a v) rest := by
      simp [copySubs]
    rw [hstep, ih hwf' (GoMap.set m a v), GoMap.get?_set]
    by_cases hak : a = k
    · subst hak
      have hnone : GoMap.get? rest a = none := by
        rw [← GoMap.contains_eq_false_iff]
        cases hc : GoMap.contains rest a with
        | false => rfl
        | true => exact absurd ((GoMap.mem_keys_iff rest a).2 hc) hnot
      simp [hnone, GoMap.get?]
    · have hka : ¬ k = a := fun e => hak e.symm
      simp only [GoMap.get?, hak, hka, if_false]

theorem get?_applyPrevUnsubs (l : List String) (st : GoMap RoomSubscription × List String)
    (k : String) :
    GoMap.get? (applyPrevUnsubs st l).1 k = if k ∈ l then none else GoMap.get? st.1 k := by
  induction l generalizing st with
  | nil => simp [applyPrevUnsubs]
  | cons a rest ih =>
    have hstep : applyPrevUnsubs st (a :: rest) =
        applyPrevUnsubs (GoMap.delete st.1 a,
          if GoMap.contains st.1 a then st.2 ++ [a] else st.2) rest := by
      simp [applyPrevUnsubs]
    rw [hstep, ih]
    simp only [GoMap.get?_delete, List.mem_cons]
    by_cases h1 : k ∈ rest
    · simp [h1]
    · by_cases h2 : k = a
      · simp [h2]
      · simp [h1, h2]

theorem get?_applyNextUnsubs (nextSubs : GoMap RoomSubscription) (l : List String)
    (st : GoMap RoomSubscription × List String) (k : String) :
    GoMap.get? (applyNextUnsubs nextSubs st l).1 k =
      if k ∈ l then none else GoMap.get? st.1 k := by
  induction l generalizing st with
  | nil => simp [applyNextUnsubs]
  | cons a rest ih =>
    have hstep : applyNextUnsubs nextSubs st (a :: rest) =
        applyNextUnsubs nextSubs (GoMap.delete st.1 a,
          if GoMap.contains st.1 a then
            if !(GoMap.contains nextSubs a) then st.2 ++ [a] else st.2
          else st.2) rest := by
      simp [applyNextUnsubs]
    rw [hstep, ih]
    simp only [GoMap.get?_delete, List.mem_cons]
    by_cases h1 : k ∈ rest
    · simp [h1]
    · by_cases h2 : k = a
      · simp [h2]
      · simp [h1, h2]

/-- The merged subscription of a room, read off the code of `ApplyDelta`. -/
theorem get?_applyDelta_subs {Ext : Type} (extApplyDelta : Ext → Ext → Ext)
    (r : Option (Request Ext)) (nextReq : Request Ext)
    (hprev : GoMap.WF (r.getD (emptyRequest nextReq.Extensions)).RoomSubscriptions)
    (hnext : GoMap.WF nextReq.RoomSubscriptions) (roomID : String) :
    GoMap.get? (ApplyDelta extApplyDelta r nextReq).1.RoomSubscriptions roomID =
      if roomID ∈ nextReq.UnsubscribeRooms then none
      else match GoMap.get? nextReq.RoomSubscriptions roomID with
        | some v => some v
        | none =>
          if roomID ∈ (r.getD (emptyRequest nextReq.Extensions)).UnsubscribeRooms then none
          else GoMap.get? (r.getD (emptyRequest nextReq.Extensions)).RoomSubscriptions roomID := by
  cases r with
  | none =>
    simp only [Option.getD_none] at hprev ⊢
    simp only [ApplyDelta]
    rw [get?_applyNextUnsubs, get?_copySubs _ hnext, get?_applyPrevUnsubs,
      get?_copySubs _ hprev]
    simp [GoMap.get?]
  | some p =>
    simp only [Option.getD_some] at hprev ⊢
    simp only [ApplyDelta]
    rw [get?_applyNextUnsubs, get?_copySubs _ hnext, get?_applyPrevUnsubs,
      get?_copySubs _ hprev]
    cases p.RoomSubscriptions.get? roomID <;> simp [GoMap.get?]

/-- C9: for every previous request `r` (possibly nil) and every next request, the room
IDs of the merged `RoomSubscriptions` are exactly
`((prev subs minus prev unsubs) union next subs) minus next unsubs`, and every room that
remains maps to the subscription of `nextReq` when `nextReq` supplies one and to the
previous one otherwise. -/
theorem applyDelta_room_subscriptions {Ext : Type} (extApplyDelta : Ext → Ext → Ext)
    (r : Option (Request Ext)) (nextReq : Request Ext)
    (hprev : GoMap.WF (r.getD (emptyRequest nextReq.Extensions)).RoomSubscriptions)
    (hnext : GoMap.WF nextReq.RoomSubscriptions) (roomID : String) :
    (roomID ∈ GoMap.keys (ApplyDelta extApplyDelta r nextReq).1.RoomSubscriptions ↔
      ((roomID ∈ GoMap.keys (r.getD (emptyRequest nextReq.Extensions)).RoomSubscriptions ∧
          roomID ∉ (r.getD (emptyRequest nextReq.Extensions)).UnsubscribeRooms) ∨
        roomID ∈ GoMap.keys nextReq.RoomSubscriptions) ∧
      roomID ∉ nextReq.UnsubscribeRooms) ∧
    (roomID ∈ GoMap.keys (ApplyDelta extApplyDelta r nextReq).1.RoomSubscriptions →
      GoMap.get? (ApplyDelta extApplyDelta r nextReq).1.RoomSubscriptions roomID =
        if GoMap.contains nextReq.RoomSubscriptions roomID then
          GoMap.get? nextReq.RoomSubscriptions roomID
        else GoMap.get? (r.getD (emptyRequest nextReq.Extensions)).RoomSubscriptions roomID) := by
  have hget := get?_applyDelta_subs extApplyDelta r nextReq hprev hnext roomID
  simp only [GoMap.mem_keys_iff, GoMap.contains, hget]
  by_cases hnu : roomID ∈ nextReq.UnsubscribeRooms
  · simp [hnu]
  · rcases Option.eq_none_or_eq_some (GoMap.get? nextReq.RoomSubscriptions roomID) with
      hn | ⟨v, hn⟩
    · by_cases hpu : roomID ∈ (r.getD (emptyRequest nextReq.Extensions)).UnsubscribeRooms
      · simp [hnu, hpu, hn]
      · simp [hnu, hpu, hn]
    · simp [hnu, hn]

/-- Witness for C9: the previous request subscribes to A and B and unsubscribes from
B; the next one subscribes to A (with a new limit), C and D and unsubscribes from D.
The merged subscriptions are A (the next one's), and C; B and D are absent. -/
theorem applyDelta_room_subscriptions_witness :
    (GoMap.WF (subsRequest [("A", ⟨none, 1⟩), ("B", ⟨none, 2⟩)] ["B"]).RoomSubscriptions ∧
      GoMap.WF
        (subsRequest [("A", ⟨none, 7⟩), ("C", ⟨none, 3⟩), ("D", ⟨none, 4⟩)] ["D"]).RoomSubscriptions) ∧
    "A" ∈ GoMap.keys (ApplyDelta (fun _ e => e)
      (some (subsRequest [("A", ⟨none, 1⟩), ("B", ⟨none, 2⟩)] ["B"]))
      (subsRequest [("A", ⟨none, 7⟩), ("C", ⟨none, 3⟩), ("D", ⟨none, 4⟩)] ["D"])).1.RoomSubscriptions ∧
    GoMap.get? (ApplyDelta (fun _ e => e)
      (some (subsRequest [("A", ⟨none, 1⟩), ("B", ⟨none, 2⟩)] ["B"]))
      (subsRequest [("A", ⟨none, 7⟩), ("C", ⟨none, 3⟩), ("D", ⟨none, 4⟩)] ["D"])).1.RoomSubscriptions
        "A" = some ⟨none, 7⟩ ∧
    "B" ∉ GoMap.keys (ApplyDelta (fun _ e => e)
      (some (subsRequest [("A", ⟨none, 1⟩), ("B", ⟨none, 2⟩)] ["B"]))
      (subsRequest [("A", ⟨none, 7⟩), ("C", ⟨none, 3⟩), ("D", ⟨none, 4⟩)] ["D"])).1.RoomSubscriptions ∧
    "D" ∉ GoMap.keys (ApplyDelta (fun _ e => e)
      (some (subsRequest [("A", ⟨none, 1⟩), ("B", ⟨none, 2⟩)] ["B"]))
      (subsRequest [("A", ⟨none, 7⟩), ("C", ⟨none, 3⟩), ("D", ⟨none, 4⟩)] ["D"])).1.RoomSubscriptions := by
  have h := fun roomID => applyDelta_room_subscriptions (fun (_ : Unit) e => e)
    (some (subsRequest [("A", ⟨none, 1⟩), ("B", ⟨none, 2⟩)] ["B"]))
    (subsRequest [("A", ⟨none, 7⟩), ("C", ⟨none, 3⟩), ("D", ⟨none, 4⟩)] ["D"])
    (by decide) (by decide) roomID
  have hA : "A" ∈ GoMap.keys (ApplyDelta (fun (_ : Unit) e => e)
      (some (subsRequest [("A", ⟨none, 1⟩), ("B", ⟨none, 2⟩)] ["B"]))
      (subsRequest [("A", ⟨none, 7⟩), ("C", ⟨none, 3⟩), ("D", ⟨none, 4⟩)]
        ["D"])).1.RoomSubscriptions := (h "A").1.2 (by decide)
  refine ⟨⟨by decide, by decide⟩, hA, ?_, ?_, ?_⟩
  · rw [(h "A").2 hA]
    decide
  · intro hB
    exact absurd ((h "B").1.1 hB) (by decide)
  · intro hD
    exact absurd ((h "D").1.1 hD) (by decide)

theorem applyListDelta_some (p n : RequestList) :
    applyListDelta (some p) n =
      { toRoomSubscription :=
          { RequiredState :=
              if n.toRoomSubscription.RequiredState = none then
                p.toRoomSubscription.RequiredState
              else n.toRoomSubscription.RequiredState,
            TimelineLimit :=
              if n.toRoomSubscription.TimelineLimit = 0 then
                p.toRoomSubscription.TimelineLimit
              else n.toRoomSubscription.TimelineLimit },
        Ranges := if n.Ranges = none then p.Ranges else n.Ranges,
        SortOrder := if n.SortOrder = none then p.SortOrder else n.SortOrder,
        Filters := if n.Filters = none then p.Filters else n.Filters } := by
  simp [applyListDelta]

/-- C10: the merged request of `ApplyDelta` has exactly as many lists as `nextReq`, and
for every position `i` present in both requests each field of merged list `i` (ranges,
sort, filters, required_state, timeline_limit) is the value of `nextReq`'s list `i` when
that specifies it (non-nil; non-zero for timeline_limit) and the value of the previous
list `i` otherwise. -/
theorem applyDelta_lists {Ext : Type} (extApplyDelta : Ext → Ext → Ext)
    (prev nextReq : Request Ext) :
    (ApplyDelta extApplyDelta (some prev) nextReq).1.Lists.length = nextReq.Lists.length ∧
    ∀ (i : Nat) (p n : RequestList), prev.Lists[i]? = some p → nextReq.Lists[i]? = some n →
      ∃ m, (ApplyDelta extApplyDelta (some prev) nextReq).1.Lists[i]? = some m ∧
        (n.Ranges ≠ none → m.Ranges = n.Ranges) ∧
        (n.Ranges = none → m.Ranges = p.Ranges) ∧
        (n.SortOrder ≠ none → m.SortOrder = n.SortOrder) ∧
        (n.SortOrder = none → m.SortOrder = p.SortOrder) ∧
        (n.Filters ≠ none → m.Filters = n.Filters) ∧
        (n.Filters = none → m.Filters = p.Filters) ∧
        (n.toRoomSubscription.RequiredState ≠ none →
          m.toRoomSubscription.RequiredState = n.toRoomSubscription.RequiredState) ∧
        (n.toRoomSubscription.RequiredState = none →
          m.toRoomSubscription.RequiredState = p.toRoomSubscription.RequiredState) ∧
        (n.toRoomSubscription.TimelineLimit ≠ 0 →
          m.toRoomSubscription.TimelineLimit = n.toRoomSubscription.TimelineLimit) ∧
        (n.toRoomSubscription.TimelineLimit = 0 →
          m.toRoomSubscription.TimelineLimit = p.toRoomSubscription.TimelineLimit) := by
  refine ⟨by simp [ApplyDelta], ?_⟩
  intro i p n hp hn
  refine ⟨applyListDelta (some p) n, ?_, ?_⟩
  · simp [ApplyDelta, List.getElem?_mapIdx, hp, hn]
  · rw [applyListDelta_some]
    refine ⟨?_, ?_, ?_, ?_, ?_, ?_, ?_, ?_, ?_, ?_⟩ <;> intro h <;> simp [h]

/-- Witness for C10: the previous request has one list with ranges `[[0,9]]`, sort
`by_name` and limit 5; the next request's list 0 only gives new ranges `[[0,19]]`, and
it adds a second list. The merged list 0 has the new ranges and the previous sort and
limit, and the merged request has two lists. -/
theorem applyDelta_lists_witness :
    (ApplyDelta (fun _ e => e)
      (some (listsRequest [⟨⟨none, 5⟩, some [(0, 9)], some ["by_name"], none⟩]))
      (listsRequest [⟨⟨none, 0⟩, some [(0, 19)], none, none⟩,
        ⟨⟨none, 0⟩, some [(0, 3)], none, none⟩])).1.Lists.length = 2 ∧
    (ApplyDelta (fun _ e => e)
      (some (listsRequest [⟨⟨none, 5⟩, some [(0, 9)], some ["by_name"], none⟩]))
      (listsRequest [⟨⟨none, 0⟩, some [(0, 19)], none, none⟩,
        ⟨⟨none, 0⟩, some [(0, 3)], none, none⟩])).1.Lists[0]? =
      some ⟨⟨none, 5⟩, some [(0, 19)], some ["by_name"], none⟩ := by
  obtain ⟨hlen, hall⟩ := applyDelta_lists (fun (_ : Unit) e => e)
    (listsRequest [⟨⟨none, 5⟩, some [(0, 9)], some ["by_name"], none⟩])
    (listsRequest [⟨⟨none, 0⟩, some [(0, 19)], none, none⟩,
      ⟨⟨none, 0⟩, some [(0, 3)], none, none⟩])
  refine ⟨hlen, ?_⟩
  obtain ⟨m, hm, h1, -, -, h4, -, h6, -, h8, -, h10⟩ :=
    hall 0 ⟨⟨none, 5⟩, some [(0, 9)], some ["by_name"], none⟩
      ⟨⟨none, 0⟩, some [(0, 19)], none, none⟩ rfl rfl
  rw [hm]
  have e1 := h1 (by decide)
  have e4 := h4 rfl
  have e6 := h6 rfl
  have e8 := h8 rfl
  have e10 := h10 rfl
  obtain ⟨⟨rs, tl⟩, rg, so, fi⟩ := m
  simp only at e1 e4 e6 e8 e10
  subst e1 e4 e6 e8 e10
  rfl

theorem applyListDelta_self (p : RequestList) : applyListDelta (some p) p = p := by
  rw [applyListDelta_some]
  obtain ⟨⟨rs, tl⟩, rg, so, fi⟩ := p
  simp

theorem mapIdx_applyListDelta_self (lists : List RequestList) :
    lists.mapIdx (fun i nextList => applyListDelta lists[i]? nextList) = lists := by
  apply List.ext_getElem?
  intro n
  rw [List.getElem?_mapIdx]
  cases h : lists[n]? with
  | none => rfl
  | some p => simp [applyListDelta_self]

theorem applyPrevUnsubs_snd_of_absent (l : List String)
    (st : GoMap RoomSubscription × List String)
    (h : ∀ roomID ∈ l, GoMap.contains st.1 roomID = false) :
    (applyPrevUnsubs st l).2 = st.2 := by
  induction l generalizing st with
  | nil => simp [applyPrevUnsubs]
  | cons a rest ih =>
    have hstep : applyPrevUnsubs st (a :: rest) =
        applyPrevUnsubs (GoMap.delete st.1 a,
          if GoMap.contains st.1 a then st.2 ++ [a] else st.2) rest := by
      simp [applyPrevUnsubs]
    have ha : GoMap.contains st.1 a = false := h a (by simp)
    rw [hstep, ih]
    · simp [ha]
    · intro roomID hr
      have hc := h roomID (List.mem_cons_of_mem _ hr)
      simp only [GoMap.contains, GoMap.get?_delete] at hc ⊢
      by_cases he : roomID = a
      · simp [he]
      · simpa [he] using hc

theorem applyNextUnsubs_snd_of_covered (nextSubs : GoMap RoomSubscription) (l : List String)
    (st : GoMap RoomSubscription × List String)
    (h : ∀ roomID, GoMap.contains st.1 roomID = true → GoMap.contains nextSubs roomID = true) :
    (applyNextUnsubs nextSubs st l).2 = st.2 := by
  induction l generalizing st with
  | nil => simp [applyNextUnsubs]
  | cons a rest ih =>
    have hstep : applyNextUnsubs nextSubs st (a :: rest) =
        applyNextUnsubs nextSubs (GoMap.delete st.1 a,
          if GoMap.contains st.1 a then
            if !(GoMap.contains nextSubs a) then st.2 ++ [a] else st.2
          else st.2) rest := by
      simp [applyNextUnsubs]
    rw [hstep, ih]
    · by_cases hc : GoMap.contains st.1 a = true
      · simp [hc, h a hc]
      · simp [hc]
    · intro roomID hr
      apply h roomID
      simp only [GoMap.contains, GoMap.get?_delete] at hr ⊢
      by_cases he : roomID = a
      · simp [he] at hr
      · simpa [he] using hr

theorem contains_copySubs (subs : GoMap RoomSubscription) (hwf : GoMap.WF subs)
    (m : GoMap RoomSubscription) (k : String) :
    GoMap.contains (copySubs m subs) k = (GoMap.contains subs k || GoMap.contains m k) := by
  unfold GoMap.contains
  rw [get?_copySubs subs hwf m k]
  cases GoMap.get? subs k <;> simp

/-- Counterexample to C11 as stated: a request that subscribes to room A and also lists
A in `UnsubscribeRooms`. Merged with itself it loses the subscription to A, and the
delta reports A as unsubscribed. -/
theorem self_merge_not_identity :
    ¬ ((∀ roomID,
          GoMap.get? (ApplyDelta (fun (_ : Unit) e => e)
            (some (subsRequest [("A", ⟨none, 1⟩)] ["A"]))
            (subsRequest [("A", ⟨none, 1⟩)] ["A"])).1.RoomSubscriptions roomID =
          GoMap.get? (subsRequest [("A", ⟨none, 1⟩)] ["A"]).RoomSubscriptions roomID) ∧
        (ApplyDelta (fun (_ : Unit) e => e)
          (some (subsRequest [("A", ⟨none, 1⟩)] ["A"]))
          (subsRequest [("A", ⟨none, 1⟩)] ["A"])).2.Subs = [] ∧
        (ApplyDelta (fun (_ : Unit) e => e)
          (some (subsRequest [("A", ⟨none, 1⟩)] ["A"]))
          (subsRequest [("A", ⟨none, 1⟩)] ["A"])).2.Unsubs = []) := by
  rintro ⟨-, -, h⟩
  exact absurd h (by decide)

/-- C11, amended: for every request `req` whose `UnsubscribeRooms` names no room of its
`RoomSubscriptions` (in particular every merged request, whose `UnsubscribeRooms` is
empty), `req.ApplyDelta(req)` returns a merged request with the same lists and the same
room subscriptions as `req`, a delta whose `Subs` and `Unsubs` are both empty, and for
every list index a delta entry whose `Curr` equals its `Prev`, the list of `req`. -/
theorem applyDelta_self {Ext : Type} (extApplyDelta : Ext → Ext → Ext) (req : Request Ext)
    (hwf : GoMap.WF req.RoomSubscriptions)
    (hdis : ∀ roomID ∈ req.UnsubscribeRooms,
      GoMap.contains req.RoomSubscriptions roomID = false) :
    (ApplyDelta extApplyDelta (some req) req).1.Lists = req.Lists ∧
    (∀ roomID, GoMap.get? (ApplyDelta extApplyDelta (some req) req).1.RoomSubscriptions roomID =
      GoMap.get? req.RoomSubscriptions roomID) ∧
    (ApplyDelta extApplyDelta (some req) req).2.Subs = [] ∧
    (ApplyDelta extApplyDelta (some req) req).2.Unsubs = [] ∧
    (ApplyDelta extApplyDelta (some req) req).2.Lists.length = req.Lists.length ∧
    (∀ (i : Nat) (p : RequestList), req.Lists[i]? = some p →
      (ApplyDelta extApplyDelta (some req) req).2.Lists[i]? =
        some { Prev := some p, Curr := some p }) := by
  have hget := get?_applyDelta_subs extApplyDelta (some req) req hwf hwf
  simp only [Option.getD_some] at hget
  have hsame : ∀ roomID,
      GoMap.get? (ApplyDelta extApplyDelta (some req) req).1.RoomSubscriptions roomID =
        GoMap.get? req.RoomSubscriptions roomID := by
    intro roomID
    rw [hget roomID]
    by_cases hu : roomID ∈ req.UnsubscribeRooms
    · have hc := hdis roomID hu
      rw [GoMap.contains_eq_false_iff] at hc
      simp [hu, hc]
    · rcases Option.eq_none_or_eq_some (GoMap.get? req.RoomSubscriptions roomID) with
        hn | ⟨v, hn⟩
      · simp [hu, hn]
      · simp [hu, hn]
  have hlists : (ApplyDelta extApplyDelta (some req) req).1.Lists = req.Lists := by
    simp only [ApplyDelta]
    exact mapIdx_applyListDelta_self req.Lists
  refine ⟨hlists, hsame, ?_, ?_, ?_, ?_⟩
  · have hsubs : (ApplyDelta extApplyDelta (some req) req).2.Subs =
        (GoMap.keys (ApplyDelta extApplyDelta (some req) req).1.RoomSubscriptions).filter
          (fun roomID => !(GoMap.contains req.RoomSubscriptions roomID)) := rfl
    rw [hsubs, List.filter_eq_nil_iff]
    intro k hk
    have hc := (GoMap.mem_keys_iff _ k).1 hk
    simp only [GoMap.contains, hsame k] at hc
    simp [GoMap.contains, hc]
  · have hprev : (applyPrevUnsubs (copySubs [] req.RoomSubscriptions, [])
        req.UnsubscribeRooms).2 = [] := by
      rw [applyPrevUnsubs_snd_of_absent]
      intro roomID hr
      rw [contains_copySubs _ hwf, hdis roomID hr]
      simp [GoMap.contains, GoMap.get?]
    have hun : (ApplyDelta extApplyDelta (some req) req).2.Unsubs =
        (applyNextUnsubs req.RoomSubscriptions
          (copySubs (applyPrevUnsubs (copySubs [] req.RoomSubscriptions, [])
              req.UnsubscribeRooms).1 req.RoomSubscriptions,
            (applyPrevUnsubs (copySubs [] req.RoomSubscriptions, [])
              req.UnsubscribeRooms).2) req.UnsubscribeRooms).2 := rfl
    rw [hun, applyNextUnsubs_snd_of_covered, hprev]
    intro roomID hc
    rw [contains_copySubs _ hwf] at hc
    rcases Bool.or_eq_true_iff.1 hc with h1 | h1
    · exact h1
    · simp only [GoMap.contains, get?_applyPrevUnsubs] at h1
      by_cases hu : roomID ∈ req.UnsubscribeRooms
      · simp [hu] at h1
      · simp only [hu, if_false] at h1
        have h2 : GoMap.contains (copySubs [] req.RoomSubscriptions) roomID = true := h1
        rw [contains_copySubs _ hwf] at h2
        simpa [GoMap.contains, GoMap.get?] using h2
  · have hlen : (ApplyDelta extApplyDelta (some req) req).2.Lists.length =
        (if req.Lists.length > (ApplyDelta extApplyDelta (some req) req).1.Lists.length then
          req.Lists.length
        else (ApplyDelta extApplyDelta (some req) req).1.Lists.length) := by
      simp [ApplyDelta]
    rw [hlen, hlists]
    simp
  · intro i p hp
    have hi : i < req.Lists.length := by
      rcases Nat.lt_or_ge i req.Lists.length with h | h
      · exact h
      · rw [List.getElem?_eq_none h] at hp
        exact absurd hp (by simp)
    have hd : (ApplyDelta extApplyDelta (some req) req).2.Lists =
        (List.range (if req.Lists.length >
            (ApplyDelta extApplyDelta (some req) req).1.Lists.length then req.Lists.length
          else (ApplyDelta extApplyDelta (some req) req).1.Lists.length)).map
          (fun i => { Prev := req.Lists[i]?,
                      Curr := (ApplyDelta extApplyDelta (some req) req).1.Lists[i]? }) := rfl
    rw [hd, hlists]
    simp [List.getElem?_range hi, hp, hi]

/-- Witness for C11, amended: a request with one list and a subscription to A, and an
unsubscription from another room B, merged with itself. -/
theorem applyDelta_self_witness :
    (GoMap.WF selfMergeRequest.RoomSubscriptions ∧
      ∀ roomID ∈ selfMergeRequest.UnsubscribeRooms,
        GoMap.contains selfMergeRequest.RoomSubscriptions roomID = false) ∧
    (ApplyDelta (fun _ e => e) (some selfMergeRequest) selfMergeRequest).1.Lists =
      selfMergeRequest.Lists ∧
    GoMap.get? (ApplyDelta (fun _ e => e) (some selfMergeRequest)
      selfMergeRequest).1.RoomSubscriptions "A" = some ⟨none, 1⟩ ∧
    (ApplyDelta (fun _ e => e) (some selfMergeRequest) selfMergeRequest).2.Subs = [] ∧
    (ApplyDelta (fun _ e => e) (some selfMergeRequest) selfMergeRequest).2.Unsubs = [] ∧
    (ApplyDelta (fun _ e => e) (some selfMergeRequest) selfMergeRequest).2.Lists[0]? =
      some { Prev := some ⟨⟨none, 5⟩, some [(0, 9)], some ["by_name"], none⟩,
             Curr := some ⟨⟨none, 5⟩, some [(0, 9)], some ["by_name"], none⟩ } := by
  obtain ⟨h1, h2, h3, h4, -, h6⟩ := applyDelta_self (fun (_ : Unit) e => e) selfMergeRequest
    (by decide) (by decide)
  exact ⟨⟨by decide, by decide⟩, h1, (h2 "A").trans (by decide), h3, h4,
    h6 0 ⟨⟨none, 5⟩, some [(0, 9)], some ["by_name"], none⟩ rfl⟩

/-- C12: a room ID that appears both in `nextReq.RoomSubscriptions` and in
`nextReq.UnsubscribeRooms` is absent from the merged request's `RoomSubscriptions` and
absent from `delta.Subs`, whatever the previous request is (nil included). -/
theorem applyDelta_sub_and_unsub {Ext : Type} (extApplyDelta : Ext → Ext → Ext)
    (r : Option (Request Ext)) (nextReq : Request Ext) (roomID : String)
    (_hsub : GoMap.contains nextReq.RoomSubscriptions roomID = true)
    (hunsub : roomID ∈ nextReq.UnsubscribeRooms) :
    GoMap.get? (ApplyDelta extApplyDelta r nextReq).1.RoomSubscriptions roomID = none ∧
    roomID ∉ GoMap.keys (ApplyDelta extApplyDelta r nextReq).1.RoomSubscriptions ∧
    roomID ∉ (ApplyDelta extApplyDelta r nextReq).2.Subs := by
  have hnone : GoMap.get? (ApplyDelta extApplyDelta r nextReq).1.RoomSubscriptions roomID =
      none := by
    simp only [ApplyDelta]
    rw [get?_applyNextUnsubs]
    simp [hunsub]
  have hkeys : roomID ∉ GoMap.keys (ApplyDelta extApplyDelta r nextReq).1.RoomSubscriptions := by
    intro hk
    have hc := (GoMap.mem_keys_iff _ roomID).1 hk
    simp [GoMap.contains, hnone] at hc
  refine ⟨hnone, hkeys, ?_⟩
  intro hs
  have hsubs : (ApplyDelta extApplyDelta r nextReq).2.Subs =
      (GoMap.keys (ApplyDelta extApplyDelta r nextReq).1.RoomSubscriptions).filter
        (fun roomID => !(GoMap.contains
          (match r with
            | none => emptyRequest nextReq.Extensions
            | some r => r).RoomSubscriptions roomID)) := rfl
  rw [hsubs] at hs
  exact hkeys (List.mem_filter.1 hs).1

/-- Witness for C12: there is no previous request; the next request subscribes to A and
D and unsubscribes from D. -/
theorem applyDelta_sub_and_unsub_witness :
    (GoMap.contains (subsRequest [("A", ⟨none, 7⟩), ("D", ⟨none, 4⟩)] ["D"]).RoomSubscriptions
        "D" = true ∧
      "D" ∈ (subsRequest [("A", ⟨none, 7⟩), ("D", ⟨none, 4⟩)] ["D"]).UnsubscribeRooms) ∧
    GoMap.get? (ApplyDelta (fun (_ : Unit) e => e) none
      (subsRequest [("A", ⟨none, 7⟩), ("D", ⟨none, 4⟩)] ["D"])).1.RoomSubscriptions "D" = none ∧
    "D" ∉ GoMap.keys (ApplyDelta (fun (_ : Unit) e => e) none
      (subsRequest [("A", ⟨none, 7⟩), ("D", ⟨none, 4⟩)] ["D"])).1.RoomSubscriptions ∧
    "D" ∉ (ApplyDelta (fun (_ : Unit) e => e) none
      (subsRequest [("A", ⟨none, 7⟩), ("D", ⟨none, 4⟩)] ["D"])).2.Subs ∧
    (ApplyDelta (fun (_ : Unit) e => e) none
      (subsRequest [("A", ⟨none, 7⟩), ("D", ⟨none, 4⟩)] ["D"])).2.Subs = ["A"] :=
  ⟨⟨by decide, by decide⟩,
    (applyDelta_sub_and_unsub (fun (_ : Unit) e => e) none
      (subsRequest [("A", ⟨none, 7⟩), ("D", ⟨none, 4⟩)] ["D"]) "D" (by decide) (by decide)).1,
    (applyDelta_sub_and_unsub (fun (_ : Unit) e => e) none
      (subsRequest [("A", ⟨none, 7⟩), ("D", ⟨none, 4⟩)] ["D"]) "D" (by decide) (by decide)).2.1,
    (applyDelta_sub_and_unsub (fun (_ : Unit) e => e) none
      (subsRequest [("A", ⟨none, 7⟩), ("D", ⟨none, 4⟩)] ["D"]) "D" (by decide) (by decide)).2.2,
    by decide⟩

theorem requiredStateLoop_none_iff (tuples : List (String × String)) (acc : RequiredStateAcc) :
    requiredStateLoop tuples acc = none ↔ ("*", "*") ∈ tuples := by
  induction tuples generalizing acc with
  | nil => simp [requiredStateLoop]
  | cons tuple rest ih =>
    obtain ⟨t, k⟩ := tuple
    by_cases ht : t = "*"
    · by_cases hk : k = "*"
      · simp [requiredStateLoop, ht, hk]
      · have hne : ¬ (("*" : String), ("*" : String)) = (t, k) := by
          intro e
          exact hk (Prod.mk.inj e).2.symm
        simp only [requiredStateLoop, ht, hk, if_true, if_false, List.mem_cons]
        rw [ih]
        constructor
        · intro h
          exact Or.inr h
        · rintro (h | h)
          · rw [ht] at hne
            exact absurd h hne
          · exact h
    · have hne : ¬ (("*" : String), ("*" : String)) = (t, k) := by
        intro e
        exact ht (Prod.mk.inj e).1.symm
      by_cases hk : k = "*"
      · simp only [requiredStateLoop, ht, hk, if_true, if_false, List.mem_cons]
        rw [ih]
        constructor
        · intro h
          exact Or.inr h
        · rintro (h | h)
          · rw [hk] at hne
            exact absurd h hne
          · exact h
      · simp only [requiredStateLoop, ht, hk, if_false, List.mem_cons]
        rw [ih]
        constructor
        · intro h
          exact Or.inr h
        · rintro (h | h)
          · exact absurd h hne
          · exact h

theorem requiredStateLoop_some (tuples : List (String × String)) (acc : RequiredStateAcc)
    (hall : ("*", "*") ∉ tuples) :
    ∃ acc', requiredStateLoop tuples acc = some acc' ∧
      (∀ T, GoMap.contains acc'.eventTypesWithWildcardStateKeys T = true ↔
        (GoMap.contains acc.eventTypesWithWildcardStateKeys T = true ∨
          (T ≠ "*" ∧ (T, "*") ∈ tuples))) ∧
      (∀ K, K ∈ acc'.stateKeysForWildcardEventType ↔
        (K ∈ acc.stateKeysForWildcardEventType ∨ (K ≠ "*" ∧ ("*", K) ∈ tuples))) ∧
      (∀ T x, x ∈ GoMap.getSlice acc'.result T ↔
        (x ∈ GoMap.getSlice acc.result T ∨ (T ≠ "*" ∧ x ≠ "*" ∧ (T, x) ∈ tuples))) := by
  induction tuples generalizing acc with
  | nil => exact ⟨acc, rfl, by simp, by simp, by simp⟩
  | cons tuple rest ih =>
    obtain ⟨t, k⟩ := tuple
    have hrest : ("*", "*") ∉ rest := fun h => hall (List.mem_cons_of_mem _ h)
    have hhead : ¬ (t = "*" ∧ k = "*") := by
      rintro ⟨h1, h2⟩
      apply hall
      rw [h1, h2]
      simp
    by_cases ht : t = "*"
    · have hk : ¬ k = "*" := fun h => hhead ⟨ht, h⟩
      obtain ⟨acc', h0, h1, h2, h3⟩ := ih
        { acc with
          stateKeysForWildcardEventType := acc.stateKeysForWildcardEventType ++ [k] } hrest
      refine ⟨acc', by simp [requiredStateLoop, ht, hk, h0], ?_, ?_, ?_⟩
      · intro T
        rw [h1 T]
        simp only [List.mem_cons, Prod.mk.injEq]
        by_cases hT : T = t
        · subst hT
          simp [ht]
        · simp [hT]
      · intro K
        rw [h2 K]
        simp only [List.mem_append, List.mem_singleton, List.mem_cons, Prod.mk.injEq]
        by_cases hK : K = k
        · subst hK
          simp [ht, hk]
        · simp [hK]
      · intro T x
        rw [h3 T x]
        simp only [List.mem_cons, Prod.mk.injEq]
        by_cases hT : T = t
        · subst hT
          simp [ht]
        · simp [hT]
    · by_cases hk : k = "*"
      · obtain ⟨acc', h0, h1, h2, h3⟩ := ih
          { acc with
            eventTypesWithWildcardStateKeys :=
              GoMap.set acc.eventTypesWithWildcardStateKeys t () } hrest
        refine ⟨acc', by simp [requiredStateLoop, ht, hk, h0], ?_, ?_, ?_⟩
        · intro T
          rw [h1 T]
          simp only [GoMap.contains, GoMap.get?_set, List.mem_cons, Prod.mk.injEq]
          by_cases hT : T = t
          · subst hT
            simp [ht, hk]
          · simp [hT]
        · intro K
          rw [h2 K]
          simp only [List.mem_cons, Prod.mk.injEq]
          have ht' : ¬ "*" = t := fun e => ht e.symm
          simp [ht']
        · intro T x
          rw [h3 T x]
          simp only [List.mem_cons, Prod.mk.injEq]
          by_cases hx : x = k
          · subst hx
            simp [hk]
          · simp [hx]
      · obtain ⟨acc', h0, h1, h2, h3⟩ := ih
          { acc with
            result := GoMap.set acc.result t (GoMap.getSlice acc.result t ++ [k]) } hrest
        have ht' : ¬ "*" = t := fun e => ht e.symm
        have hk' : ¬ "*" = k := fun e => hk e.symm
        refine ⟨acc', by simp [requiredStateLoop, ht, hk, h0], ?_, ?_, ?_⟩
        · intro T
          rw [h1 T]
          simp only [List.mem_cons, Prod.mk.injEq]
          simp [hk']
        · intro K
          rw [h2 K]
          simp only [List.mem_cons, Prod.mk.injEq]
          simp [ht']
        · intro T x
          rw [h3 T x]
          simp only [GoMap.getSlice_set, List.mem_cons, Prod.mk.injEq]
          by_cases hT : T = t
          · subst hT
            by_cases hx : x = k
            · subst hx
              simp [ht, hk]
            · simp [hx]
          · simp [hT]

/-- Counterexample to C17 as stated: for the list `[(m.room.member, *),
(m.room.member, @alice)]`, which has no `(*, *)`, `RequiredStateMap` records the wildcard
event type `m.room.member` and still keeps the exact entry `(m.room.member, @alice)`. -/
theorem requiredStateMap_keeps_dominated_entry :
    ¬ (∀ T x,
        x ∈ GoMap.getSlice
          (requiredStateOf [("m.room.member", "*"),
            ("m.room.member", "@alice")]).RequiredStateMap.eventTypeToStateKeys T →
        GoMap.contains
          (requiredStateOf [("m.room.member", "*"),
            ("m.room.member", "@alice")]).RequiredStateMap.eventTypesWithWildcardStateKeys T =
          false) := by
  intro h
  exact absurd (h "m.room.member" "@alice" (by decide)) (by decide)

/-- C17, amended: for every required-state list that does not contain `(*, *)`,
`RequiredStateMap` is not the all-state map and records every tuple of the list in one
of its three collections: `(T, *)` with `T ≠ *` in the wildcard-state-key event types,
`(*, K)` in the state keys for the wildcard event type, and `(T, x)` with neither
wildcard in the exact map, also when `(T, *)` or `(*, x)` is present. The resolved set
covers the list, without dropping the exact entries that a wildcard entry dominates. -/
theorem requiredStateMap_records_every_tuple (rs : RoomSubscription)
    (hall : ("*", "*") ∉ rs.RequiredState.getD []) :
    rs.RequiredStateMap.allState = false ∧
    (∀ T, GoMap.contains rs.RequiredStateMap.eventTypesWithWildcardStateKeys T = true ↔
      (T ≠ "*" ∧ (T, "*") ∈ rs.RequiredState.getD [])) ∧
    (∀ K, K ∈ rs.RequiredStateMap.stateKeysForWildcardEventType ↔
      (K ≠ "*" ∧ ("*", K) ∈ rs.RequiredState.getD [])) ∧
    (∀ T x, x ∈ GoMap.getSlice rs.RequiredStateMap.eventTypeToStateKeys T ↔
      (T ≠ "*" ∧ x ≠ "*" ∧ (T, x) ∈ rs.RequiredState.getD [])) := by
  obtain ⟨acc', h0, h1, h2, h3⟩ := requiredStateLoop_some (rs.RequiredState.getD [])
    ⟨[], [], []⟩ hall
  have hrsm : rs.RequiredStateMap =
      { eventTypesWithWildcardStateKeys := acc'.eventTypesWithWildcardStateKeys,
        stateKeysForWildcardEventType := acc'.stateKeysForWildcardEventType,
        eventTypeToStateKeys := acc'.result, allState := false } := by
    simp [RoomSubscription.RequiredStateMap, h0]
  rw [hrsm]
  refine ⟨rfl, ?_, ?_, ?_⟩
  · intro T
    rw [h1 T]
    simp [GoMap.contains, GoMap.get?]
  · intro K
    rw [h2 K]
    simp
  · intro T x
    rw [h3 T x]
    simp [GoMap.getSlice, GoMap.get?]

/-- Witness for C17, amended: `[(m.room.member, *), (m.room.member, @alice)]` resolves to
the wildcard event type `m.room.member` together with the exact entry
`(m.room.member, @alice)`. -/
theorem requiredStateMap_records_every_tuple_witness :
    ("*", "*") ∉ (requiredStateOf [("m.room.member", "*"),
      ("m.room.member", "@alice")]).RequiredState.getD [] ∧
    (requiredStateOf [("m.room.member", "*"),
      ("m.room.member", "@alice")]).RequiredStateMap.allState = false ∧
    GoMap.contains (requiredStateOf [("m.room.member", "*"),
      ("m.room.member", "@alice")]).RequiredStateMap.eventTypesWithWildcardStateKeys
      "m.room.member" = true ∧
    "@alice" ∈ GoMap.getSlice (requiredStateOf [("m.room.member", "*"),
      ("m.room.member", "@alice")]).RequiredStateMap.eventTypeToStateKeys "m.room.member" := by
  have h := requiredStateMap_records_every_tuple
    (requiredStateOf [("m.room.member", "*"), ("m.room.member", "@alice")]) (by decide)
  exact ⟨by decide, h.1, (h.2.1 "m.room.member").2 (by decide),
    (h.2.2.2 "m.room.member" "@alice").2 (by decide)⟩

/-- C18: for every required-state list that contains the tuple `(*, *)` at any position,
`RequiredStateMap` returns the all-state map: `allState` is true and no wildcard types,
wildcard state keys or exact entries are recorded. -/
theorem requiredStateMap_all_state (rs : RoomSubscription)
    (hall : ("*", "*") ∈ rs.RequiredState.getD []) :
    rs.RequiredStateMap =
      { eventTypesWithWildcardStateKeys := [], stateKeysForWildcardEventType := [],
        eventTypeToStateKeys := [], allState := true } := by
  have h := (requiredStateLoop_none_iff (rs.RequiredState.getD []) ⟨[], [], []⟩).2 hall
  simp [RoomSubscription.RequiredStateMap, h]

/-- Witness for C18: `(*, *)` in the middle of a list with an exact entry before it and
a wildcard entry after it. -/
theorem requiredStateMap_all_state_witness :
    ("*", "*") ∈ (requiredStateOf [("m.room.name", ""), ("*", "*"),
      ("m.room.member", "*")]).RequiredState.getD [] ∧
    (requiredStateOf [("m.room.name", ""), ("*", "*"),
      ("m.room.member", "*")]).RequiredStateMap =
      { eventTypesWithWildcardStateKeys := [], stateKeysForWildcardEventType := [],
        eventTypeToStateKeys := [], allState := true } :=
  ⟨by decide, requiredStateMap_all_state
    (requiredStateOf [("m.room.name", ""), ("*", "*"), ("m.room.member", "*")]) (by decide)⟩

theorem differsFrom_eq_false_iff (p : Option Bool) (flag : Bool) :
    differsFrom p flag = false ↔ ∀ b, p = some b → b = flag := by
  cases p with
  | none => simp [differsFrom]
  | some b => cases b <;> cases flag <;> simp [differsFrom]

/-- C19: `RequestFilters.Include` returns true exactly when every predicate that is set
passes: each of `is_encrypted`, `is_tombstoned`, `is_dm` and `is_invite` that is non-nil
equals the room's flag, and a non-empty `room_name_like`, lower-cased, is a substring
of the lower-cased computed display name; so a filter with nothing set includes every
room. -/
theorem include_iff {M : Type} (calculateRoomName : M → Int → String)
    (toLower : String → String) (rf : RequestFilters) (r : RoomConnMetadata M) :
    (RequestFilters.Include calculateRoomName toLower rf r = true ↔
      ((∀ b, rf.IsEncrypted = some b → b = r.Encrypted) ∧
        (∀ b, rf.IsTombstoned = some b → b = r.Tombstoned) ∧
        (∀ b, rf.IsDM = some b → b = r.IsDM) ∧
        (∀ b, rf.IsInvite = some b → b = r.IsInvite) ∧
        (rf.RoomNameFilter ≠ "" →
          List.IsInfix (toLower rf.RoomNameFilter).data
            (toLower (calculateRoomName r.RoomMetadata 5)).data))) ∧
    RequestFilters.Include calculateRoomName toLower
      { Spaces := none, IsDM := none, IsEncrypted := none, IsInvite := none,
        IsTombstoned := none, RoomNameFilter := "" } r = true := by
  refine ⟨?_, by simp [RequestFilters.Include, differsFrom]⟩
  rw [← differsFrom_eq_false_iff, ← differsFrom_eq_false_iff, ← differsFrom_eq_false_iff,
    ← differsFrom_eq_false_iff]
  unfold RequestFilters.Include stringsContains
  cases differsFrom rf.IsEncrypted r.Encrypted <;>
    cases differsFrom rf.IsTombstoned r.Tombstoned <;>
    cases differsFrom rf.IsDM r.IsDM <;>
    cases differsFrom rf.IsInvite r.IsInvite <;>
    by_cases hn : rf.RoomNameFilter = "" <;>
    by_cases hc : List.IsInfix (toLower rf.RoomNameFilter).data
      (toLower (calculateRoomName r.RoomMetadata 5)).data <;>
    simp [hn, hc]

/-- Witness for C19: the display name is the room's metadata and lower-casing is
`asciiLower`. The filter `is_encrypted = true, room_name_like = "TEA"` includes the
encrypted room "Tea time" and excludes the unencrypted one. -/
theorem include_iff_witness :
    RequestFilters.Include (fun name _ => name) asciiLower
      { Spaces := none, IsDM := none, IsEncrypted := some true, IsInvite := none,
        IsTombstoned := none, RoomNameFilter := "TEA" } (namedRoom "Tea time" true false) =
      true ∧
    RequestFilters.Include (fun name _ => name) asciiLower
      { Spaces := none, IsDM := none, IsEncrypted := some true, IsInvite := none,
        IsTombstoned := none, RoomNameFilter := "TEA" } (namedRoom "Tea time" false false) =
      false := by
  constructor
  · exact (include_iff (fun name _ => name) asciiLower
      { Spaces := none, IsDM := none, IsEncrypted := some true, IsInvite := none,
        IsTombstoned := none, RoomNameFilter := "TEA" } (namedRoom "Tea time" true false)).1.2
      ⟨by decide, by decide, by decide, by decide, fun _ => by decide⟩
  · cases h : RequestFilters.Include (fun name _ => name) asciiLower
      { Spaces := none, IsDM := none, IsEncrypted := some true, IsInvite := none,
        IsTombstoned := none, RoomNameFilter := "TEA" } (namedRoom "Tea time" false false) with
    | false => rfl
    | true =>
      have h1 := ((include_iff (fun name _ => name) asciiLower
        { Spaces := none, IsDM := none, IsEncrypted := some true, IsInvite := none,
          IsTombstoned := none, RoomNameFilter := "TEA" }
        (namedRoom "Tea time" false false)).1.1 h).1 true rfl
      exact absurd h1 (by decide)

/-- The evaluation of the code at the failing input of C20: a filter whose only setting
is a non-empty `spaces` list includes every room, because `Include` never reads
`Spaces`. -/
theorem include_ignores_spaces {M : Type} (calculateRoomName : M → Int → String)
    (toLower : String → String) (spaces : List String) (r : RoomConnMetadata M) :
    RequestFilters.Include calculateRoomName toLower
      { Spaces := some spaces, IsDM := none, IsEncrypted := none, IsInvite := none,
        IsTombstoned := none, RoomNameFilter := "" } r = true := by
  simp [RequestFilters.Include, differsFrom]

/-- C21: for every request, every valid list index and every room ID,
`GetTimelineLimit` returns the timeline limit of the room's subscription when the room
has a subscription with a limit above zero; otherwise the limit of the list when that
is above zero; otherwise the default 20. -/
theorem getTimelineLimit_precedence {Ext : Type} (r : Request Ext) (listIndex : Int)
    (roomID : String) (list : RequestList)
    (hidx : 0 ≤ listIndex) (hlist : r.Lists[listIndex.toNat]? = some list) :
    (∀ room, GoMap.get? r.RoomSubscriptions roomID = some room → 0 < room.TimelineLimit →
      GetTimelineLimit r listIndex roomID = some room.TimelineLimit) ∧
    ((∀ room, GoMap.get? r.RoomSubscriptions roomID = some room → room.TimelineLimit ≤ 0) →
      0 < list.toRoomSubscription.TimelineLimit →
      GetTimelineLimit r listIndex roomID = some list.toRoomSubscription.TimelineLimit) ∧
    ((∀ room, GoMap.get? r.RoomSubscriptions roomID = some room → room.TimelineLimit ≤ 0) →
      list.toRoomSubscription.TimelineLimit ≤ 0 →
      GetTimelineLimit r listIndex roomID = some 20) := by
  have hneg : ¬ listIndex < 0 := not_lt.2 hidx
  refine ⟨?_, ?_, ?_⟩
  · intro room hroom hpos
    simp [GetTimelineLimit, hroom, hpos]
  · intro hnone hpos
    rcases Option.eq_none_or_eq_some (GoMap.get? r.RoomSubscriptions roomID) with
      hn | ⟨room, hn⟩
    · simp [GetTimelineLimit, hn, hneg, hlist, hpos]
    · have hle : ¬ room.TimelineLimit > 0 := not_lt.2 (hnone room hn)
      simp [GetTimelineLimit, hn, hle, hneg, hlist, hpos]
  · intro hnone hle
    have hl : ¬ list.toRoomSubscription.TimelineLimit > 0 := not_lt.2 hle
    rcases Option.eq_none_or_eq_some (GoMap.get? r.RoomSubscriptions roomID) with
      hn | ⟨room, hn⟩
    · simp [GetTimelineLimit, hn, hneg, hlist, hl, DefaultTimelineLimit]
    · have hle2 : ¬ room.TimelineLimit > 0 := not_lt.2 (hnone room hn)
      simp [GetTimelineLimit, hn, hle2, hneg, hlist, hl, DefaultTimelineLimit]

/-- Witness for C21: room A has a subscription with limit 5, which wins over the list
limit 7; room B has a subscription with limit 0, so the list limit 7 is used; for list 1
(limit 0) and room C, which has no subscription, the default 20 is returned. -/
theorem getTimelineLimit_precedence_witness :
    GetTimelineLimit timelineRequest 0 "A" = some 5 ∧
    GetTimelineLimit timelineRequest 0 "B" = some 7 ∧
    GetTimelineLimit timelineRequest 1 "C" = some 20 :=
  ⟨(getTimelineLimit_precedence timelineRequest 0 "A" ⟨⟨none, 7⟩, none, none, none⟩
      (by decide) (by decide)).1 ⟨none, 5⟩ (by decide) (by decide),
    (getTimelineLimit_precedence timelineRequest 0 "B" ⟨⟨none, 7⟩, none, none, none⟩
      (by decide) (by decide)).2.1
      (fun room h => by
        have h2 : room = ⟨none, 0⟩ := by
          have h3 : GoMap.get? timelineRequest.RoomSubscriptions "B" = some ⟨none, 0⟩ := by decide
          rw [h3] at h
          exact (Option.some.inj h).symm
        rw [h2])
      (by decide),
    (getTimelineLimit_precedence timelineRequest 1 "C" ⟨⟨none, 0⟩, none, none, none⟩
      (by decide) (by decide)).2.2
      (fun room h => by
        have h3 : GoMap.get? timelineRequest.RoomSubscriptions "C" = none := by decide
        rw [h3] at h
        exact absurd h (by simp))
      (by decide)⟩

/-- Two slices of the same length differ at some index exactly when they are different
sequences. -/
theorem any_index_differs_iff (a b : List String) (hlen : a.length = b.length) :
    (List.range a.length).any (fun i => a[i]? != b[i]?) = decide (a ≠ b) := by
  by_cases hab : a = b
  · subst hab
    simp
  · have hd : decide (a ≠ b) = true := by simpa using hab
    rw [hd, List.any_eq_true]
    by_contra hcon
    apply hab
    apply List.ext_getElem?
    intro i
    by_cases hi : i < a.length
    · by_contra hne
      exact hcon ⟨i, List.mem_range.2 hi, by simpa using hne⟩
    · have h1 : a[i]? = none := List.getElem?_eq_none (not_lt.1 hi)
      have h2 : b[i]? = none := List.getElem?_eq_none (hlen ▸ not_lt.1 hi)
      rw [h1, h2]

/-- C24: `SortOrderChanged` returns true exactly when the sort order of the previous
list (empty for a nil receiver) and that of the next list differ as sequences, and false
otherwise, in every case but one: with a nil receiver and an empty sort order in `next`
the loop reads `rl.Sort` through the nil pointer and the call fails instead of
returning false. -/
theorem sortOrderChanged_spec (rl : Option RequestList) (next : RequestList) :
    SortOrderChanged rl next =
      if rl = none ∧ sortOf (some next) = [] then Except.error errNilDereference
      else Except.ok (decide (sortOf rl ≠ sortOf (some next))) := by
  cases rl with
  | none =>
    by_cases hn : next.SortOrder.getD [] = []
    · simp [SortOrderChanged, sortOf, hn]
    · have hlen : ¬ 0 = (next.SortOrder.getD []).length := by
        intro h
        exact hn (List.length_eq_zero.1 h.symm)
      have hne : ¬ [] = next.SortOrder.getD [] := fun h => hn h.symm
      simp [SortOrderChanged, sortOf, hn, hlen, hne]
  | some p =>
    by_cases hlen : (p.SortOrder.getD []).length = (next.SortOrder.getD []).length
    · simp only [SortOrderChanged, sortOf, hlen, ne_eq, not_true_eq_false, if_false,
        false_and, reduceCtorEq]
      rw [← hlen, any_index_differs_iff _ _ hlen]
    · have hne : ¬ p.SortOrder.getD [] = next.SortOrder.getD [] := fun h => hlen (by rw [h])
      simp [SortOrderChanged, sortOf, hlen, hne]

/-- A boundary of a list of well-formed ranges lies inside one of them. -/
theorem boundary_inside (r : SliceRanges) (hwf : ∀ sr ∈ r, sr.1 ≤ sr.2) (b : Int)
    (hb : b ∈ SliceRanges.boundaries r) : SliceRanges.Inside r b = true := by
  obtain ⟨sr, hsr, hor⟩ := (mem_boundaries r b).1 hb
  have h := hwf sr hsr
  refine (inside_iff r b).2 ⟨sr, hsr, ?_⟩
  rcases hor with rfl | rfl
  · exact ⟨le_refl _, h⟩
  · exact ⟨h, le_refl _⟩

/-- An index inside a list of ranges with non-negative lower bounds is not negative. -/
theorem inside_nonneg (r : SliceRanges) (hpos : ∀ sr ∈ r, 0 ≤ sr.1) (i : Int)
    (hi : SliceRanges.Inside r i = true) : 0 ≤ i := by
  obtain ⟨sr, hsr, h1, -⟩ := (inside_iff r i).1 hi
  exact le_trans (hpos sr hsr) h1

/-- C27: for a list whose ranges are well formed (`lo ≤ hi`), whenever
`CalculateMoveIndexes` returns `ok = true` both returned indexes lie inside a tracked
range, so the DELETE and the INSERT that `WriteSwapOp` builds from them address tracked
indexes; and when the ranges hold no negative index, neither returned index is the
value `-1` that the snap gives when there is no boundary. -/
theorem move_indexes_tracked (rl : RequestList) (roomID : String)
    (fromIndex toIndex f t : Int) (hwf : ∀ sr ∈ rl.ranges, sr.1 ≤ sr.2)
    (hok : CalculateMoveIndexes rl fromIndex toIndex = (f, t, true)) :
    SliceRanges.Inside rl.ranges f = true ∧ SliceRanges.Inside rl.ranges t = true ∧
    (∀ op ∈ WriteSwapOp rl roomID f t,
      ∃ i, op.Index = some i ∧ SliceRanges.Inside rl.ranges i = true) ∧
    ((∀ sr ∈ rl.ranges, 0 ≤ sr.1) → f ≠ -1 ∧ t ≠ -1) := by
  have hin : SliceRanges.Inside rl.ranges f = true ∧ SliceRanges.Inside rl.ranges t = true := by
    cases hf : SliceRanges.Inside rl.ranges fromIndex with
    | true =>
      cases ht : SliceRanges.Inside rl.ranges toIndex with
      | true =>
        have h : CalculateMoveIndexes rl fromIndex toIndex = (fromIndex, toIndex, true) := by
          simp [CalculateMoveIndexes, hf, ht]
        rw [h] at hok
        simp only [Prod.mk.injEq, and_true] at hok
        rw [← hok.1, ← hok.2]
        exact ⟨hf, ht⟩
      | false =>
        rw [calculateMoveIndexes_from_inside rl fromIndex toIndex hf ht] at hok
        simp only [Prod.mk.injEq, and_true] at hok
        rw [← hok.1, ← hok.2]
        refine ⟨hf, ?_⟩
        have hne : fromIndex ≠ toIndex := fun e => by rw [e, ht] at hf; exact absurd hf (by simp)
        by_cases hgt : toIndex > fromIndex
        · obtain ⟨x, hx, hlt⟩ := boundary_below_outside rl.ranges fromIndex toIndex hf ht hgt
          rw [decide_eq_true hgt]
          exact boundary_inside _ hwf _ (closest_towardsZero rl.ranges toIndex x hx hlt).1
        · have hlt2 : toIndex < fromIndex := by omega
          obtain ⟨x, hx, hlt⟩ := boundary_above_outside rl.ranges fromIndex toIndex hf ht hlt2
          rw [decide_eq_false hgt]
          exact boundary_inside _ hwf _ (closest_awayFromZero rl.ranges toIndex x hx hlt).1
    | false =>
      cases ht : SliceRanges.Inside rl.ranges toIndex with
      | true =>
        rw [calculateMoveIndexes_to_inside rl fromIndex toIndex hf ht] at hok
        simp only [Prod.mk.injEq, and_true] at hok
        rw [← hok.1, ← hok.2]
        refine ⟨?_, ht⟩
        have hne : fromIndex ≠ toIndex := fun e => by rw [e, ht] at hf; exact absurd hf (by simp)
        by_cases hlt1 : toIndex < fromIndex
        · obtain ⟨x, hx, hlt⟩ := boundary_below_outside rl.ranges toIndex fromIndex ht hf hlt1
          rw [decide_eq_true hlt1]
          exact boundary_inside _ hwf _ (closest_towardsZero rl.ranges fromIndex x hx hlt).1
        · have hlt2 : fromIndex < toIndex := by omega
          obtain ⟨x, hx, hlt⟩ := boundary_above_outside rl.ranges toIndex fromIndex ht hf hlt2
          rw [decide_eq_false hlt1]
          exact boundary_inside _ hwf _ (closest_awayFromZero rl.ranges fromIndex x hx hlt).1
      | false =>
        rw [calculateMoveIndexes_both_outside rl fromIndex toIndex hf ht] at hok
        cases hj : jumpedOverRanges rl.ranges (min fromIndex toIndex) (max fromIndex toIndex) with
        | nil =>
          rw [hj] at hok
          simp at hok
        | cons jr rest =>
          rw [hj] at hok
          have hmem : jr ∈ rl.ranges := by
            have h1 : jr ∈ jumpedOverRanges rl.ranges (min fromIndex toIndex)
                (max fromIndex toIndex) := by rw [hj]; exact List.mem_cons_self _ _
            exact (List.mem_filter.1 h1).1
          have hle := hwf jr hmem
          have h1 : SliceRanges.Inside rl.ranges jr.1 = true :=
            (inside_iff _ _).2 ⟨jr, hmem, le_refl _, hle⟩
          have h2 : SliceRanges.Inside rl.ranges jr.2 = true :=
            (inside_iff _ _).2 ⟨jr, hmem, hle, le_refl _⟩
          by_cases hgt : fromIndex > toIndex
          · simp only [hgt, if_true, Prod.mk.injEq, and_true] at hok
            rw [← hok.1, ← hok.2]
            exact ⟨h2, h1⟩
          · simp only [hgt, if_false, Prod.mk.injEq, and_true] at hok
            rw [← hok.1, ← hok.2]
            exact ⟨h1, h2⟩
  refine ⟨hin.1, hin.2, ?_, ?_⟩
  · intro op hop
    by_cases hft : f = t
    · simp [WriteSwapOp, hft] at hop
    · simp only [WriteSwapOp, hft, if_false, List.mem_cons, List.mem_singleton,
        List.not_mem_nil, or_false] at hop
      rcases hop with rfl | rfl
      · exact ⟨f, rfl, hin.1⟩
      · exact ⟨t, rfl, hin.2⟩
  · intro hpos
    have h1 := inside_nonneg _ hpos f hin.1
    have h2 := inside_nonneg _ hpos t hin.2
    constructor <;> omega

/-- Witness for C27, with ranges `[[1,4],[7,9]]`: the move 5 -> 3 is snapped to `(4, 3)`
with `ok = true`, and 4 and 3 are tracked indexes. -/
theorem move_indexes_tracked_witness :
    (∀ sr ∈ (listWithRanges [(1, 4), (7, 9)]).ranges, sr.1 ≤ sr.2) ∧
    CalculateMoveIndexes (listWithRanges [(1, 4), (7, 9)]) 5 3 = (4, 3, true) ∧
    SliceRanges.Inside (listWithRanges [(1, 4), (7, 9)]).ranges 4 = true ∧
    SliceRanges.Inside (listWithRanges [(1, 4), (7, 9)]).ranges 3 = true :=
  ⟨by decide, by decide,
    (move_indexes_tracked (listWithRanges [(1, 4), (7, 9)]) "!r" 5 3 4 3 (by decide)
      (by decide)).1,
    (move_indexes_tracked (listWithRanges [(1, 4), (7, 9)]) "!r" 5 3 4 3 (by decide)
      (by decide)).2.1⟩

/-- The rooms that the loop over `nextReq.UnsubscribeRooms` adds to `delta.Unsubs`:
those listed that are subscribed when the loop starts and that `nextReq` does not itself
subscribe to. -/
theorem mem_applyNextUnsubs_snd (nextSubs : GoMap RoomSubscription) (l : List String)
    (st : GoMap RoomSubscription × List String) (x : String) :
    x ∈ (applyNextUnsubs nextSubs st l).2 ↔
      x ∈ st.2 ∨ (x ∈ l ∧ GoMap.contains st.1 x = true ∧ GoMap.contains nextSubs x = false) := by
  induction l generalizing st with
  | nil => simp [applyNextUnsubs]
  | cons a rest ih =>
    have hstep : applyNextUnsubs nextSubs st (a :: rest) =
        applyNextUnsubs nextSubs (GoMap.delete st.1 a,
          if GoMap.contains st.1 a then
            if !(GoMap.contains nextSubs a) then st.2 ++ [a] else st.2
          else st.2) rest := by
      simp [applyNextUnsubs]
    rw [hstep, ih]
    have hdel : GoMap.contains (GoMap.delete st.1 a) x =
        if x = a then false else GoMap.contains st.1 x := by
      simp only [GoMap.contains, GoMap.get?_delete]
      by_cases he : x = a
      · simp [he]
      · simp [he]
    simp only [hdel, List.mem_cons]
    by_cases he : x = a
    · subst he
      by_cases hc : GoMap.contains st.1 x = true
      · by_cases hn : GoMap.contains nextSubs x = true
        · simp [hc, hn]
        · have hn' : GoMap.contains nextSubs x = false := by simpa using hn
          simp [hc, hn']
      · have hc' : GoMap.contains st.1 x = false := by simpa using hc
        simp [hc']
    · by_cases hc : GoMap.contains st.1 a = true
      · by_cases hn : GoMap.contains nextSubs a = true
        · simp [he, hc, hn]
        · have hn' : GoMap.contains nextSubs a = false := by simpa using hn
          simp [he, hc, hn']
      · have hc' : GoMap.contains st.1 a = false := by simpa using hc
        simp [he, hc']

/-- Counterexample to C25 as stated: the previous request subscribes to A, the next one
subscribes to A again and also unsubscribes from it. Room A is subscribed in the
previous request and no longer in the merged one, yet `delta.Unsubs` is empty. -/
theorem resubscribed_room_not_in_unsubs :
    (subsRequest [("A", ⟨none, 1⟩)] []).UnsubscribeRooms = [] ∧
    GoMap.contains (subsRequest [("A", ⟨none, 1⟩)] []).RoomSubscriptions "A" = true ∧
    GoMap.contains (ApplyDelta (fun (_ : Unit) e => e) (some (subsRequest [("A", ⟨none, 1⟩)] []))
      (subsRequest [("A", ⟨none, 1⟩)] ["A"])).1.RoomSubscriptions "A" = false ∧
    (ApplyDelta (fun (_ : Unit) e => e) (some (subsRequest [("A", ⟨none, 1⟩)] []))
      (subsRequest [("A", ⟨none, 1⟩)] ["A"])).2.Unsubs = [] := by
  decide

/-- C25, amended: for every previous request with an empty `UnsubscribeRooms` (a nil one
included) and every next request, `delta.Subs` holds exactly the rooms subscribed in the
merged request and not in the previous one, and `delta.Unsubs` holds exactly the rooms
subscribed in the previous request, no longer subscribed in the merged one, and not
subscribed by the next request itself. -/
theorem applyDelta_delta_exact {Ext : Type} (extApplyDelta : Ext → Ext → Ext)
    (r : Option (Request Ext)) (nextReq : Request Ext)
    (hprev : GoMap.WF (r.getD (emptyRequest nextReq.Extensions)).RoomSubscriptions)
    (hnext : GoMap.WF nextReq.RoomSubscriptions)
    (hun : (r.getD (emptyRequest nextReq.Extensions)).UnsubscribeRooms = [])
    (roomID : String) :
    (roomID ∈ (ApplyDelta extApplyDelta r nextReq).2.Subs ↔
      GoMap.contains (ApplyDelta extApplyDelta r nextReq).1.RoomSubscriptions roomID = true ∧
      GoMap.contains (r.getD (emptyRequest nextReq.Extensions)).RoomSubscriptions roomID =
        false) ∧
    (roomID ∈ (ApplyDelta extApplyDelta r nextReq).2.Unsubs ↔
      GoMap.contains (r.getD (emptyRequest nextReq.Extensions)).RoomSubscriptions roomID =
        true ∧
      GoMap.contains (ApplyDelta extApplyDelta r nextReq).1.RoomSubscriptions roomID = false ∧
      GoMap.contains nextReq.RoomSubscriptions roomID = false) := by
  have hget := get?_applyDelta_subs extApplyDelta r nextReq hprev hnext roomID
  have hmerged : GoMap.contains (ApplyDelta extApplyDelta r nextReq).1.RoomSubscriptions roomID =
      (!(decide (roomID ∈ nextReq.UnsubscribeRooms)) &&
        (GoMap.contains nextReq.RoomSubscriptions roomID ||
          GoMap.contains (r.getD (emptyRequest nextReq.Extensions)).RoomSubscriptions
            roomID)) := by
    unfold GoMap.contains
    rw [hget, hun]
    by_cases hnu : roomID ∈ nextReq.UnsubscribeRooms
    · simp [hnu]
    · cases GoMap.get? nextReq.RoomSubscriptions roomID <;> simp [hnu]
  have hsubs : (ApplyDelta extApplyDelta r nextReq).2.Subs =
      (GoMap.keys (ApplyDelta extApplyDelta r nextReq).1.RoomSubscriptions).filter
        (fun x => !(GoMap.contains
          (r.getD (emptyRequest nextReq.Extensions)).RoomSubscriptions x)) := by
    cases r <;> rfl
  have hunsubs : (ApplyDelta extApplyDelta r nextReq).2.Unsubs =
      (applyNextUnsubs nextReq.RoomSubscriptions
        (copySubs (copySubs [] (r.getD (emptyRequest nextReq.Extensions)).RoomSubscriptions)
          nextReq.RoomSubscriptions, [])
        nextReq.UnsubscribeRooms).2 := by
    cases r with
    | none =>
      simp only [Option.getD_none] at hun ⊢
      simp [ApplyDelta, hun, applyPrevUnsubs, emptyRequest]
    | some p =>
      simp only [Option.getD_some] at hun ⊢
      simp [ApplyDelta, hun, applyPrevUnsubs]
  constructor
  · rw [hsubs, List.mem_filter, GoMap.mem_keys_iff]
    simp
  · rw [hunsubs, mem_applyNextUnsubs_snd, hmerged, contains_copySubs _ hnext,
      contains_copySubs _ hprev]
    have hempty : GoMap.contains ([] : GoMap RoomSubscription) roomID = false := rfl
    rw [hempty]
    cases hn : GoMap.contains nextReq.RoomSubscriptions roomID <;>
    cases hp : GoMap.contains (r.getD (emptyRequest nextReq.Extensions)).RoomSubscriptions
      roomID <;>
    by_cases hnu : roomID ∈ nextReq.UnsubscribeRooms <;> simp [hnu]

/-- Witness for C25: the previous request subscribes to A and B, the next one subscribes
to C and unsubscribes from B; the delta has C as the only new subscription and B as the
only removal. -/
theorem applyDelta_delta_exact_witness :
    (GoMap.WF deltaPrev.RoomSubscriptions ∧ GoMap.WF deltaNext.RoomSubscriptions ∧
      deltaPrev.UnsubscribeRooms = []) ∧
    "C" ∈ (ApplyDelta (fun (_ : Unit) e => e) (some deltaPrev) deltaNext).2.Subs ∧
    "A" ∉ (ApplyDelta (fun (_ : Unit) e => e) (some deltaPrev) deltaNext).2.Subs ∧
    "B" ∈ (ApplyDelta (fun (_ : Unit) e => e) (some deltaPrev) deltaNext).2.Unsubs ∧
    "A" ∉ (ApplyDelta (fun (_ : Unit) e => e) (some deltaPrev) deltaNext).2.Unsubs :=
  ⟨⟨by decide, by decide, by decide⟩,
    (applyDelta_delta_exact (fun (_ : Unit) e => e) (some deltaPrev) deltaNext
      (by decide) (by decide) (by decide) "C").1.2 ⟨by decide, by decide⟩,
    fun h => absurd ((applyDelta_delta_exact (fun (_ : Unit) e => e) (some deltaPrev) deltaNext
      (by decide) (by decide) (by decide) "A").1.1 h).2 (by decide),
    (applyDelta_delta_exact (fun (_ : Unit) e => e) (some deltaPrev) deltaNext
      (by decide) (by decide) (by decide) "B").2.2 ⟨by decide, by decide, by decide⟩,
    fun h => absurd ((applyDelta_delta_exact (fun (_ : Unit) e => e) (some deltaPrev) deltaNext
      (by decide) (by decide) (by decide) "A").2.1 h).2.1 (by decide)⟩

end Sync3

/-! ## Theorems: the state store and the visibility resolver -/

namespace State

theorem roomLog_cons (roomID : String) (ev : Event) (evs : List Event) :
    roomLog roomID (ev :: evs) =
      if ev.RoomID = roomID then toMembershipEvent ev :: roomLog roomID evs
      else roomLog roomID evs := by
  unfold roomLog
  by_cases h : ev.RoomID = roomID <;> simp [List.filter_cons, h]

theorem bucket_foldl (evs : List Event) (m : GoMap (List membershipEvent)) (hwf : GoMap.WF m)
    (roomID : String) :
    GoMap.WF (evs.foldl (fun roomIDToLogs ev =>
      GoMap.set roomIDToLogs ev.RoomID
        (GoMap.getSlice roomIDToLogs ev.RoomID ++ [toMembershipEvent ev])) m) ∧
    GoMap.get? (evs.foldl (fun roomIDToLogs ev =>
      GoMap.set roomIDToLogs ev.RoomID
        (GoMap.getSlice roomIDToLogs ev.RoomID ++ [toMembershipEvent ev])) m) roomID =
      if roomLog roomID evs = [] then GoMap.get? m roomID
      else some (GoMap.getSlice m roomID ++ roomLog roomID evs) := by
  induction evs generalizing m with
  | nil => simp [roomLog, hwf]
  | cons ev evs ih =>
    simp only [List.foldl_cons]
    obtain ⟨h1, h2⟩ := ih (GoMap.set m ev.RoomID
      (GoMap.getSlice m ev.RoomID ++ [toMembershipEvent ev])) (GoMap.wf_set _ _ _ hwf)
    refine ⟨h1, ?_⟩
    rw [h2, roomLog_cons, GoMap.getSlice_set, GoMap.get?_set]
    by_cases hr : ev.RoomID = roomID
    · subst hr
      by_cases hl : roomLog ev.RoomID evs = []
      · simp [hl]
      · simp [hl]
    · have hr' : ¬ roomID = ev.RoomID := fun e => hr e.symm
      simp [hr, hr']

theorem bucketByRoom_spec (evs : List Event) (roomID : String) :
    GoMap.WF (bucketByRoom evs) ∧
    GoMap.get? (bucketByRoom evs) roomID =
      if roomLog roomID evs = [] then none else some (roomLog roomID evs) := by
  have h := bucket_foldl evs [] (by simp [GoMap.WF, GoMap.keys]) roomID
  simpa [bucketByRoom, toMembershipEvent, GoMap.get?, GoMap.getSlice] using h

theorem visibleJoinedRooms_spec (fromNID toNID : Int) (ks : List String) (hnd : ks.Nodup)
    (st : GoMap (List (Int × Int)) × GoMap (List membershipEvent)) (hwf : GoMap.WF st.2)
    (roomID : String) :
    GoMap.WF (visibleJoinedRooms fromNID toNID ks st).2 ∧
    GoMap.get? (visibleJoinedRooms fromNID toNID ks st).1 roomID =
      (if roomID ∈ ks then
        some (calculateVisibleEventNIDs true fromNID toNID (GoMap.getSlice st.2 roomID))
      else GoMap.get? st.1 roomID) ∧
    GoMap.get? (visibleJoinedRooms fromNID toNID ks st).2 roomID =
      (if roomID ∈ ks then none else GoMap.get? st.2 roomID) := by
  induction ks generalizing st with
  | nil => simp [visibleJoinedRooms, hwf]
  | cons k ks ih =>
    have hstep : visibleJoinedRooms fromNID toNID (k :: ks) st =
        visibleJoinedRooms fromNID toNID ks
          (GoMap.set st.1 k (calculateVisibleEventNIDs true fromNID toNID (GoMap.getSlice st.2 k)),
            GoMap.delete st.2 k) := by
      simp [visibleJoinedRooms]
    have hk : k ∉ ks := (List.nodup_cons.1 hnd).1
    obtain ⟨h1, h2, h3⟩ := ih (List.nodup_cons.1 hnd).2
      (GoMap.set st.1 k (calculateVisibleEventNIDs true fromNID toNID (GoMap.getSlice st.2 k)),
        GoMap.delete st.2 k) (GoMap.wf_delete _ _ hwf)
    rw [hstep]
    refine ⟨h1, ?_, ?_⟩
    · rw [h2]
      simp only [GoMap.getSlice_delete, GoMap.get?_set, List.mem_cons]
      by_cases hin : roomID ∈ ks
      · have hne : ¬ roomID = k := fun e => hk (e ▸ hin)
        simp [hin, hne]
      · by_cases he : roomID = k
        · simp [he, hk]
        · simp [hin, he]
    · rw [h3]
      simp only [GoMap.get?_delete, List.mem_cons]
      by_cases hin : roomID ∈ ks
      · simp [hin]
      · by_cases he : roomID = k
        · simp [he]
        · simp [hin, he]

theorem visibleOtherRooms_spec (fromNID toNID : Int) (result : GoMap (List (Int × Int)))
    (roomIDToLogs : GoMap (List membershipEvent)) (hwf : GoMap.WF roomIDToLogs)
    (roomID : String) :
    GoMap.get? (visibleOtherRooms fromNID toNID result roomIDToLogs) roomID =
      match GoMap.get? roomIDToLogs roomID with
      | some logs => some (calculateVisibleEventNIDs false fromNID toNID logs)
      | none => GoMap.get? result roomID := by
  unfold visibleOtherRooms
  rw [GoMap.get?_foldl_set (calculateVisibleEventNIDs false fromNID toNID) roomIDToLogs hwf
    result roomID]
  cases GoMap.get? roomIDToLogs roomID <;> rfl

/-- The entry of one room in the map built by `visibleEventNIDsWithData`. -/
theorem visibleEventNIDsWithData_get? (joinNIDsByRoomID : GoMap Int) (hwf : GoMap.WF joinNIDsByRoomID)
    (membershipEvents : List Event) (userID : String) (fromNID toNID : Int) :
    ∃ result, visibleEventNIDsWithData joinNIDsByRoomID membershipEvents userID fromNID toNID =
        Except.ok result ∧
      ∀ roomID, GoMap.get? result roomID =
        if GoMap.contains joinNIDsByRoomID roomID = true then
          some (calculateVisibleEventNIDs true fromNID toNID (roomLog roomID membershipEvents))
        else if roomLog roomID membershipEvents = [] then none
        else some (calculateVisibleEventNIDs false fromNID toNID
          (roomLog roomID membershipEvents)) := by
  refine ⟨_, rfl, ?_⟩
  intro roomID
  obtain ⟨hb1, hb2⟩ := bucketByRoom_spec membershipEvents roomID
  obtain ⟨h1, h2, h3⟩ := visibleJoinedRooms_spec fromNID toNID (GoMap.keys joinNIDsByRoomID) hwf
    ([], bucketByRoom membershipEvents) hb1 roomID
  rw [visibleOtherRooms_spec _ _ _ _ h1, h3, h2]
  simp only [GoMap.mem_keys_iff, GoMap.getSlice, hb2]
  by_cases hj : GoMap.contains joinNIDsByRoomID roomID = true
  · by_cases hl : roomLog roomID membershipEvents = []
    · simp [hj, hl]
    · simp [hj, hl]
  · by_cases hl : roomLog roomID membershipEvents = []
    · simp [hj, hl, GoMap.get?]
    · simp [hj, hl]

theorem stateAgrees_step (vs : VisibleState) (rs : ReplayState) (e : membershipEvent)
    (h : StateAgrees vs rs) : StateAgrees (visibleStep vs e) (replayStep rs e) := by
  obtain ⟨h1, h2, h3⟩ := h
  obtain ⟨res, si, ij⟩ := vs
  obtain ⟨op, cl⟩ := rs
  simp only at h1 h2 h3
  subst h1
  cases op with
  | some a =>
    have hs := h3 a rfl
    simp only [Option.isSome_some] at h2
    subst h2 hs
    by_cases hl : e.Membership = "leave" ∨ e.Membership = "ban"
    · rcases hl with hl | hl <;>
        simp [visibleStep, replayStep, hl, StateAgrees]
    · have hl1 : ¬ e.Membership = "leave" := fun x => hl (Or.inl x)
      have hl2 : ¬ e.Membership = "ban" := fun x => hl (Or.inr x)
      simp [visibleStep, replayStep, hl1, hl2, StateAgrees]
  | none =>
    simp only [Option.isSome_none] at h2
    subst h2
    by_cases hj : e.Membership = "join"
    · simp [visibleStep, replayStep, hj, StateAgrees]
    · by_cases hi : e.Membership = "invite"
      · simp [visibleStep, replayStep, hi, StateAgrees]
      · simp [visibleStep, replayStep, hj, hi, StateAgrees]

theorem stateAgrees_foldl (log : List membershipEvent) (vs : VisibleState) (rs : ReplayState)
    (h : StateAgrees vs rs) :
    StateAgrees (log.foldl visibleStep vs) (log.foldl replayStep rs) := by
  induction log generalizing vs rs with
  | nil => exact h
  | cons e rest ih => exact ih _ _ (stateAgrees_step vs rs e h)

theorem calculateVisibleEventNIDs_eq_replayLog (isJoined : Bool) (fromNID toNID : Int)
    (log : List membershipEvent) (h : isJoined = true ∨ log ≠ []) :
    calculateVisibleEventNIDs isJoined fromNID toNID log =
      replayLog isJoined fromNID toNID log := by
  cases log with
  | nil =>
    rcases h with h | h
    · subst h
      simp [calculateVisibleEventNIDs, replayLog]
    · exact absurd rfl h
  | cons e rest =>
    have hinit : StateAgrees
        { result := [], startIndex := if isJoined then fromNID else -1, isJoined := isJoined }
        { openAt := if isJoined then some fromNID else none, closed := [] } := by
      cases isJoined <;> simp [StateAgrees]
    have hag := stateAgrees_foldl (e :: rest) _ _ hinit
    obtain ⟨h1, h2, h3⟩ := hag
    simp only [calculateVisibleEventNIDs, replayLog, List.length_cons, Nat.add_one_ne_zero,
      if_false]
    rw [h1, h2]
    cases ho : (List.foldl replayStep
        { openAt := if isJoined then some fromNID else none, closed := [] }
        (e :: rest)).openAt with
    | none => simp
    | some a =>
      rw [h3 a ho]
      simp

/-- The interval list of every room in the map built by `visibleEventNIDsWithData`
(the nil slice for a room without entry), in terms of the replay. -/
theorem visibleEventNIDsWithData_getSlice (joinNIDsByRoomID : GoMap Int)
    (hwf : GoMap.WF joinNIDsByRoomID) (membershipEvents : List Event) (userID : String)
    (fromNID toNID : Int) :
    ∃ result, visibleEventNIDsWithData joinNIDsByRoomID membershipEvents userID fromNID toNID =
        Except.ok result ∧
      ∀ roomID,
        GoMap.getSlice result roomID =
          replayLog (GoMap.contains joinNIDsByRoomID roomID) fromNID toNID
            (roomLog roomID membershipEvents) := by
  obtain ⟨result, hres, hget⟩ := visibleEventNIDsWithData_get? joinNIDsByRoomID hwf
    membershipEvents userID fromNID toNID
  refine ⟨result, hres, ?_⟩
  intro roomID
  have hg := hget roomID
  by_cases hj : GoMap.contains joinNIDsByRoomID roomID = true
  · rw [if_pos hj] at hg
    simp only [GoMap.getSlice, hg, Option.getD_some, hj]
    exact calculateVisibleEventNIDs_eq_replayLog true fromNID toNID _ (Or.inl rfl)
  · have hj' : GoMap.contains joinNIDsByRoomID roomID = false := by
      simpa using hj
    rw [if_neg hj] at hg
    by_cases hl : roomLog roomID membershipEvents = []
    · rw [if_pos hl] at hg
      simp [GoMap.getSlice, hg, hj', hl, replayLog]
    · rw [if_neg hl] at hg
      simp only [GoMap.getSlice, hg, Option.getD_some, hj']
      exact calculateVisibleEventNIDs_eq_replayLog false fromNID toNID _ (Or.inr hl)

/-- C1: `visibleEventNIDsWithData` returns, for every room, the interval list obtained
by replaying that room's membership log from its initial state (joined at `from`: an
open interval at `from`; not joined: none), where a leave or ban while joined closes the
open interval at the event's NID, a join while not joined opens one at its NID, an
invite while not joined adds the point interval `[N, N]`, every other event changes
nothing and an interval still open at the end is closed at `to`. A room has an entry
exactly when it is joined at `from` or has a log, and a joined room with an empty log
yields `[[from, to]]`. -/
theorem visibleEventNIDsWithData_replays_log (joinNIDsByRoomID : GoMap Int)
    (hwf : GoMap.WF joinNIDsByRoomID) (membershipEvents : List Event) (userID : String)
    (fromNID toNID : Int) :
    ∃ result, visibleEventNIDsWithData joinNIDsByRoomID membershipEvents userID fromNID toNID =
        Except.ok result ∧
      ∀ roomID,
        GoMap.getSlice result roomID =
          replayLog (GoMap.contains joinNIDsByRoomID roomID) fromNID toNID
            (roomLog roomID membershipEvents) ∧
        (GoMap.contains result roomID = true ↔
          (GoMap.contains joinNIDsByRoomID roomID = true ∨
            roomLog roomID membershipEvents ≠ [])) ∧
        (GoMap.contains joinNIDsByRoomID roomID = true → roomLog roomID membershipEvents = [] →
          GoMap.getSlice result roomID = [(fromNID, toNID)]) := by
  obtain ⟨result, hres, hget⟩ := visibleEventNIDsWithData_get? joinNIDsByRoomID hwf
    membershipEvents userID fromNID toNID
  refine ⟨result, hres, ?_⟩
  intro roomID
  have hg := hget roomID
  by_cases hj : GoMap.contains joinNIDsByRoomID roomID = true
  · rw [if_pos hj] at hg
    have hrep := calculateVisibleEventNIDs_eq_replayLog true fromNID toNID
      (roomLog roomID membershipEvents) (Or.inl rfl)
    refine ⟨?_, ?_, ?_⟩
    · simp only [GoMap.getSlice, hg, Option.getD_some, hj]
      exact hrep
    · constructor
      · intro _
        exact Or.inl hj
      · intro _
        simp [GoMap.contains, hg]
    · intro _ hl
      simp [GoMap.getSlice, hg, hl, calculateVisibleEventNIDs]
  · have hj' : GoMap.contains joinNIDsByRoomID roomID = false := by
      simpa using hj
    rw [if_neg hj] at hg
    by_cases hl : roomLog roomID membershipEvents = []
    · rw [if_pos hl] at hg
      refine ⟨?_, ?_, ?_⟩
      · simp [GoMap.getSlice, hg, hj', hl, replayLog]
      · constructor
        · intro h
          simp [GoMap.contains, hg] at h
        · intro h
          rcases h with h | h
          · exact absurd h hj
          · exact absurd hl h
      · intro h
        exact absurd h hj
    · rw [if_neg hl] at hg
      have hrep := calculateVisibleEventNIDs_eq_replayLog false fromNID toNID
        (roomLog roomID membershipEvents) (Or.inr hl)
      refine ⟨?_, ?_, ?_⟩
      · simp only [GoMap.getSlice, hg, Option.getD_some, hj']
        exact hrep
      · simp [GoMap.contains, hg, hl]
      · intro h
        exact absurd h hj

/-- Witness for C1: the user is joined to R at NID 1, then leaves at 5 and joins again
at 8, and is invited to R2 at 12; with `from = 1` and `to = 15` room R gets
`[[1,5],[8,15]]` and room R2 gets `[[12,12]]`. -/
theorem visibleEventNIDsWithData_replays_log_witness :
    GoMap.WF [("R", (1 : Int))] ∧
    ∃ result, visibleEventNIDsWithData [("R", 1)]
        [memberEvent 5 "R" "U" "leave", memberEvent 8 "R" "U" "join",
          memberEvent 12 "R2" "U" "invite"] "U" 1 15 = Except.ok result ∧
      GoMap.getSlice result "R" = [(1, 5), (8, 15)] ∧
      GoMap.getSlice result "R2" = [(12, 12)] := by
  obtain ⟨result, hres, hall⟩ := visibleEventNIDsWithData_replays_log [("R", 1)] (by decide)
    [memberEvent 5 "R" "U" "leave", memberEvent 8 "R" "U" "join",
      memberEvent 12 "R2" "U" "invite"] "U" 1 15
  refine ⟨by decide, result, hres, ?_, ?_⟩
  · rw [(hall "R").1]
    decide
  · rw [(hall "R2").1]
    decide

theorem covered_cons (iv : Int × Int) (ivs : List (Int × Int)) (n : Int) :
    Covered (iv :: ivs) n ↔ (iv.1 ≤ n ∧ n ≤ iv.2) ∨ Covered ivs n := by
  simp [Covered]

theorem upTo_of_lt (n : Int) (es : List (Int × MemberKind)) (h : ∀ e ∈ es, n < e.1) :
    upTo n es = [] := by
  unfold upTo
  rw [List.filter_eq_nil_iff]
  intro e he
  have := h e he
  simp; omega

theorem before_of_le (n : Int) (es : List (Int × MemberKind)) (h : ∀ e ∈ es, n ≤ e.1) :
    before n es = [] := by
  unfold before
  rw [List.filter_eq_nil_iff]
  intro e he
  have := h e he
  simp; omega

theorem coverSpec_of_lt (j : Bool) (es : List (Int × MemberKind)) (n : Int)
    (h : ∀ e ∈ es, n < e.1) : CoverSpec j es n ↔ j = true := by
  unfold CoverSpec
  rw [upTo_of_lt n es h]
  constructor
  · rintro (h1 | ⟨e, he, hn, -⟩ | ⟨e, he, hn, -⟩)
    · simpa [joinedAfter] using h1
    · have := h e he; omega
    · have := h e he; omega
  · intro hj
    left
    simpa [joinedAfter] using hj

/-- the recursion of the semantic cover over an event that lies at or below `n` -/
theorem coverSpec_cons (j : Bool) (m : Int) (k : MemberKind) (es : List (Int × MemberKind))
    (n : Int) (hasc : ∀ e ∈ es, m < e.1) :
    CoverSpec j ((m, k) :: es) n ↔
      if n < m then j = true
      else if n = m then
        (joinedStep j k = true ∨ (k = MemberKind.leaveBan ∧ j = true) ∨ k = MemberKind.invite)
      else CoverSpec (joinedStep j k) es n := by
  by_cases h1 : n < m
  · rw [if_pos h1]
    apply coverSpec_of_lt
    intro e he
    rcases List.mem_cons.1 he with rfl | he
    · exact h1
    · have := hasc e he; omega
  · rw [if_neg h1]
    by_cases h2 : n = m
    · subst h2
      rw [if_pos rfl]
      have hup : upTo n ((n, k) :: es) = [(n, k)] := by
        have : upTo n es = [] := upTo_of_lt n es hasc
        unfold upTo at *
        simp [List.filter_cons, this]
      have hbe : before n ((n, k) :: es) = [] := by
        apply before_of_le
        intro e he
        rcases List.mem_cons.1 he with rfl | he
        · exact le_refl _
        · have := hasc e he; omega
      unfold CoverSpec
      rw [hup, hbe]
      have hex : ∀ (P : MemberKind → Prop),
          (∃ e ∈ (n, k) :: es, e.1 = n ∧ P e.2) ↔ P k := by
        intro P
        constructor
        · rintro ⟨e, he, hn, hp⟩
          rcases List.mem_cons.1 he with rfl | he
          · exact hp
          · have := hasc e he; omega
        · intro hp
          exact ⟨(n, k), by simp, rfl, hp⟩
      have e1 := hex (fun x => x = MemberKind.leaveBan ∧ joinedAfter j [] = true)
      have e2 := hex (fun x => x = MemberKind.invite)
      simp only at e1 e2
      rw [e1, e2]
      simp [joinedAfter]
    · rw [if_neg h2]
      have hlt : m < n := by omega
      have hup : upTo n ((m, k) :: es) = (m, k) :: upTo n es := by
        unfold upTo
        simp [List.filter_cons, le_of_lt hlt]
      have hbe : before n ((m, k) :: es) = (m, k) :: before n es := by
        unfold before
        simp [List.filter_cons, hlt]
      unfold CoverSpec
      rw [hup, hbe]
      have hex : ∀ (P : MemberKind → Prop),
          (∃ e ∈ (m, k) :: es, e.1 = n ∧ P e.2) ↔ (∃ e ∈ es, e.1 = n ∧ P e.2) := by
        intro P
        constructor
        · rintro ⟨e, he, hn, hp⟩
          rcases List.mem_cons.1 he with rfl | he
          · simp at hn; omega
          · exact ⟨e, he, hn, hp⟩
        · rintro ⟨e, he, hn, hp⟩
          exact ⟨e, List.mem_cons_of_mem _ he, hn, hp⟩
      have e1 := hex (fun x => x = MemberKind.leaveBan ∧
        joinedAfter j ((m, k) :: before n es) = true)
      have e2 := hex (fun x => x = MemberKind.invite)
      simp only at e1 e2
      rw [e1, e2]
      simp [joinedAfter]

theorem covered_walk (toNID : Int) (es : List (Int × MemberKind)) (hasc : Ascending es)
    (hto : ∀ e ∈ es, e.1 ≤ toNID) (op : Option Int)
    (hop : ∀ a, op = some a → ∀ e ∈ es, a ≤ e.1) (n : Int) :
    Covered (walk toNID op es) n ↔
      n ≤ toNID ∧ (∀ a, op = some a → a ≤ n) ∧ CoverSpec op.isSome es n := by
  induction es generalizing op with
  | nil =>
    cases op with
    | none => simp [walk, Covered, CoverSpec, joinedAfter, upTo]
    | some a =>
      simp only [walk, Covered, CoverSpec, joinedAfter, upTo, before, List.mem_singleton,
        exists_eq_left, Option.some.injEq, forall_eq', Option.isSome_some, List.filter_nil,
        List.foldl_nil, List.not_mem_nil, false_and, exists_false, or_false, and_true]
      constructor
      · rintro ⟨h1, h2⟩
        exact ⟨h2, h1⟩
      · rintro ⟨h1, h2⟩
        exact ⟨h2, h1⟩
  | cons e es ih =>
    obtain ⟨m, k⟩ := e
    have hasc' : ∀ e ∈ es, m < e.1 := by
      intro e he
      exact (List.pairwise_cons.1 hasc).1 e he
    have hasc2 : Ascending es := (List.pairwise_cons.1 hasc).2
    have hto' : ∀ e ∈ es, e.1 ≤ toNID := fun e he => hto e (List.mem_cons_of_mem _ he)
    have hm : m ≤ toNID := hto (m, k) (by simp)
    have hle : ∀ j, n ≤ m → (CoverSpec j es n ↔ j = true) := by
      intro j hnm
      apply coverSpec_of_lt
      intro e he
      have := hasc' e he
      omega
    rw [coverSpec_cons _ m k es n hasc']
    cases op with
    | some a =>
      have ham : a ≤ m := hop a rfl (m, k) (by simp)
      simp only [Option.some.injEq, forall_eq', Option.isSome_some]
      by_cases hk : k = MemberKind.leaveBan
      · subst hk
        have ihn := ih hasc2 hto' none (by simp)
        simp only [walk, if_true]
        rw [covered_cons, ihn]
        simp only [Option.isSome_none, joinedStep]
        rcases lt_trichotomy n m with h | h | h
        · have := hle false (le_of_lt h)
          simp only [h, if_true, this]
          constructor
          · rintro (⟨h1, h2⟩ | ⟨h1, -, h3⟩)
            · exact ⟨by omega, h1, trivial⟩
            · exact absurd h3 (by simp)
          · rintro ⟨h1, h2, -⟩
            exact Or.inl ⟨h2, by omega⟩
        · subst h
          have := hle false (le_refl _)
          simp only [lt_irrefl, if_false, if_true, this]
          constructor
          · intro _
            exact ⟨hm, ham, by simp⟩
          · intro _
            exact Or.inl ⟨ham, le_refl _⟩
        · have h1 : ¬ n < m := by omega
          have h2 : ¬ n = m := by omega
          simp only [h1, h2, if_false]
          constructor
          · rintro (⟨h3, h4⟩ | ⟨h3, -, h5⟩)
            · omega
            · exact ⟨h3, by omega, by simpa using h5⟩
          · rintro ⟨h3, h4, h5⟩
            exact Or.inr ⟨h3, by simp, by simpa using h5⟩
      · have ihn := ih hasc2 hto' (some a) (by
          intro b hb
          simp only [Option.some.injEq] at hb
          subst hb
          exact fun e he => hop a rfl e (List.mem_cons_of_mem _ he))
        have hjs : joinedStep true k = true := by
          simp [joinedStep, hk]
        simp only [walk, hk, if_false]
        rw [ihn]
        simp only [Option.some.injEq, forall_eq', Option.isSome_some, hjs]
        rcases lt_trichotomy n m with h | h | h
        · have := hle true (le_of_lt h)
          simp [h, this]
        · subst h
          have := hle true (le_refl _)
          simp [this]
        · have h1 : ¬ n < m := by omega
          have h2 : ¬ n = m := by omega
          simp [h1, h2]
    | none =>
      simp only [Option.isSome_none]
      have hnone : ∀ (a : Int), (none : Option Int) = some a → a ≤ n := by simp
      by_cases hk : k = MemberKind.join
      · subst hk
        have ihn := ih hasc2 hto' (some m) (by
          intro b hb
          simp only [Option.some.injEq] at hb
          subst hb
          exact fun e he => le_of_lt (hasc' e he))
        simp only [walk, if_true]
        rw [ihn]
        simp only [Option.some.injEq, forall_eq', Option.isSome_some, joinedStep, if_true]
        rcases lt_trichotomy n m with h | h | h
        · simp only [h, if_true]
          constructor
          · rintro ⟨-, h2, -⟩
            omega
          · rintro ⟨-, -, h3⟩
            exact absurd h3 (by simp)
        · subst h
          have := hle true (le_refl _)
          simp [this]
        · have h1 : ¬ n < m := by omega
          have h2 : ¬ n = m := by omega
          simp only [h1, h2, if_false]
          constructor
          · rintro ⟨h3, h4, h5⟩
            exact ⟨h3, by simp, h5⟩
          · rintro ⟨h3, -, h5⟩
            exact ⟨h3, by omega, h5⟩
      · by_cases hi : k = MemberKind.invite
        · subst hi
          have ihn := ih hasc2 hto' none (by simp)
          simp only [walk, hk, if_false, if_true]
          rw [covered_cons, ihn]
          simp only [Option.isSome_none, joinedStep]
          rcases lt_trichotomy n m with h | h | h
          · have := hle false (le_of_lt h)
            simp only [h, if_true, this]
            constructor
            · rintro (⟨h1, h2⟩ | ⟨-, -, h3⟩)
              · omega
              · exact absurd h3 (by simp)
            · rintro ⟨-, -, h3⟩
              exact absurd h3 (by simp)
          · subst h
            simp only [lt_irrefl, if_false, if_true]
            constructor
            · intro _
              exact ⟨hm, by simp, by simp⟩
            · intro _
              exact Or.inl ⟨le_refl _, le_refl _⟩
          · have h1 : ¬ n < m := by omega
            have h2 : ¬ n = m := by omega
            simp only [h1, h2, if_false]
            constructor
            · rintro (⟨h3, h4⟩ | ⟨h3, -, h5⟩)
              · omega
              · exact ⟨h3, by simp, by simpa using h5⟩
            · rintro ⟨h3, -, h5⟩
              exact Or.inr ⟨h3, by simp, by simpa using h5⟩
        · have ihn := ih hasc2 hto' none (by simp)
          have hjs : joinedStep false k = false := by
            by_cases hl : k = MemberKind.leaveBan <;> simp [joinedStep, hk, hl]
          simp only [walk, hk, hi, if_false]
          rw [ihn]
          simp only [Option.isSome_none, hjs]
          rcases lt_trichotomy n m with h | h | h
          · have := hle false (le_of_lt h)
            simp [h, this]
          · subst h
            have := hle false (le_refl _)
            simp [this, hi]
          · have h1 : ¬ n < m := by omega
            have h2 : ¬ n = m := by omega
            simp [h1, h2]

theorem joinedAfter_cons (j : Bool) (e : Int × MemberKind) (es : List (Int × MemberKind)) :
    joinedAfter j (e :: es) = joinedAfter (joinedStep j e.2) es := by
  simp [joinedAfter]

theorem joinedAfter_append (j : Bool) (es fs : List (Int × MemberKind)) :
    joinedAfter j (es ++ fs) = joinedAfter (joinedAfter j es) fs := by
  simp [joinedAfter, List.foldl_append]

theorem replayStep_walk (toNID : Int) (s : ReplayState) (e : membershipEvent)
    (rest : List (Int × MemberKind)) :
    s.closed ++ walk toNID s.openAt ((e.toEvent.NID, kindOf e.Membership) :: rest) =
      (replayStep s e).closed ++ walk toNID (replayStep s e).openAt rest := by
  obtain ⟨op, cl⟩ := s
  cases op with
  | some a =>
    by_cases hl : e.Membership = "leave" ∨ e.Membership = "ban"
    · have hk : kindOf e.Membership = MemberKind.leaveBan := by
        rcases hl with hl | hl <;> simp [kindOf, hl]
      simp [walk, replayStep, hl, hk]
    · have hk : kindOf e.Membership ≠ MemberKind.leaveBan := by
        unfold kindOf
        by_cases hj : e.Membership = "join"
        · simp [hj]
        · by_cases hi : e.Membership = "invite"
          · simp [hi]
          · simp [hj, hl, hi]
      simp [walk, replayStep, hl, hk]
  | none =>
    by_cases hj : e.Membership = "join"
    · have hk : kindOf e.Membership = MemberKind.join := by simp [kindOf, hj]
      rw [hk]
      simp [walk, replayStep, hj]
    · by_cases hi : e.Membership = "invite"
      · have hk : kindOf e.Membership = MemberKind.invite := by simp [kindOf, hi]
        rw [hk]
        simp [walk, replayStep, hi]
      · have hk1 : kindOf e.Membership ≠ MemberKind.join := by
          unfold kindOf
          by_cases hl : e.Membership = "leave" ∨ e.Membership = "ban"
          · simp [hj, hl]
          · simp [hj, hl, hi]
        have hk2 : kindOf e.Membership ≠ MemberKind.invite := by
          unfold kindOf
          by_cases hl : e.Membership = "leave" ∨ e.Membership = "ban"
          · simp [hj, hl]
          · simp [hj, hl, hi]
        simp [walk, replayStep, hj, hi, hk1, hk2]

theorem replay_foldl_walk (toNID : Int) (log : List membershipEvent) (s : ReplayState) :
    (match (log.foldl replayStep s).openAt with
      | some a => (log.foldl replayStep s).closed ++ [(a, toNID)]
      | none => (log.foldl replayStep s).closed) =
      s.closed ++ walk toNID s.openAt (abstractLog log) := by
  induction log generalizing s with
  | nil =>
    obtain ⟨op, cl⟩ := s
    cases op <;> simp [abstractLog, walk]
  | cons e rest ih =>
    simp only [List.foldl_cons]
    rw [ih (replayStep s e)]
    have := replayStep_walk toNID s e (abstractLog rest)
    simp only [abstractLog, List.map_cons] at this ⊢
    exact this.symm

theorem replayLog_eq_walk (j : Bool) (fromNID toNID : Int) (log : List membershipEvent) :
    replayLog j fromNID toNID log =
      walk toNID (if j then some fromNID else none) (abstractLog log) := by
  have h := replay_foldl_walk toNID log
    { openAt := if j then some fromNID else none, closed := [] }
  simp only [List.nil_append] at h
  unfold replayLog
  exact h

theorem contains_determineJoinedStep (m : GoMap Int) (ev : Event) (roomID : String) :
    GoMap.contains (determineJoinedStep m ev) roomID =
      if ev.RoomID = roomID then
        joinedStep (GoMap.contains m roomID) (kindOf (gjsonStr ev.JSON.membership))
      else GoMap.contains m roomID := by
  unfold determineJoinedStep kindOf joinedStep
  by_cases hr : ev.RoomID = roomID
  · subst hr
    by_cases hj : gjsonStr ev.JSON.membership = "join"
    · by_cases hc : GoMap.contains m ev.RoomID = true
      · simp [hj, hc]
      · have hc' : (GoMap.get? m ev.RoomID).isSome = false := by
          simpa [GoMap.contains] using hc
        simp [hj, hc', GoMap.contains, GoMap.get?_set]
    · by_cases hl : gjsonStr ev.JSON.membership = "leave" ∨ gjsonStr ev.JSON.membership = "ban"
      · have hl' : gjsonStr ev.JSON.membership = "ban" ∨ gjsonStr ev.JSON.membership = "leave" :=
          hl.symm
        simp [hj, hl, hl', GoMap.contains, GoMap.get?_delete]
      · have hl' : ¬ (gjsonStr ev.JSON.membership = "ban" ∨
            gjsonStr ev.JSON.membership = "leave") := fun h => hl h.symm
        by_cases hi : gjsonStr ev.JSON.membership = "invite"
        · simp [hi]
        · simp [hj, hl, hl', hi]
  · have hr' : ¬ roomID = ev.RoomID := fun e => hr e.symm
    by_cases hj : gjsonStr ev.JSON.membership = "join"
    · by_cases hc : GoMap.contains m ev.RoomID = true
      · simp [hj, hc, hr]
      · have hc' : (GoMap.get? m ev.RoomID).isSome = false := by
          simpa [GoMap.contains] using hc
        simp [hj, hc', hr, hr', GoMap.contains, GoMap.get?_set]
    · by_cases hl' : gjsonStr ev.JSON.membership = "ban" ∨ gjsonStr ev.JSON.membership = "leave"
      · simp [hj, hl', hr, hr', GoMap.contains, GoMap.get?_delete]
      · simp [hj, hl', hr]

theorem wf_determineJoinedStep (m : GoMap Int) (ev : Event) (h : GoMap.WF m) :
    GoMap.WF (determineJoinedStep m ev) := by
  unfold determineJoinedStep
  by_cases hj : gjsonStr ev.JSON.membership = "join"
  · by_cases hc : GoMap.contains m ev.RoomID = true
    · simp [hj, hc, h]
    · simp [hj, hc, GoMap.wf_set _ _ _ h]
  · by_cases hl' : gjsonStr ev.JSON.membership = "ban" ∨ gjsonStr ev.JSON.membership = "leave"
    · simp [hj, hl', GoMap.wf_delete _ _ h]
    · simp [hj, hl', h]

theorem determineJoined_foldl (evs : List Event) (m : GoMap Int) (hwf : GoMap.WF m)
    (roomID : String) :
    GoMap.WF (evs.foldl determineJoinedStep m) ∧
    GoMap.contains (evs.foldl determineJoinedStep m) roomID =
      joinedAfter (GoMap.contains m roomID) (abstractLog (roomLog roomID evs)) := by
  induction evs generalizing m with
  | nil => simp [hwf, roomLog, abstractLog, joinedAfter]
  | cons ev evs ih =>
    simp only [List.foldl_cons]
    obtain ⟨h1, h2⟩ := ih (determineJoinedStep m ev) (wf_determineJoinedStep m ev hwf)
    refine ⟨h1, ?_⟩
    rw [h2, contains_determineJoinedStep, roomLog_cons]
    by_cases hr : ev.RoomID = roomID
    · simp [hr, abstractLog, joinedAfter_cons, toMembershipEvent]
    · simp [hr]

theorem selectEvents_eq (table : List Event) (userID : String) (lo hi : Int) :
    SelectEventsWithTypeStateKey table "m.room.member" userID lo hi =
      Except.ok (table.filter (selects userID lo hi)) := rfl

theorem joinedRoomsAfterPosition_eq (table : List Event) (userID : String) (pos : Int) :
    JoinedRoomsAfterPosition table userID pos =
      Except.ok ((table.filter (selects userID 0 pos)).foldl determineJoinedStep []) := rfl

theorem visibleEventNIDsBetween_eq (table : List Event) (userID : String)
    (fromNID toNID : Int) :
    VisibleEventNIDsBetween table userID fromNID toNID =
      visibleEventNIDsWithData
        ((table.filter (selects userID 0 fromNID)).foldl determineJoinedStep [])
        (table.filter (selects userID fromNID toNID)) userID fromNID toNID := rfl

theorem filter_split (l : List Event) (hs : l.Pairwise (fun a b => a.NID < b.NID))
    (p q r : Event → Bool) (hpqr : ∀ x ∈ l, p x = (q x || r x))
    (hqr : ∀ x ∈ l, ∀ y ∈ l, q x = true → r y = true → x.NID < y.NID) :
    l.filter p = l.filter q ++ l.filter r := by
  induction l with
  | nil => simp
  | cons a t ih =>
    have hs' := List.pairwise_cons.1 hs
    have iht := ih hs'.2 (fun x hx => hpqr x (List.mem_cons_of_mem _ hx))
      (fun x hx y hy => hqr x (List.mem_cons_of_mem _ hx) y (List.mem_cons_of_mem _ hy))
    have hpa := hpqr a (by simp)
    cases hq : q a with
    | true =>
      have hr : r a = false := by
        cases hr : r a with
        | false => rfl
        | true => exact absurd (hqr a (by simp) a (by simp) hq hr) (lt_irrefl _)
      rw [hq, hr] at hpa
      simp [List.filter_cons, hq, hr, hpa, iht]
    | false =>
      cases hr : r a with
      | false =>
        rw [hq, hr] at hpa
        simp [List.filter_cons, hq, hr, hpa, iht]
      | true =>
        rw [hq, hr] at hpa
        have hnil : t.filter q = [] := by
          rw [List.filter_eq_nil_iff]
          intro y hy hqy
          have h1 := hqr y (List.mem_cons_of_mem _ hy) a (by simp) hqy hr
          have h2 := hs'.1 y hy
          omega
        simp [List.filter_cons, hq, hr, hpa, iht, hnil]

theorem select_split (table : List Event) (hok : TableOK table) (userID : String)
    (f n : Int) (hfn : f ≤ n) :
    table.filter (selects userID 0 n) =
      table.filter (selects userID 0 f) ++ table.filter (selects userID f n) := by
  apply filter_split table hok.1
  · intro x hx
    have hpos := hok.2 x hx
    unfold selects
    by_cases h1 : x.EventType = "m.room.member" <;> by_cases h2 : x.StateKey = userID <;>
      by_cases h3 : x.NID ≤ f <;> by_cases h4 : x.NID ≤ n <;>
      simp [h1, h2, h3, h4, hpos] <;> omega
  · intro x _ y _ hx hy
    unfold selects at hx hy
    simp only [Bool.and_eq_true, decide_eq_true_eq] at hx hy
    omega

theorem roomLog_append (roomID : String) (a b : List Event) :
    roomLog roomID (a ++ b) = roomLog roomID a ++ roomLog roomID b := by
  simp [roomLog]

theorem abstractLog_append (a b : List membershipEvent) :
    abstractLog (a ++ b) = abstractLog a ++ abstractLog b := by
  simp [abstractLog]

theorem joinedAt_eq (table : List Event) (userID roomID : String) (n : Int) :
    joinedAt table userID roomID n =
      joinedAfter false (abstractLog (roomLog roomID (table.filter (selects userID 0 n)))) := by
  unfold joinedAt
  rw [joinedRoomsAfterPosition_eq]
  simp only
  rw [(determineJoined_foldl _ [] (by simp [GoMap.WF, GoMap.keys]) roomID).2]
  simp [GoMap.contains, GoMap.get?]

theorem joinedAt_split (table : List Event) (hok : TableOK table) (userID roomID : String)
    (f n : Int) (hfn : f ≤ n) :
    joinedAt table userID roomID n =
      joinedAfter (joinedAt table userID roomID f)
        (abstractLog (roomLog roomID (table.filter (selects userID f n)))) := by
  rw [joinedAt_eq, joinedAt_eq, select_split table hok userID f n hfn, roomLog_append,
    abstractLog_append, joinedAfter_append]

theorem windowLog_cons (ev : Event) (table : List Event) (userID roomID : String)
    (lo hi : Int) :
    windowLog (ev :: table) userID roomID lo hi =
      if selects userID lo hi ev = true ∧ ev.RoomID = roomID then
        (ev.NID, kindOf (gjsonStr ev.JSON.membership)) :: windowLog table userID roomID lo hi
      else windowLog table userID roomID lo hi := by
  unfold windowLog
  by_cases h1 : selects userID lo hi ev = true
  · by_cases h2 : ev.RoomID = roomID
    · simp [List.filter_cons, h1, h2, roomLog_cons, abstractLog, toMembershipEvent]
    · simp [List.filter_cons, h1, h2, roomLog_cons]
  · simp [List.filter_cons, h1]

theorem mem_windowLog (table : List Event) (userID roomID : String) (lo hi : Int)
    (e : Int × MemberKind) :
    e ∈ windowLog table userID roomID lo hi ↔
      ∃ ev ∈ table, IsMembership userID roomID ev ∧ lo < ev.NID ∧ ev.NID ≤ hi ∧
        ev.NID = e.1 ∧ kindOf (gjsonStr ev.JSON.membership) = e.2 := by
  induction table with
  | nil => simp [windowLog, roomLog, abstractLog]
  | cons ev table ih =>
    rw [windowLog_cons]
    by_cases h : selects userID lo hi ev = true ∧ ev.RoomID = roomID
    · rw [if_pos h, List.mem_cons, ih]
      obtain ⟨h1, h2⟩ := h
      unfold selects at h1
      simp only [Bool.and_eq_true, decide_eq_true_eq] at h1
      constructor
      · rintro (he | ⟨ev', hev', hrest⟩)
        · refine ⟨ev, by simp, ⟨h1.1.1.1, h1.1.1.2, h2⟩, h1.1.2, h1.2, ?_, ?_⟩
          · rw [he]
          · rw [he]
        · exact ⟨ev', List.mem_cons_of_mem _ hev', hrest⟩
      · rintro ⟨ev', hev', hrest⟩
        rcases List.mem_cons.1 hev' with rfl | hev'
        · left
          obtain ⟨-, -, -, h5, h6⟩ := hrest
          exact Prod.ext h5.symm h6.symm
        · exact Or.inr ⟨ev', hev', hrest⟩
    · rw [if_neg h, ih]
      constructor
      · rintro ⟨ev', hev', hrest⟩
        exact ⟨ev', List.mem_cons_of_mem _ hev', hrest⟩
      · rintro ⟨ev', hev', hrest⟩
        rcases List.mem_cons.1 hev' with rfl | hev'
        · exfalso
          apply h
          obtain ⟨⟨a, b, c⟩, d, e', -, -⟩ := hrest
          refine ⟨?_, c⟩
          unfold selects
          simp [a, b, d, e']
        · exact ⟨ev', hev', hrest⟩

theorem windowLog_ascending (table : List Event)
    (hs : table.Pairwise (fun a b => a.NID < b.NID)) (userID roomID : String) (lo hi : Int) :
    Ascending (windowLog table userID roomID lo hi) := by
  unfold Ascending windowLog abstractLog roomLog
  rw [List.map_map]
  apply List.Pairwise.map _ _ ((hs.filter _).filter _)
  intro a b hab
  exact hab

theorem windowLog_upTo (table : List Event) (userID roomID : String) (lo n hi : Int)
    (hn : n ≤ hi) :
    windowLog table userID roomID lo n = upTo n (windowLog table userID roomID lo hi) := by
  induction table with
  | nil => simp [windowLog, roomLog, abstractLog, upTo]
  | cons ev table ih =>
    rw [windowLog_cons, windowLog_cons, ih]
    unfold selects
    by_cases h1 : ev.EventType = "m.room.member" <;> by_cases h2 : ev.StateKey = userID <;>
      by_cases h3 : lo < ev.NID <;> by_cases h4 : ev.NID ≤ n <;>
      by_cases h5 : ev.RoomID = roomID <;> by_cases h6 : ev.NID ≤ hi <;>
      first
        | omega
        | simp [h1, h2, h3, h4, h5, h6, upTo, List.filter_cons]

theorem upTo_pred (n : Int) (es : List (Int × MemberKind)) : upTo (n - 1) es = before n es := by
  unfold upTo before
  apply List.filter_congr
  intro e _
  by_cases h : e.1 < n
  · have : e.1 ≤ n - 1 := by omega
    simp [h, this]
  · have : ¬ e.1 ≤ n - 1 := by omega
    simp [h, this]

theorem kindOf_eq_leaveBan_iff (m : String) :
    kindOf m = MemberKind.leaveBan ↔ (m = "leave" ∨ m = "ban") := by
  unfold kindOf
  by_cases hj : m = "join"
  · simp [hj]
  · by_cases hl : m = "leave" ∨ m = "ban"
    · simp [hj, hl]
    · by_cases hi : m = "invite"
      · simp [hi]
      · simp [hj, hl, hi]

theorem kindOf_eq_invite_iff (m : String) : kindOf m = MemberKind.invite ↔ m = "invite" := by
  unfold kindOf
  by_cases hj : m = "join"
  · simp [hj]
  · by_cases hl : m = "leave" ∨ m = "ban"
    · rcases hl with hl | hl <;> simp [hl]
    · by_cases hi : m = "invite"
      · simp [hi]
      · simp [hj, hl, hi]

theorem joinedAt_def (table : List Event) (userID roomID : String) (n : Int) :
    joinedAt table userID roomID n =
      GoMap.contains ((table.filter (selects userID 0 n)).foldl determineJoinedStep [])
        roomID := rfl

theorem joinedAfter_false_nil_of_true (es : List (Int × MemberKind))
    (h : joinedAfter false es = true) : es ≠ [] := by
  intro he
  rw [he] at h
  simp [joinedAfter] at h

theorem windowLog_bounds (table : List Event) (userID roomID : String) (lo hi : Int)
    (e : Int × MemberKind) (he : e ∈ windowLog table userID roomID lo hi) :
    lo < e.1 ∧ e.1 ≤ hi := by
  obtain ⟨ev, -, -, h1, h2, h3, -⟩ := (mem_windowLog table userID roomID lo hi e).1 he
  rw [← h3]
  exact ⟨h1, h2⟩

/-- Counterexample to C2 as stated. First table: the user joins R at NID 1 and leaves
at NID 5; for `from = 1`, `to = 15` the intervals of R do not cover exactly the NIDs at
which the membership resolved is join plus the invite NIDs, because they cover the NID
5 of the leave. Second table: the user is invited to R at NID 3; for `from = 3`,
`to = 10` the invite NID 3 lies in `[from, to]` and is not covered. -/
theorem visibleEventNIDsBetween_not_exactly_joined :
    ¬ (∀ result,
        VisibleEventNIDsBetween [memberEvent 1 "R" "U" "join", memberEvent 5 "R" "U" "leave"]
          "U" 1 15 = Except.ok result →
        ∀ n : Int, Covered (GoMap.getSlice result "R") n ↔
          ((1 ≤ n ∧ n ≤ 15) ∧
            (joinedAt [memberEvent 1 "R" "U" "join", memberEvent 5 "R" "U" "leave"]
                "U" "R" n = true ∨
              ∃ ev ∈ [memberEvent 1 "R" "U" "join", memberEvent 5 "R" "U" "leave"],
                IsMembership "U" "R" ev ∧ ev.NID = n ∧
                  gjsonStr ev.JSON.membership = "invite"))) ∧
    ¬ (∀ result,
        VisibleEventNIDsBetween [memberEvent 3 "R" "U" "invite"] "U" 3 10 = Except.ok result →
        ∀ n : Int, Covered (GoMap.getSlice result "R") n ↔
          ((3 ≤ n ∧ n ≤ 10) ∧
            (joinedAt [memberEvent 3 "R" "U" "invite"] "U" "R" n = true ∨
              ∃ ev ∈ [memberEvent 3 "R" "U" "invite"],
                IsMembership "U" "R" ev ∧ ev.NID = n ∧
                  gjsonStr ev.JSON.membership = "invite"))) := by
  constructor
  · intro h
    have h5 := (h [("R", [(1, 5)])] rfl 5).1 ⟨(1, 5), by decide, by decide, by decide⟩
    rcases h5.2 with hj | ⟨ev, hev, -, -, hinv⟩
    · exact absurd hj (by decide)
    · simp only [List.mem_cons, List.mem_singleton, List.not_mem_nil, or_false] at hev
      rcases hev with rfl | rfl
      · exact absurd hinv (by decide)
      · exact absurd hinv (by decide)
  · intro h
    have h3 := (h [] rfl 3).2
      ⟨⟨by decide, by decide⟩, Or.inr ⟨memberEvent 3 "R" "U" "invite", by simp,
        ⟨by decide, by decide, by decide⟩, by decide, by decide⟩⟩
    obtain ⟨iv, hiv, -⟩ := h3
    simp [GoMap.getSlice, GoMap.get?] at hiv

/-- C2, amended: for a table in ascending NID order with positive NIDs, every user,
`from`, `to` and room, the union of the intervals that `VisibleEventNIDsBetween`
returns for the room contains exactly those NIDs `n` in `[from, to]` such that the
membership resolved at `n` is join, or `n` is in `(from, to]` and is the NID of the
leave or ban event that ends a joined period (the membership resolved at `n - 1` is
join), or `n` is in `(from, to]` and is the NID of an invite of the user in the room. -/
theorem visibleEventNIDsBetween_covered_iff (table : List Event) (hok : TableOK table)
    (userID : String) (fromNID toNID : Int) :
    ∃ result, VisibleEventNIDsBetween table userID fromNID toNID = Except.ok result ∧
      ∀ (roomID : String) (n : Int), Covered (GoMap.getSlice result roomID) n ↔
        (fromNID ≤ n ∧ n ≤ toNID) ∧
        (joinedAt table userID roomID n = true ∨
          (fromNID < n ∧ joinedAt table userID roomID (n - 1) = true ∧
            ∃ ev ∈ table, IsMembership userID roomID ev ∧ ev.NID = n ∧
              (gjsonStr ev.JSON.membership = "leave" ∨ gjsonStr ev.JSON.membership = "ban")) ∨
          (fromNID < n ∧
            ∃ ev ∈ table, IsMembership userID roomID ev ∧ ev.NID = n ∧
              gjsonStr ev.JSON.membership = "invite")) := by
  rw [visibleEventNIDsBetween_eq]
  have hwf : GoMap.WF ((table.filter (selects userID 0 fromNID)).foldl determineJoinedStep []) :=
    (determineJoined_foldl _ [] (by simp [GoMap.WF, GoMap.keys]) "").1
  obtain ⟨result, hres, hall⟩ := visibleEventNIDsWithData_getSlice _ hwf
    (table.filter (selects userID fromNID toNID)) userID fromNID toNID
  refine ⟨result, hres, ?_⟩
  intro roomID n
  rw [hall roomID, ← joinedAt_def, replayLog_eq_walk]
  have hes : abstractLog (roomLog roomID (table.filter (selects userID fromNID toNID))) =
      windowLog table userID roomID fromNID toNID := rfl
  rw [hes]
  have hb := windowLog_bounds table userID roomID fromNID toNID
  have hcw := covered_walk toNID (windowLog table userID roomID fromNID toNID)
    (windowLog_ascending table hok.1 userID roomID fromNID toNID)
    (fun e he => (hb e he).2)
    (if joinedAt table userID roomID fromNID = true then some fromNID else none)
    (by
      intro a ha e he
      by_cases hj : joinedAt table userID roomID fromNID = true
      · rw [if_pos hj] at ha
        simp only [Option.some.injEq] at ha
        have := (hb e he).1
        omega
      · rw [if_neg hj] at ha
        exact absurd ha (by simp)) n
  have hsome : (if joinedAt table userID roomID fromNID = true then some fromNID
      else none).isSome = joinedAt table userID roomID fromNID := by
    cases joinedAt table userID roomID fromNID <;> simp
  rw [hsome] at hcw
  rw [hcw]
  have key : ∀ m, fromNID ≤ m → m ≤ toNID →
      joinedAt table userID roomID m =
        joinedAfter (joinedAt table userID roomID fromNID)
          (upTo m (windowLog table userID roomID fromNID toNID)) := by
    intro m h1 h2
    rw [joinedAt_split table hok userID roomID fromNID m h1,
      ← windowLog_upTo table userID roomID fromNID m toNID h2]
    rfl
  have hmem := mem_windowLog table userID roomID fromNID toNID
  constructor
  · rintro ⟨hnt, hop, hcs⟩
    have hfn : fromNID ≤ n := by
      by_cases hj : joinedAt table userID roomID fromNID = true
      · exact hop fromNID (by rw [if_pos hj])
      · have hj' : joinedAt table userID roomID fromNID = false := by simpa using hj
        rw [hj'] at hcs
        rcases hcs with h | ⟨e, he, hen, -⟩ | ⟨e, he, hen, -⟩
        · have hne := joinedAfter_false_nil_of_true _ h
          obtain ⟨e, he⟩ := List.exists_mem_of_ne_nil _ hne
          unfold upTo at he
          rw [List.mem_filter] at he
          have h1 := (hb e he.1).1
          have h2 : e.1 ≤ n := by simpa using he.2
          omega
        · have := (hb e he).1
          omega
        · have := (hb e he).1
          omega
    refine ⟨⟨hfn, hnt⟩, ?_⟩
    rcases hcs with h | ⟨e, he, hen, hk, hja⟩ | ⟨e, he, hen, hk⟩
    · left
      rw [key n hfn hnt]
      exact h
    · right
      left
      have hlt : fromNID < n := by
        have := (hb e he).1
        omega
      refine ⟨hlt, ?_, ?_⟩
      · rw [key (n - 1) (by omega) (by omega), upTo_pred]
        exact hja
      · obtain ⟨ev, hev, hmb, -, -, h5, h6⟩ := (hmem e).1 he
        refine ⟨ev, hev, hmb, by omega, ?_⟩
        rw [hk] at h6
        exact (kindOf_eq_leaveBan_iff _).1 h6
    · right
      right
      have hlt : fromNID < n := by
        have := (hb e he).1
        omega
      refine ⟨hlt, ?_⟩
      obtain ⟨ev, hev, hmb, -, -, h5, h6⟩ := (hmem e).1 he
      refine ⟨ev, hev, hmb, by omega, ?_⟩
      rw [hk] at h6
      exact (kindOf_eq_invite_iff _).1 h6
  · rintro ⟨⟨hfn, hnt⟩, hcases⟩
    refine ⟨hnt, ?_, ?_⟩
    · intro a ha
      by_cases hj : joinedAt table userID roomID fromNID = true
      · rw [if_pos hj] at ha
        simp only [Option.some.injEq] at ha
        omega
      · rw [if_neg hj] at ha
        exact absurd ha (by simp)
    · rcases hcases with h | ⟨hlt, hja, ev, hev, hmb, hen, hk⟩ | ⟨hlt, ev, hev, hmb, hen, hk⟩
      · left
        rw [← key n hfn hnt]
        exact h
      · right
        left
        refine ⟨(n, MemberKind.leaveBan), ?_, rfl, rfl, ?_⟩
        · exact (hmem _).2 ⟨ev, hev, hmb, by omega, by omega, hen,
            (kindOf_eq_leaveBan_iff _).2 hk⟩
        · rw [← upTo_pred, ← key (n - 1) (by omega) (by omega)]
          exact hja
      · right
        right
        refine ⟨(n, MemberKind.invite), ?_, rfl, rfl⟩
        exact (hmem _).2 ⟨ev, hev, hmb, by omega, by omega, hen,
          (kindOf_eq_invite_iff _).2 hk⟩

/-- Witness for C2, amended: the user joins R at 1, leaves at 5, joins again at 8 and is
invited to R2 at 12. For `from = 1`, `to = 15`: NID 5 (the leave) is covered in R, NID 6
is not, and NID 12 (the invite) is covered in R2. -/
theorem visibleEventNIDsBetween_covered_iff_witness :
    TableOK [memberEvent 1 "R" "U" "join", memberEvent 5 "R" "U" "leave",
      memberEvent 8 "R" "U" "join", memberEvent 12 "R2" "U" "invite"] ∧
    ∃ result, VisibleEventNIDsBetween [memberEvent 1 "R" "U" "join",
        memberEvent 5 "R" "U" "leave", memberEvent 8 "R" "U" "join",
        memberEvent 12 "R2" "U" "invite"] "U" 1 15 = Except.ok result ∧
      Covered (GoMap.getSlice result "R") 5 ∧ ¬ Covered (GoMap.getSlice result "R") 6 ∧
      Covered (GoMap.getSlice result "R2") 12 := by
  obtain ⟨result, hres, hall⟩ := visibleEventNIDsBetween_covered_iff
    [memberEvent 1 "R" "U" "join", memberEvent 5 "R" "U" "leave",
      memberEvent 8 "R" "U" "join", memberEvent 12 "R2" "U" "invite"] (by decide) "U" 1 15
  refine ⟨by decide, result, hres, ?_, ?_, ?_⟩
  · exact (hall "R" 5).2 ⟨⟨by decide, by decide⟩, Or.inr (Or.inl ⟨by decide, by decide,
      memberEvent 5 "R" "U" "leave", by simp, ⟨by decide, by decide, by decide⟩, by decide,
      Or.inl (by decide)⟩)⟩
  · intro h6
    rcases ((hall "R" 6).1 h6).2 with hj | ⟨-, -, ev, hev, -, hn, -⟩ | ⟨-, ev, hev, -, hn, -⟩
    · exact absurd hj (by decide)
    · simp only [List.mem_cons, List.mem_singleton, List.not_mem_nil, or_false] at hev
      rcases hev with rfl | rfl | rfl | rfl <;> exact absurd hn (by decide)
    · simp only [List.mem_cons, List.mem_singleton, List.not_mem_nil, or_false] at hev
      rcases hev with rfl | rfl | rfl | rfl <;> exact absurd hn (by decide)
  · exact (hall "R2" 12).2 ⟨⟨by decide, by decide⟩, Or.inr (Or.inr ⟨by decide,
      memberEvent 12 "R2" "U" "invite", by simp, ⟨by decide, by decide, by decide⟩, by decide,
      by decide⟩)⟩

theorem replaceFirstNID_of_not_mem (replacesNID nid : Int) (l : List Int)
    (h : replacesNID ∉ l) : replaceFirstNID replacesNID nid l = l := by
  induction l with
  | nil => rfl
  | cons x xs ih =>
    have hx : ¬ x = replacesNID := fun e => h (by simp [e])
    have hxs : replacesNID ∉ xs := fun e => h (List.mem_cons_of_mem _ e)
    simp [replaceFirstNID, hx, ih hxs]

theorem replaceFirstNID_split (replacesNID nid : Int) (pre post : List Int)
    (h : replacesNID ∉ pre) :
    replaceFirstNID replacesNID nid (pre ++ replacesNID :: post) = pre ++ nid :: post := by
  induction pre with
  | nil => simp [replaceFirstNID]
  | cons x xs ih =>
    have hx : ¬ x = replacesNID := fun e => h (by simp [e])
    have hxs : replacesNID ∉ xs := fun e => h (List.mem_cons_of_mem _ e)
    simp [replaceFirstNID, hx, ih hxs]

/-- C13: on the empty-filter path of `RoomStateAfterEventPosition` the NID list used is
the before-snapshot of the latest event E (membership NIDs followed by other NIDs)
rolled forward by E: with a state_key and `replaces_nid = R ≠ 0` the entry R is replaced
by `E.NID` and nothing else changes (nothing at all when R is not in the list); with a
state_key and `replaces_nid = 0`, `E.NID` is appended unless it is already present;
without a state_key the list is unchanged. -/
theorem rollForwardStateNIDs_spec (snapshotRow : SnapshotRow) (ev : Event) :
    (ev.JSON.state_key = none →
      rollForwardStateNIDs snapshotRow ev =
        snapshotRow.MembershipEvents ++ snapshotRow.OtherEvents) ∧
    (ev.JSON.state_key ≠ none → ev.ReplacesNID ≠ 0 →
      (ev.ReplacesNID ∉ snapshotRow.MembershipEvents ++ snapshotRow.OtherEvents →
        rollForwardStateNIDs snapshotRow ev =
          snapshotRow.MembershipEvents ++ snapshotRow.OtherEvents) ∧
      (∀ pre post : List Int,
        snapshotRow.MembershipEvents ++ snapshotRow.OtherEvents =
          pre ++ ev.ReplacesNID :: post →
        ev.ReplacesNID ∉ pre →
        rollForwardStateNIDs snapshotRow ev = pre ++ ev.NID :: post)) ∧
    (ev.JSON.state_key ≠ none → ev.ReplacesNID = 0 →
      (ev.NID ∈ snapshotRow.MembershipEvents ++ snapshotRow.OtherEvents →
        rollForwardStateNIDs snapshotRow ev =
          snapshotRow.MembershipEvents ++ snapshotRow.OtherEvents) ∧
      (ev.NID ∉ snapshotRow.MembershipEvents ++ snapshotRow.OtherEvents →
        rollForwardStateNIDs snapshotRow ev =
          snapshotRow.MembershipEvents ++ snapshotRow.OtherEvents ++ [ev.NID])) := by
  refine ⟨?_, ?_, ?_⟩
  · intro hk
    simp [rollForwardStateNIDs, hk]
  · intro hk hr
    have hsome : ev.JSON.state_key.isSome = true := by
      cases h : ev.JSON.state_key with
      | none => exact absurd h hk
      | some v => rfl
    refine ⟨?_, ?_⟩
    · intro hnot
      simp only [rollForwardStateNIDs, hsome, if_true, hr, ne_eq, not_false_eq_true]
      exact replaceFirstNID_of_not_mem _ _ _ hnot
    · intro pre post hsplit hpre
      simp only [rollForwardStateNIDs, hsome, if_true, hr, ne_eq, not_false_eq_true]
      rw [hsplit]
      exact replaceFirstNID_split _ _ pre post hpre
  · intro hk hr
    have hsome : ev.JSON.state_key.isSome = true := by
      cases h : ev.JSON.state_key with
      | none => exact absurd h hk
      | some v => rfl
    refine ⟨?_, ?_⟩
    · intro hmem
      have hany : (snapshotRow.MembershipEvents ++ snapshotRow.OtherEvents).any
          (fun nid => decide (nid = ev.NID)) = true := by
        rw [List.any_eq_true]
        exact ⟨ev.NID, hmem, by simp⟩
      simp [rollForwardStateNIDs, hsome, hr, hany]
    · intro hnot
      have hany : (snapshotRow.MembershipEvents ++ snapshotRow.OtherEvents).any
          (fun nid => decide (nid = ev.NID)) = false := by
        rw [← Bool.not_eq_true, List.any_eq_true]
        rintro ⟨x, hx, hxe⟩
        simp only [decide_eq_true_eq] at hxe
        exact hnot (hxe ▸ hx)
      simp [rollForwardStateNIDs, hsome, hr, hany]

/-- Witness for C13: the snapshot has membership NIDs `[1, 2]` and other NIDs `[3, 4]`.
A state event 9 replacing 3 gives `[1, 2, 9, 4]`; a new state event 9 gives
`[1, 2, 3, 4, 9]`; the state event 4, already present, and a message event 9 leave
`[1, 2, 3, 4]`. -/
theorem rollForwardStateNIDs_spec_witness :
    rollForwardStateNIDs ⟨[1, 2], [3, 4]⟩ (rollEvent 9 3 (some "")) = [1, 2, 9, 4] ∧
    rollForwardStateNIDs ⟨[1, 2], [3, 4]⟩ (rollEvent 9 0 (some "")) = [1, 2, 3, 4, 9] ∧
    rollForwardStateNIDs ⟨[1, 2], [3, 4]⟩ (rollEvent 4 0 (some "")) = [1, 2, 3, 4] ∧
    rollForwardStateNIDs ⟨[1, 2], [3, 4]⟩ (rollEvent 9 0 none) = [1, 2, 3, 4] :=
  ⟨((rollForwardStateNIDs_spec ⟨[1, 2], [3, 4]⟩ (rollEvent 9 3 (some ""))).2.1
      (by decide) (by decide)).2 [1, 2] [4] (by decide) (by decide),
    ((rollForwardStateNIDs_spec ⟨[1, 2], [3, 4]⟩ (rollEvent 9 0 (some ""))).2.2
      (by decide) (by decide)).2 (by decide),
    ((rollForwardStateNIDs_spec ⟨[1, 2], [3, 4]⟩ (rollEvent 4 0 (some ""))).2.2
      (by decide) (by decide)).1 (by decide),
    (rollForwardStateNIDs_spec ⟨[1, 2], [3, 4]⟩ (rollEvent 9 0 none)).1 (by decide)⟩

theorem get?_determineJoinedStep (m : GoMap Int) (ev : Event) (roomID : String) :
    GoMap.get? (determineJoinedStep m ev) roomID =
      if ev.RoomID = roomID then joinNIDStep (GoMap.get? m roomID) ev
      else GoMap.get? m roomID := by
  unfold determineJoinedStep joinNIDStep isJoinEvent isLeaveOrBanEvent
  by_cases hj : gjsonStr ev.JSON.membership = "join"
  · by_cases hr : ev.RoomID = roomID
    · subst hr
      cases hc : GoMap.get? m ev.RoomID with
      | none => simp [hj, GoMap.contains, hc, GoMap.get?_set]
      | some v => simp [hj, GoMap.contains, hc]
    · have hr' : ¬ roomID = ev.RoomID := fun e => hr e.symm
      cases hc : GoMap.get? m ev.RoomID with
      | none => simp [hj, GoMap.contains, hc, GoMap.get?_set, hr, hr']
      | some v => simp [hj, GoMap.contains, hc, hr]
  · by_cases hl : gjsonStr ev.JSON.membership = "ban" ∨ gjsonStr ev.JSON.membership = "leave"
    · have hl' : gjsonStr ev.JSON.membership = "leave" ∨ gjsonStr ev.JSON.membership = "ban" :=
        hl.symm
      by_cases hr : ev.RoomID = roomID
      · subst hr
        simp [hj, hl, hl', GoMap.get?_delete]
      · have hr' : ¬ roomID = ev.RoomID := fun e => hr e.symm
        simp [hj, hl, GoMap.get?_delete, hr, hr']
    · have hl' : ¬ (gjsonStr ev.JSON.membership = "leave" ∨
          gjsonStr ev.JSON.membership = "ban") := fun h => hl h.symm
      by_cases hr : ev.RoomID = roomID
      · simp [hj, hl, hl', hr]
      · simp [hj, hl, hr]

theorem get?_determineJoined_foldl (evs : List Event) (m : GoMap Int) (roomID : String) :
    GoMap.get? (evs.foldl determineJoinedStep m) roomID =
      (roomEvents roomID evs).foldl joinNIDStep (GoMap.get? m roomID) := by
  induction evs generalizing m with
  | nil => simp [roomEvents]
  | cons ev evs ih =>
    simp only [List.foldl_cons]
    rw [ih, get?_determineJoinedStep]
    by_cases hr : ev.RoomID = roomID
    · simp [roomEvents, List.filter_cons, hr]
    · simp [roomEvents, List.filter_cons, hr]

theorem afterLastLeaveOrBan_concat (evs : List Event) (ev : Event) :
    afterLastLeaveOrBan (evs ++ [ev]) =
      if isLeaveOrBanEvent ev then [] else afterLastLeaveOrBan evs ++ [ev] := by
  unfold afterLastLeaveOrBan
  rw [List.reverse_append, List.reverse_singleton, List.singleton_append]
  by_cases h : isLeaveOrBanEvent ev = true
  · simp [h]
  · have h' : isLeaveOrBanEvent ev = false := by simpa using h
    simp [h']

theorem isJoin_not_leaveOrBan (ev : Event) (h : isJoinEvent ev = true) :
    isLeaveOrBanEvent ev = false := by
  unfold isJoinEvent at h
  unfold isLeaveOrBanEvent
  simp only [decide_eq_true_eq] at h
  rw [h]
  decide

theorem joinNID_foldl (evs : List Event) :
    evs.foldl joinNIDStep none = joinNIDOf evs := by
  induction evs using List.reverseRecOn with
  | nil => rfl
  | append_singleton evs ev ih =>
    rw [List.foldl_append, ih]
    unfold joinNIDOf
    rw [afterLastLeaveOrBan_concat]
    simp only [List.foldl_cons, List.foldl_nil, joinNIDStep]
    by_cases hj : isJoinEvent ev = true
    · have hl := isJoin_not_leaveOrBan ev hj
      simp only [hj, hl, if_true, Bool.false_eq_true, if_false, List.find?_append,
        List.find?_cons, List.find?_nil]
      cases hf : List.find? isJoinEvent (afterLastLeaveOrBan evs) with
      | none => simp
      | some a => simp
    · have hj' : isJoinEvent ev = false := by simpa using hj
      by_cases hl : isLeaveOrBanEvent ev = true
      · simp [hj', hl]
      · have hl' : isLeaveOrBanEvent ev = false := by simpa using hl
        simp only [hj', hl', Bool.false_eq_true, if_false, List.find?_append,
          List.find?_cons, List.find?_nil]
        cases hf : List.find? isJoinEvent (afterLastLeaveOrBan evs) with
        | none => simp
        | some a => simp

theorem joinNID_isSome_iff (evs : List Event) :
    (evs.foldl joinNIDStep none).isSome = true ↔
      ∃ ev, lastJoinLeaveBan evs = some ev ∧ isJoinEvent ev = true := by
  induction evs using List.reverseRecOn with
  | nil => simp [lastJoinLeaveBan]
  | append_singleton evs ev ih =>
    rw [List.foldl_append]
    simp only [List.foldl_cons, List.foldl_nil, joinNIDStep]
    unfold lastJoinLeaveBan at ih ⊢
    rw [List.filter_append]
    by_cases hj : isJoinEvent ev = true
    · have hfil : List.filter (fun ev => isJoinEvent ev || isLeaveOrBanEvent ev) [ev] = [ev] := by
        simp [List.filter_cons, hj]
      rw [hfil, List.getLast?_concat]
      simp only [hj, if_true]
      constructor
      · intro _
        exact ⟨ev, rfl, hj⟩
      · intro _
        cases List.foldl joinNIDStep none evs <;> simp
    · have hj' : isJoinEvent ev = false := by simpa using hj
      by_cases hl : isLeaveOrBanEvent ev = true
      · have hfil : List.filter (fun ev => isJoinEvent ev || isLeaveOrBanEvent ev) [ev] =
            [ev] := by
          simp [List.filter_cons, hl]
        rw [hfil, List.getLast?_concat]
        simp only [hj', hl, Bool.false_eq_true, if_false, if_true, Option.isSome_none,
          Option.some.injEq]
        constructor
        · intro h
          exact absurd h (by simp)
        · rintro ⟨e, he, hje⟩
          rw [← he] at hje
          rw [hj'] at hje
          exact absurd hje (by simp)
      · have hl' : isLeaveOrBanEvent ev = false := by simpa using hl
        have hfil : List.filter (fun ev => isJoinEvent ev || isLeaveOrBanEvent ev) [ev] =
            [] := by
          simp [List.filter_cons, hj', hl']
        rw [hfil, List.append_nil]
        simp only [hj', hl', Bool.false_eq_true, if_false]
        exact ih

theorem find?_nid_le (l : List Event) (hs : l.Pairwise (fun a b => a.NID < b.NID))
    (p : Event → Bool) (a : Event) (h : l.find? p = some a) :
    ∀ e ∈ l, p e = true → a.NID ≤ e.NID := by
  induction l with
  | nil => simp at h
  | cons x xs ih =>
    have hs' := List.pairwise_cons.1 hs
    intro e he hpe
    rw [List.find?_cons] at h
    cases hx : p x with
    | true =>
      rw [hx] at h
      simp only [Option.some.injEq] at h
      subst h
      rcases List.mem_cons.1 he with rfl | he
      · exact le_refl _
      · exact le_of_lt (hs'.1 e he)
    | false =>
      rw [hx] at h
      rcases List.mem_cons.1 he with rfl | he
      · rw [hx] at hpe
        exact absurd hpe (by simp)
      · exact ih hs'.2 h e he hpe

theorem afterLastLeaveOrBan_sublist (evs : List Event) :
    List.Sublist (afterLastLeaveOrBan evs) evs := by
  unfold afterLastLeaveOrBan
  have h := List.takeWhile_sublist (l := evs.reverse) (fun ev => !isLeaveOrBanEvent ev)
  have h2 := List.reverse_sublist.2 h
  rwa [List.reverse_reverse] at h2

/-- C14: `determineJoinedRoomsFromMemberships` never returns an error, and the map it
returns contains room R exactly when the last join/leave/ban event for R in the list is
a join; the NID stored for R is that of the earliest join after R's last leave or ban
(the earliest join of all when there is none), so a later join while already joined
does not change it and invites and other memberships are ignored. For a list in
ascending NID order that NID is the least NID of the joins after the last leave or
ban. -/
theorem determineJoinedRooms_spec (membershipEvents : List Event) :
    ∃ joinNIDsByRoomID,
      determineJoinedRoomsFromMemberships membershipEvents = Except.ok joinNIDsByRoomID ∧
      ∀ roomID,
        (GoMap.contains joinNIDsByRoomID roomID = true ↔
          ∃ ev, lastJoinLeaveBan (roomEvents roomID membershipEvents) = some ev ∧
            isJoinEvent ev = true) ∧
        GoMap.get? joinNIDsByRoomID roomID = joinNIDOf (roomEvents roomID membershipEvents) ∧
        (membershipEvents.Pairwise (fun a b => a.NID < b.NID) →
          ∀ n, GoMap.get? joinNIDsByRoomID roomID = some n →
            ∀ ev ∈ afterLastLeaveOrBan (roomEvents roomID membershipEvents),
              isJoinEvent ev = true → n ≤ ev.NID) := by
  refine ⟨_, rfl, ?_⟩
  intro roomID
  have hget : GoMap.get? (membershipEvents.foldl determineJoinedStep []) roomID =
      (roomEvents roomID membershipEvents).foldl joinNIDStep none := by
    rw [get?_determineJoined_foldl]
    rfl
  refine ⟨?_, ?_, ?_⟩
  · unfold GoMap.contains
    rw [hget]
    exact joinNID_isSome_iff _
  · rw [hget]
    exact joinNID_foldl _
  · intro hasc n hn ev hev hj
    rw [hget, joinNID_foldl] at hn
    unfold joinNIDOf at hn
    cases hf : (afterLastLeaveOrBan (roomEvents roomID membershipEvents)).find? isJoinEvent with
    | none =>
      rw [hf] at hn
      exact absurd hn (by simp)
    | some a =>
      rw [hf] at hn
      simp only [Option.map_some', Option.some.injEq] at hn
      rw [← hn]
      have hsub : List.Sublist (afterLastLeaveOrBan (roomEvents roomID membershipEvents))
          membershipEvents :=
        (afterLastLeaveOrBan_sublist _).trans (List.filter_sublist _)
      exact find?_nid_le _ (hasc.sublist hsub) isJoinEvent a hf ev hev hj

/-- Witness for C14: in room R the user joins at 1 and again at 2, leaves at 3, is
invited at 4 and joins at 6 and again at 7; in room R2 the user joins at 5 and leaves
at 8. The map holds R with NID 6 and does not hold R2. -/
theorem determineJoinedRooms_spec_witness :
    [memberEvent 1 "R" "U" "join", memberEvent 2 "R" "U" "join", memberEvent 3 "R" "U" "leave",
      memberEvent 4 "R" "U" "invite", memberEvent 5 "R2" "U" "join",
      memberEvent 6 "R" "U" "join", memberEvent 7 "R" "U" "join",
      memberEvent 8 "R2" "U" "leave"].Pairwise (fun a b => a.NID < b.NID) ∧
    ∃ joinNIDsByRoomID,
      determineJoinedRoomsFromMemberships
        [memberEvent 1 "R" "U" "join", memberEvent 2 "R" "U" "join",
          memberEvent 3 "R" "U" "leave", memberEvent 4 "R" "U" "invite",
          memberEvent 5 "R2" "U" "join", memberEvent 6 "R" "U" "join",
          memberEvent 7 "R" "U" "join", memberEvent 8 "R2" "U" "leave"] =
        Except.ok joinNIDsByRoomID ∧
      GoMap.get? joinNIDsByRoomID "R" = some 6 ∧
      GoMap.contains joinNIDsByRoomID "R2" = false ∧
      (∀ n, GoMap.get? joinNIDsByRoomID "R" = some n → n ≤ 7) := by
  obtain ⟨m, hm, hall⟩ := determineJoinedRooms_spec
    [memberEvent 1 "R" "U" "join", memberEvent 2 "R" "U" "join", memberEvent 3 "R" "U" "leave",
      memberEvent 4 "R" "U" "invite", memberEvent 5 "R2" "U" "join",
      memberEvent 6 "R" "U" "join", memberEvent 7 "R" "U" "join",
      memberEvent 8 "R2" "U" "leave"]
  refine ⟨by decide, m, hm, ?_, ?_, ?_⟩
  · rw [(hall "R").2.1]
    decide
  · cases hc : GoMap.contains m "R2" with
    | false => rfl
    | true =>
      obtain ⟨ev, hev, hj⟩ := (hall "R2").1.1 hc
      have hlast : lastJoinLeaveBan (roomEvents "R2"
          [memberEvent 1 "R" "U" "join", memberEvent 2 "R" "U" "join",
            memberEvent 3 "R" "U" "leave", memberEvent 4 "R" "U" "invite",
            memberEvent 5 "R2" "U" "join", memberEvent 6 "R" "U" "join",
            memberEvent 7 "R" "U" "join", memberEvent 8 "R2" "U" "leave"]) =
          some (memberEvent 8 "R2" "U" "leave") := by decide
      rw [hlast] at hev
      simp only [Option.some.injEq] at hev
      rw [← hev] at hj
      exact absurd hj (by decide)
  · intro n hn
    exact (hall "R").2.2 (by decide) n hn (memberEvent 7 "R" "U" "join") (by decide) (by decide)

theorem missing_iff (ev : Event) :
    (ev.JSON.event_id.isNone || gjsonStr ev.JSON.event_id == "") = true ↔
      gjsonStr ev.JSON.event_id = "" := by
  cases h : ev.JSON.event_id with
  | none => simp [gjsonStr]
  | some v => simp [gjsonStr]

theorem ensureEventIDs_cons (ev : Event) (rest : List Event) :
    ensureEventIDs (ev :: rest) =
      if LacksEventID ev then (ev :: rest, some errMissingEventID)
      else (withEventID ev :: (ensureEventIDs rest).1, (ensureEventIDs rest).2) := by
  unfold LacksEventID withEventID
  by_cases hid : ev.ID = ""
  · by_cases hm : gjsonStr ev.JSON.event_id = ""
    · have hm' := (missing_iff ev).2 hm
      simp [ensureEventIDs, hid, hm]
    · have hm' : ¬ (ev.JSON.event_id.isNone || gjsonStr ev.JSON.event_id == "") = true :=
        fun h => hm ((missing_iff ev).1 h)
      simp only [Bool.not_eq_true] at hm'
      simp [ensureEventIDs, hid, hm, hm']
  · simp only [ensureEventIDs, hid, ne_eq, not_false_eq_true, if_true, false_and, if_false]

theorem withEventID_idem (ev : Event) (h : ¬ LacksEventID ev) :
    ¬ LacksEventID (withEventID ev) ∧ withEventID (withEventID ev) = withEventID ev := by
  unfold LacksEventID withEventID at *
  by_cases hid : ev.ID = ""
  · have hm : ¬ gjsonStr ev.JSON.event_id = "" := fun e => h ⟨hid, e⟩
    simp [hid, hm]
  · simp [hid]

theorem ensureEventIDs_idem (events : List Event) :
    ensureEventIDs (ensureEventIDs events).1 = ensureEventIDs events := by
  induction events with
  | nil => rfl
  | cons ev rest ih =>
    rw [ensureEventIDs_cons]
    by_cases h : LacksEventID ev
    · rw [if_pos h, ensureEventIDs_cons, if_pos h]
    · rw [if_neg h]
      obtain ⟨h1, h2⟩ := withEventID_idem ev h
      simp only
      rw [ensureEventIDs_cons, if_neg h1, h2, ih]

theorem ensureEventIDs_err (events : List Event) :
    ((ensureEventIDs events).2 = none ↔ ∀ ev ∈ events, ¬ LacksEventID ev) ∧
    (∀ e, (ensureEventIDs events).2 = some e → e = errMissingEventID) ∧
    ((ensureEventIDs events).2 = none → (ensureEventIDs events).1 = events.map withEventID) := by
  induction events with
  | nil => simp [ensureEventIDs]
  | cons ev rest ih =>
    obtain ⟨ih1, ih2, ih3⟩ := ih
    rw [ensureEventIDs_cons]
    by_cases h : LacksEventID ev
    · rw [if_pos h]
      refine ⟨?_, ?_, ?_⟩
      · constructor
        · intro hn
          exact absurd hn (by simp)
        · intro hall
          exact absurd h (hall ev (by simp))
      · intro e he
        simp only [Option.some.injEq] at he
        exact he.symm
      · intro hn
        exact absurd hn (by simp)
    · rw [if_neg h]
      refine ⟨?_, ih2, ?_⟩
      · simp only [List.mem_cons, forall_eq_or_imp, h, not_false_eq_true, true_and]
        exact ih1
      · intro hn
        simp only [List.map_cons, List.cons.injEq, true_and]
        exact ih3 hn

theorem insert_of_err (store : EventStore) (events events' : List Event) (e : String)
    (h : ensureEventIDs events = (events', some e)) :
    Insert store events = { events := events', store := store, numNew := 0, err := some e } := by
  simp [Insert, h]

theorem insert_of_ok (store : EventStore) (events events' : List Event)
    (h : ensureEventIDs events = (events', none)) (hne : events' ≠ []) :
    Insert store events =
      { events := events', store := (namedExecInsert store events').1,
        numNew := (namedExecInsert store events').2, err := none } := by
  have hlen : ¬ events'.length = 0 := fun e => hne (List.length_eq_zero.1 e)
  simp [Insert, h, NamedExec, hlen]

theorem insert_of_empty (store : EventStore) (events : List Event)
    (h : ensureEventIDs events = ([], none)) :
    Insert store events =
      { events := [], store := store, numNew := 0, err := some errEmptySlice } := by
  simp [Insert, h, NamedExec]

theorem ids_append (store : EventStore) (row : Event) (n : Int) :
    EventStore.ids { rows := store.rows ++ [row], nextNID := n } = store.ids ++ [row.ID] := by
  simp [EventStore.ids]

theorem insertFold_spec (events : List Event) (st : EventStore × Int) :
    ∃ added : List Event,
      (events.foldl insertOnConflictDoNothing st).1.rows = st.1.rows ++ added ∧
      (events.foldl insertOnConflictDoNothing st).2 = st.2 + added.length ∧
      (∀ ev ∈ events, ev.ID ∈ (events.foldl insertOnConflictDoNothing st).1.ids) ∧
      (∀ row ∈ added, row.ID ∉ st.1.ids ∧ ∃ ev ∈ events, row.ID = ev.ID) := by
  induction events generalizing st with
  | nil => exact ⟨[], by simp, by simp, by simp, by simp⟩
  | cons ev rest ih =>
    simp only [List.foldl_cons]
    obtain ⟨added, h1, h2, h3, h4⟩ := ih (insertOnConflictDoNothing st ev)
    have hmono : ∀ x, x ∈ (insertOnConflictDoNothing st ev).1.ids →
        x ∈ (rest.foldl insertOnConflictDoNothing (insertOnConflictDoNothing st ev)).1.ids := by
      intro x hx
      unfold EventStore.ids at hx ⊢
      rw [h1, List.map_append]
      exact List.mem_append_left _ hx
    by_cases hc : ev.ID ∈ st.1.ids
    · have hstep : insertOnConflictDoNothing st ev = st := by
        simp [insertOnConflictDoNothing, hc]
      rw [hstep] at h1 h2 h3 h4 hmono
      rw [hstep]
      refine ⟨added, h1, h2, ?_, ?_⟩
      · intro e he
        rcases List.mem_cons.1 he with rfl | he
        · exact hmono _ hc
        · exact h3 e he
      · intro row hrow
        obtain ⟨ha, e, he, hid⟩ := h4 row hrow
        exact ⟨ha, e, List.mem_cons_of_mem _ he, hid⟩
    · have hstep : insertOnConflictDoNothing st ev =
          ({ rows := st.1.rows ++ [{ ev with NID := st.1.nextNID }],
             nextNID := st.1.nextNID + 1 }, st.2 + 1) := by
        simp [insertOnConflictDoNothing, hc]
      rw [hstep] at h1 h2 h3 h4 hmono
      rw [hstep]
      refine ⟨{ ev with NID := st.1.nextNID } :: added, ?_, ?_, ?_, ?_⟩
      · rw [h1]
        simp
      · rw [h2]
        simp only [List.length_cons]
        push_cast
        ring
      · intro e he
        rcases List.mem_cons.1 he with rfl | he
        · apply hmono
          rw [ids_append]
          simp
        · exact h3 e he
      · intro row hrow
        rcases List.mem_cons.1 hrow with rfl | hrow
        · exact ⟨hc, ev, by simp, rfl⟩
        · obtain ⟨ha, e, he, hid⟩ := h4 row hrow
          refine ⟨?_, e, List.mem_cons_of_mem _ he, hid⟩
          intro hin
          apply ha
          rw [ids_append]
          exact List.mem_append_left _ hin

theorem insertFold_noop (events : List Event) (st : EventStore × Int)
    (h : ∀ ev ∈ events, ev.ID ∈ st.1.ids) :
    events.foldl insertOnConflictDoNothing st = st := by
  induction events with
  | nil => rfl
  | cons ev rest ih =>
    have hc : ev.ID ∈ st.1.ids := h ev (by simp)
    have hstep : insertOnConflictDoNothing st ev = st := by
      simp [insertOnConflictDoNothing, hc]
    simp only [List.foldl_cons, hstep]
    exact ih (fun e he => h e (List.mem_cons_of_mem _ he))

theorem insertFold_fresh (events : List Event) (st : EventStore × Int)
    (hnd : (events.map (fun ev => ev.ID)).Nodup) (h : ∀ ev ∈ events, ev.ID ∉ st.1.ids) :
    (events.foldl insertOnConflictDoNothing st).2 = st.2 + events.length := by
  induction events generalizing st with
  | nil => simp
  | cons ev rest ih =>
    have hc : ev.ID ∉ st.1.ids := h ev (by simp)
    have hstep : insertOnConflictDoNothing st ev =
        ({ rows := st.1.rows ++ [{ ev with NID := st.1.nextNID }],
           nextNID := st.1.nextNID + 1 }, st.2 + 1) := by
      simp [insertOnConflictDoNothing, hc]
    simp only [List.map_cons, List.nodup_cons] at hnd
    simp only [List.foldl_cons, hstep]
    rw [ih _ hnd.2]
    · simp only [List.length_cons]
      push_cast
      ring
    · intro e he
      simp only
      rw [ids_append]
      intro hin
      rcases List.mem_append.1 hin with h1 | h1
      · exact h e (List.mem_cons_of_mem _ he) h1
      · simp only [List.mem_singleton] at h1
        apply hnd.1
        rw [← h1]
        exact List.mem_map.2 ⟨e, he, rfl⟩

/-- C15: `EventTable.Insert` returns the number of rows it actually added, all of them
with an event ID that was not stored before; inserting the same list a second time (the
caller's slice as the first call left it, or the list as it was given) returns 0 and
leaves the table exactly as it was after the first insert; and when the first insert
succeeds on event IDs that are distinct and not yet stored, it returns the length of
the list. -/
theorem insert_counts_new_rows (store : EventStore) (events : List Event) :
    (∃ added : List Event,
      (Insert store events).store.rows = store.rows ++ added ∧
      (Insert store events).numNew = added.length ∧
      ∀ row ∈ added, row.ID ∉ store.ids) ∧
    (Insert (Insert store events).store (Insert store events).events).numNew = 0 ∧
    (Insert (Insert store events).store (Insert store events).events).store =
      (Insert store events).store ∧
    (Insert (Insert store events).store events).numNew = 0 ∧
    (Insert (Insert store events).store events).store = (Insert store events).store ∧
    ((Insert store events).err = none →
      ((Insert store events).events.map (fun ev => ev.ID)).Nodup →
      (∀ ev ∈ (Insert store events).events, ev.ID ∉ store.ids) →
      (Insert store events).numNew = events.length) := by
  have hidem := ensureEventIDs_idem events
  obtain ⟨-, -, hmap⟩ := ensureEventIDs_err events
  rcases h : ensureEventIDs events with ⟨events', e⟩
  rw [h] at hidem hmap
  simp only at hidem hmap
  cases e with
  | some msg =>
    have h1 := insert_of_err store events events' msg h
    have h2 := insert_of_err store events' events' msg hidem
    rw [h1]
    simp only
    rw [h2, h1]
    simp only
    refine ⟨⟨[], by simp, by simp, by simp⟩, trivial, trivial, trivial, trivial, ?_⟩
    intro he
    exact absurd he (by simp)
  | none =>
    by_cases hnil : events' = []
    · subst hnil
      have h1 := insert_of_empty store events h
      have h2 := insert_of_empty store [] hidem
      rw [h1]
      simp only
      rw [h2, h1]
      simp only
      refine ⟨⟨[], by simp, by simp, by simp⟩, trivial, trivial, trivial, trivial, ?_⟩
      intro he
      exact absurd he (by simp)
    have h1 := insert_of_ok store events events' h hnil
    obtain ⟨added, ha1, ha2, ha3, ha4⟩ := insertFold_spec events' (store, 0)
    have hnoop := insertFold_noop events'
      ((namedExecInsert store events').1, 0) ha3
    have h2 := insert_of_ok (namedExecInsert store events').1 events' events' hidem hnil
    have h3 := insert_of_ok (namedExecInsert store events').1 events events' h hnil
    have hexec : namedExecInsert (namedExecInsert store events').1 events' =
        ((namedExecInsert store events').1, 0) := hnoop
    rw [hexec] at h2 h3
    rw [h1]
    simp only
    rw [h2, h3]
    simp only
    refine ⟨⟨added, ha1, ?_, fun row hrow => (ha4 row hrow).1⟩, trivial, trivial, trivial,
      trivial, ?_⟩
    · have : (namedExecInsert store events').2 = 0 + (added.length : Int) := ha2
      simpa using this
    · intro _ hnd hfresh
      have hf := insertFold_fresh events' (store, 0) hnd hfresh
      have hlen : events'.length = events.length := by
        rw [hmap rfl, List.length_map]
      have : (namedExecInsert store events').2 = 0 + (events'.length : Int) := hf
      rw [this, hlen]
      simp

/-- Witness for C15: the three events of `TestEventTable` inserted into the empty table
give 3 new rows with NIDs 1, 2, 3; the second insert of the same list gives 0 and the
same table. -/
theorem insert_counts_new_rows_witness :
    (Insert emptyStore testEvents).numNew = 3 ∧
    (Insert emptyStore testEvents).store.rows.map (fun row => (row.NID, row.ID)) =
      [(1, "100"), (2, "101"), (3, "102")] ∧
    (Insert (Insert emptyStore testEvents).store (Insert emptyStore testEvents).events).numNew =
      0 ∧
    (Insert (Insert emptyStore testEvents).store (Insert emptyStore testEvents).events).store =
      (Insert emptyStore testEvents).store :=
  ⟨(insert_counts_new_rows emptyStore testEvents).2.2.2.2.2 (by decide) (by decide) (by decide),
    by decide,
    (insert_counts_new_rows emptyStore testEvents).2.1,
    (insert_counts_new_rows emptyStore testEvents).2.2.1⟩

/-- Counterexample to C16 as stated: an event whose record has the ID "100" and whose
JSON has no `event_id`. `Insert` does not fail: it returns 1 and stores the row. -/
theorem insert_json_without_event_id_succeeds :
    ¬ ((∃ ev ∈ [eventRecord "100" none], ev.JSON.event_id = none) →
      (Insert emptyStore [eventRecord "100" none]).err = some errMissingEventID ∧
      (Insert emptyStore [eventRecord "100" none]).numNew = 0 ∧
      (Insert emptyStore [eventRecord "100" none]).store = emptyStore) := by
  intro h
  have h1 := (h ⟨eventRecord "100" none, by simp, rfl⟩).1
  exact absurd h1 (by decide)

/-- The first loop of `Insert` on a list whose first event without an ID and without an
`event_id` is `bad`: the records before it are filled in, `bad` and the records after it
are left as they were, and the loop returns the missing-event_id error. -/
theorem ensureEventIDs_split (pre post : List Event) (bad : Event)
    (hpre : ∀ ev ∈ pre, ¬ LacksEventID ev) (hbad : LacksEventID bad) :
    ensureEventIDs (pre ++ bad :: post) =
      (pre.map withEventID ++ bad :: post, some errMissingEventID) := by
  induction pre with
  | nil =>
    rw [List.nil_append, ensureEventIDs_cons, if_pos hbad]
    rfl
  | cons ev rest ih =>
    have hev : ¬ LacksEventID ev := hpre ev (List.mem_cons_self _ _)
    have hrest := ih (fun e he => hpre e (List.mem_cons_of_mem _ he))
    rw [List.cons_append, ensureEventIDs_cons, if_neg hev, hrest]
    rfl

/-- C16, amended: for every event list passed to `Insert`. If some event has no ID on
its record and no (or an empty) `event_id` in its JSON, `Insert` fails with the
missing-event_id error, returns 0 and stores nothing; in the caller's slice the records
before the first such event are filled in and the others are left as they were.
Otherwise every record without an ID is filled in with the `event_id` of its JSON body
(records with an ID are left as they are, whatever their JSON); for a non-empty list
`Insert` then succeeds and every event is stored under its ID, and for the empty list
the insert statement is rejected, so that `Insert` fails with that other error, returns
0 and stores nothing. -/
theorem insert_fills_event_ids (store : EventStore) (events : List Event) :
    ((Insert store events).err = none ↔
      events ≠ [] ∧ ∀ ev ∈ events, ¬ LacksEventID ev) ∧
    ((∃ ev ∈ events, LacksEventID ev) →
      (Insert store events).err = some errMissingEventID ∧
      (Insert store events).numNew = 0 ∧ (Insert store events).store = store) ∧
    (∀ pre bad post, events = pre ++ bad :: post → (∀ ev ∈ pre, ¬ LacksEventID ev) →
      LacksEventID bad →
      (Insert store events).events = pre.map withEventID ++ bad :: post) ∧
    ((∀ ev ∈ events, ¬ LacksEventID ev) →
      (Insert store events).events = events.map withEventID ∧
      (∀ ev ∈ events,
        (ev.ID = "" → (withEventID ev).ID = gjsonStr ev.JSON.event_id) ∧
        (ev.ID ≠ "" → withEventID ev = ev)) ∧
      (events ≠ [] →
        ∀ ev ∈ events, (withEventID ev).ID ∈ (Insert store events).store.ids) ∧
      (events = [] →
        (Insert store events).err ≠ none ∧
        (Insert store events).err ≠ some errMissingEventID ∧
        (Insert store events).numNew = 0 ∧ (Insert store events).store = store)) := by
  obtain ⟨herr1, herr2, hmap⟩ := ensureEventIDs_err events
  have hsplit : ∀ pre bad post, events = pre ++ bad :: post →
      (∀ ev ∈ pre, ¬ LacksEventID ev) → LacksEventID bad →
      (Insert store events).events = pre.map withEventID ++ bad :: post := by
    intro pre bad post he hpre hbad
    have hens := ensureEventIDs_split pre post bad hpre hbad
    rw [he, insert_of_err store _ _ _ hens]
  have hfill : ∀ ev ∈ events,
      (ev.ID = "" → (withEventID ev).ID = gjsonStr ev.JSON.event_id) ∧
      (ev.ID ≠ "" → withEventID ev = ev) := by
    intro ev _
    constructor
    · intro hid
      simp [withEventID, hid]
    · intro hid
      simp [withEventID, hid]
  by_cases hall : ∀ ev ∈ events, ¬ LacksEventID ev
  · have hnone := herr1.2 hall
    have hens : ensureEventIDs events = (events.map withEventID, none) :=
      Prod.ext (hmap hnone) hnone
    have hnobad : ¬ ∃ ev ∈ events, LacksEventID ev := fun ⟨ev, hev, hl⟩ => hall ev hev hl
    by_cases hnil : events = []
    · subst hnil
      have h1 := insert_of_empty store [] hens
      rw [h1]
      refine ⟨?_, fun hbad => absurd hbad hnobad, hsplit, fun _ => ⟨rfl, hfill, ?_, ?_⟩⟩
      · constructor
        · intro he
          exact absurd he (by simp)
        · intro he
          exact absurd rfl he.1
      · intro he
        exact absurd rfl he
      · intro _
        have hdiff : errEmptySlice ≠ errMissingEventID := by decide
        exact ⟨by simp, fun he => hdiff (Option.some.inj he), rfl, rfl⟩
    · have hne : events.map withEventID ≠ [] := by simpa using hnil
      have h1 := insert_of_ok store events _ hens hne
      obtain ⟨added, -, -, ha3, -⟩ := insertFold_spec (events.map withEventID) (store, 0)
      refine ⟨?_, fun hbad => absurd hbad hnobad, hsplit, fun _ => ⟨?_, hfill, ?_, ?_⟩⟩
      · rw [h1]
        exact ⟨fun _ => ⟨hnil, hall⟩, fun _ => rfl⟩
      · rw [h1]
      · intro _ ev hmem
        rw [h1]
        exact ha3 _ (List.mem_map.2 ⟨ev, hmem, rfl⟩)
      · intro he
        exact absurd he hnil
  · have hsome : (ensureEventIDs events).2 ≠ none := fun hn => hall (herr1.1 hn)
    obtain ⟨msg, hmsg⟩ := Option.ne_none_iff_exists'.1 hsome
    have hmsg' := herr2 msg hmsg
    subst hmsg'
    have hens : ensureEventIDs events = ((ensureEventIDs events).1, some errMissingEventID) :=
      Prod.ext rfl hmsg
    have h1 := insert_of_err store events _ _ hens
    refine ⟨?_, fun _ => ?_, hsplit, fun h => absurd h hall⟩
    · rw [h1]
      constructor
      · intro he
        exact absurd he (by simp)
      · intro he
        exact absurd he.2 hall
    · rw [h1]
      exact ⟨rfl, rfl, rfl⟩

/-- Witness for C16, amended: in the list of `TestEventTable` the third record has no
ID and is filled in with "102", and the three IDs are stored. In a list of three records
without ID whose second JSON has an empty `event_id`, `Insert` fails, returns 0 and stores
nothing; the first record is filled in with "a" and the third is left without ID. -/
theorem insert_fills_event_ids_witness :
    (∀ ev ∈ testEvents, ¬ LacksEventID ev) ∧
    (Insert emptyStore testEvents).err = none ∧
    (Insert emptyStore testEvents).events.map (fun ev => ev.ID) = ["100", "101", "102"] ∧
    "102" ∈ (Insert emptyStore testEvents).store.ids ∧
    (Insert emptyStore
      [eventRecord "" (some "a"), eventRecord "" (some ""), eventRecord "" (some "c")]).err =
      some errMissingEventID ∧
    (Insert emptyStore
      [eventRecord "" (some "a"), eventRecord "" (some ""), eventRecord "" (some "c")]).numNew = 0 ∧
    (Insert emptyStore
      [eventRecord "" (some "a"), eventRecord "" (some ""), eventRecord "" (some "c")]).store =
      emptyStore ∧
    (Insert emptyStore
      [eventRecord "" (some "a"), eventRecord "" (some ""), eventRecord "" (some "c")]).events =
      [eventRecord "a" (some "a"), eventRecord "" (some ""), eventRecord "" (some "c")] := by
  have h1 := insert_fills_event_ids emptyStore testEvents
  have h2 := insert_fills_event_ids emptyStore
    [eventRecord "" (some "a"), eventRecord "" (some ""), eventRecord "" (some "c")]
  have hok : ∀ ev ∈ testEvents, ¬ LacksEventID ev := by decide
  have hbad : ∃ ev ∈ [eventRecord "" (some "a"), eventRecord "" (some ""),
      eventRecord "" (some "c")], LacksEventID ev :=
    ⟨eventRecord "" (some ""), by simp, by decide⟩
  have h3 := h2.2.1 hbad
  have h4 := h2.2.2.1 [eventRecord "" (some "a")] (eventRecord "" (some ""))
    [eventRecord "" (some "c")] rfl (by decide) (by decide)
  refine ⟨hok, h1.1.2 ⟨by decide, hok⟩, ?_, ?_, h3.1, h3.2.1, h3.2.2, ?_⟩
  · rw [(h1.2.2.2 hok).1]
    decide
  · exact (h1.2.2.2 hok).2.2.1 (by decide) (eventRecord "" (some "102")) (by decide)
  · rw [h4]
    decide

/-- Replacing the first `replacesNID` of a duplicate-free list a second time changes
nothing: after the first replacement no `replacesNID` is left, unless `nid` is
`replacesNID` itself and the replacement is the identity. -/
theorem replaceFirstNID_idem (replacesNID nid : Int) (l : List Int) (hnd : l.Nodup) :
    replaceFirstNID replacesNID nid (replaceFirstNID replacesNID nid l) =
      replaceFirstNID replacesNID nid l := by
  induction l with
  | nil => rfl
  | cons x xs ih =>
    obtain ⟨hx, hxs⟩ := List.nodup_cons.1 hnd
    by_cases he : x = replacesNID
    · subst he
      by_cases hn : nid = x
      · simp [replaceFirstNID, hn]
      · simp [replaceFirstNID, hn, replaceFirstNID_of_not_mem x nid xs hx]
    · simp [replaceFirstNID, he, ih hxs]

/-- C29: the roll-forward of the empty-filter path of `RoomStateAfterEventPosition` is
idempotent. For a snapshot whose NID list L is duplicate-free and an event E, rolling L
forward by E and then rolling the resulting list (however it is split into membership
and other NIDs) forward by E again gives the same list as rolling once; so a snapshot
that already includes E is returned unchanged, without a second copy of `E.NID`. -/
theorem rollForwardStateNIDs_idempotent (snapshotRow rolledRow : SnapshotRow) (ev : Event)
    (hnd : (snapshotRow.MembershipEvents ++ snapshotRow.OtherEvents).Nodup)
    (hrolled : rolledRow.MembershipEvents ++ rolledRow.OtherEvents =
      rollForwardStateNIDs snapshotRow ev) :
    rollForwardStateNIDs rolledRow ev = rollForwardStateNIDs snapshotRow ev ∧
    rollForwardStateNIDs rolledRow ev = rolledRow.MembershipEvents ++ rolledRow.OtherEvents := by
  have hidem : rollForwardStateNIDs rolledRow ev = rollForwardStateNIDs snapshotRow ev := by
    by_cases hk : ev.JSON.state_key.isSome = true
    · by_cases hr : ev.ReplacesNID = 0
      · by_cases hany : (snapshotRow.MembershipEvents ++ snapshotRow.OtherEvents).any
            (fun nid => decide (nid = ev.NID)) = true
        · have h1 : rollForwardStateNIDs snapshotRow ev =
              snapshotRow.MembershipEvents ++ snapshotRow.OtherEvents := by
            simp only [rollForwardStateNIDs, hk, hr, hany]
            rfl
          rw [h1] at hrolled
          rw [h1]
          simp only [rollForwardStateNIDs, hk, hr, hrolled, hany]
          rfl
        · have hany' : (snapshotRow.MembershipEvents ++ snapshotRow.OtherEvents).any
              (fun nid => decide (nid = ev.NID)) = false := Bool.eq_false_iff.2 hany
          have h1 : rollForwardStateNIDs snapshotRow ev =
              snapshotRow.MembershipEvents ++ snapshotRow.OtherEvents ++ [ev.NID] := by
            simp only [rollForwardStateNIDs, hk, hr, hany']
            rfl
          rw [h1] at hrolled
          have hany2 : (snapshotRow.MembershipEvents ++ snapshotRow.OtherEvents ++
              [ev.NID]).any (fun nid => decide (nid = ev.NID)) = true := by
            simp
          rw [h1]
          simp only [rollForwardStateNIDs, hk, hr, hrolled, hany2]
          rfl
      · have h1 : rollForwardStateNIDs snapshotRow ev =
            replaceFirstNID ev.ReplacesNID ev.NID
              (snapshotRow.MembershipEvents ++ snapshotRow.OtherEvents) := by
          simp [rollForwardStateNIDs, hk, hr]
        rw [h1] at hrolled
        rw [h1]
        simp only [rollForwardStateNIDs, hk, hr, hrolled, if_true, ne_eq, not_false_eq_true]
        exact replaceFirstNID_idem _ _ _ hnd
    · have h1 : rollForwardStateNIDs snapshotRow ev =
          snapshotRow.MembershipEvents ++ snapshotRow.OtherEvents := by
        simp [rollForwardStateNIDs, hk]
      rw [h1] at hrolled
      rw [h1]
      simp [rollForwardStateNIDs, hk, hrolled]
  exact ⟨hidem, hidem.trans hrolled.symm⟩

/-- Witness for C29: the snapshot `[1, 2] ++ [3, 4]` rolled forward by a state event 9
that replaces 3 is `[1, 2, 9, 4]`; rolling `[1, 2] ++ [9, 4]` forward by the same event
gives `[1, 2, 9, 4]` again. -/
theorem rollForwardStateNIDs_idempotent_witness :
    rollForwardStateNIDs ⟨[1, 2], [3, 4]⟩ (rollEvent 9 3 (some "")) = [1, 2, 9, 4] ∧
    rollForwardStateNIDs ⟨[1, 2], [9, 4]⟩ (rollEvent 9 3 (some "")) = [1, 2, 9, 4] :=
  ⟨by decide,
    (rollForwardStateNIDs_idempotent ⟨[1, 2], [3, 4]⟩ ⟨[1, 2], [9, 4]⟩
      (rollEvent 9 3 (some "")) (by decide) (by decide)).2⟩

/-- The intervals of a walk over an ascending log form an ordered chain within
`[lo, toNID]`: every interval is `[a, b]` with `lo ≤ a ≤ b ≤ toNID`, and every interval
ends strictly before each later one starts. -/
theorem walk_chain (toNID : Int) (es : List (Int × MemberKind)) (hasc : Ascending es)
    (op : Option Int) (lo : Int) (hes : ∀ e ∈ es, lo ≤ e.1 ∧ e.1 ≤ toNID)
    (hop : ∀ a, op = some a → lo ≤ a ∧ a ≤ toNID ∧ ∀ e ∈ es, a ≤ e.1) :
    (∀ iv ∈ walk toNID op es, lo ≤ iv.1 ∧ iv.1 ≤ iv.2 ∧ iv.2 ≤ toNID) ∧
    (walk toNID op es).Pairwise (fun p q => p.2 < q.1) := by
  induction es generalizing op lo with
  | nil =>
    cases op with
    | none => simp [walk]
    | some a =>
      obtain ⟨h1, h2, -⟩ := hop a rfl
      simp [walk, h1, h2]
  | cons e es ih =>
    obtain ⟨n, k⟩ := e
    obtain ⟨hhead, htail⟩ := List.pairwise_cons.1 hasc
    have hn := hes (n, k) (List.mem_cons_self _ _)
    have hes' : ∀ e ∈ es, lo ≤ e.1 ∧ e.1 ≤ toNID :=
      fun e he => hes e (List.mem_cons_of_mem _ he)
    have hnext : ∀ e ∈ es, n + 1 ≤ e.1 ∧ e.1 ≤ toNID := fun e he =>
      ⟨by have := hhead e he; simp only at this; omega, (hes' e he).2⟩
    have hclose : ∀ a : Int, lo ≤ a → a ≤ n →
        (∀ iv ∈ (a, n) :: walk toNID none es, lo ≤ iv.1 ∧ iv.1 ≤ iv.2 ∧ iv.2 ≤ toNID) ∧
        ((a, n) :: walk toNID none es).Pairwise (fun p q => p.2 < q.1) := by
      intro a hla han
      obtain ⟨hb, hp⟩ := ih htail none (n + 1) hnext (fun a h => by simp at h)
      refine ⟨?_, List.pairwise_cons.2 ⟨?_, hp⟩⟩
      · intro iv hiv
        rcases List.mem_cons.1 hiv with rfl | hiv
        · exact ⟨hla, han, hn.2⟩
        · obtain ⟨h1, h2, h3⟩ := hb iv hiv
          exact ⟨by omega, h2, h3⟩
      · intro q hq
        have := (hb q hq).1
        simp only
        omega
    cases op with
    | none =>
      by_cases hj : k = MemberKind.join
      · simp only [walk, hj, if_true]
        exact ih htail (some n) lo hes' (fun a h => by
          have ha : n = a := Option.some.inj h
          subst ha
          exact ⟨hn.1, hn.2, fun e he => le_of_lt (hhead e he)⟩)
      · by_cases hi : k = MemberKind.invite
        · simp only [walk, hi, if_true, reduceCtorEq, if_false]
          exact hclose n hn.1 (le_refl _)
        · simp only [walk, hj, hi, if_false]
          exact ih htail none lo hes' (fun a h => by simp at h)
    | some a =>
      obtain ⟨h1, h2, h3⟩ := hop a rfl
      have han : a ≤ n := h3 (n, k) (List.mem_cons_self _ _)
      by_cases hl : k = MemberKind.leaveBan
      · simp only [walk, hl, if_true]
        exact hclose a h1 han
      · simp only [walk, hl, if_false]
        exact ih htail (some a) lo hes' (fun b h => by
          have hb : a = b := Option.some.inj h
          subst hb
          exact ⟨h1, h2, fun e he => h3 e (List.mem_cons_of_mem _ he)⟩)

/-- The abstract log of a room keeps the NIDs of the given events, in their order. -/
theorem abstractLog_roomLog_eq (roomID : String) (membershipEvents : List Event) :
    (abstractLog (roomLog roomID membershipEvents)).map (fun e => e.1) =
      (membershipEvents.filter (fun ev => decide (ev.RoomID = roomID))).map
        (fun ev => ev.NID) := by
  simp [abstractLog, roomLog, toMembershipEvent, List.map_map, Function.comp_def]

/-- C22: for `from ≤ to` and membership events whose NIDs are strictly ascending and all
lie in `(from, to]`, the intervals `[a1,b1], ..., [ak,bk]` that `visibleEventNIDsWithData`
returns for any room form an ordered chain of inclusive sub-intervals of `[from, to]`:
every interval has `from ≤ a ≤ b ≤ to`, and every interval ends strictly before each
later one starts. -/
theorem visibleEventNIDsWithData_chain (joinNIDsByRoomID : GoMap Int)
    (hwf : GoMap.WF joinNIDsByRoomID) (membershipEvents : List Event) (userID : String)
    (fromNID toNID : Int) (hft : fromNID ≤ toNID)
    (hasc : membershipEvents.Pairwise (fun a b => a.NID < b.NID))
    (hin : ∀ ev ∈ membershipEvents, fromNID < ev.NID ∧ ev.NID ≤ toNID) :
    ∃ result, visibleEventNIDsWithData joinNIDsByRoomID membershipEvents userID fromNID toNID =
        Except.ok result ∧
      ∀ roomID,
        (∀ iv ∈ GoMap.getSlice result roomID,
          fromNID ≤ iv.1 ∧ iv.1 ≤ iv.2 ∧ iv.2 ≤ toNID) ∧
        (GoMap.getSlice result roomID).Pairwise (fun p q => p.2 < q.1) := by
  obtain ⟨result, hres, hget⟩ := visibleEventNIDsWithData_getSlice joinNIDsByRoomID hwf
    membershipEvents userID fromNID toNID
  refine ⟨result, hres, ?_⟩
  intro roomID
  rw [hget roomID, replayLog_eq_walk]
  have hmem : ∀ e ∈ abstractLog (roomLog roomID membershipEvents),
      ∃ ev ∈ membershipEvents, ev.NID = e.1 := by
    intro e he
    have h1 : e.1 ∈ (abstractLog (roomLog roomID membershipEvents)).map (fun e => e.1) :=
      List.mem_map.2 ⟨e, he, rfl⟩
    rw [abstractLog_roomLog_eq] at h1
    obtain ⟨ev, hev, hnid⟩ := List.mem_map.1 h1
    exact ⟨ev, (List.mem_filter.1 hev).1, hnid⟩
  have hlogasc : Ascending (abstractLog (roomLog roomID membershipEvents)) := by
    have h1 : ((abstractLog (roomLog roomID membershipEvents)).map (fun e => e.1)).Pairwise
        (fun a b => a < b) := by
      rw [abstractLog_roomLog_eq]
      exact List.pairwise_map.2 (hasc.filter _)
    exact List.pairwise_map.1 h1
  have hbounds : ∀ e ∈ abstractLog (roomLog roomID membershipEvents),
      fromNID ≤ e.1 ∧ e.1 ≤ toNID := by
    intro e he
    obtain ⟨ev, hev, hnid⟩ := hmem e he
    have := hin ev hev
    rw [← hnid]
    exact ⟨le_of_lt this.1, this.2⟩
  apply walk_chain toNID _ hlogasc _ fromNID hbounds
  intro a ha
  by_cases hj : GoMap.contains joinNIDsByRoomID roomID = true
  · rw [if_pos hj] at ha
    have hfa : fromNID = a := Option.some.inj ha
    subst hfa
    exact ⟨le_refl _, hft, fun e he => (hbounds e he).1⟩
  · rw [if_neg hj] at ha
    exact absurd ha (by simp)

/-- Witness for C22: the user is joined to R1 at `from = 5`, leaves at 7, is invited at 8
and joins again at 9; with `to = 12` the intervals of R1 are `[5,7], [8,8], [9,12]`, a
chain within `[5, 12]`. -/
theorem visibleEventNIDsWithData_chain_witness :
    visibleEventNIDsWithData [("R1", 2)]
        [memberEvent 7 "R1" "U" "leave", memberEvent 8 "R1" "U" "invite",
          memberEvent 9 "R1" "U" "join"] "U" 5 12 =
      Except.ok [("R1", [(5, 7), (8, 8), (9, 12)])] ∧
    ∃ result, visibleEventNIDsWithData [("R1", 2)]
        [memberEvent 7 "R1" "U" "leave", memberEvent 8 "R1" "U" "invite",
          memberEvent 9 "R1" "U" "join"] "U" 5 12 = Except.ok result ∧
      ∀ roomID,
        (∀ iv ∈ GoMap.getSlice result roomID, (5 : Int) ≤ iv.1 ∧ iv.1 ≤ iv.2 ∧ iv.2 ≤ 12) ∧
        (GoMap.getSlice result roomID).Pairwise (fun p q => p.2 < q.1) :=
  ⟨rfl, visibleEventNIDsWithData_chain [("R1", 2)] (by decide)
    [memberEvent 7 "R1" "U" "leave", memberEvent 8 "R1" "U" "invite",
      memberEvent 9 "R1" "U" "join"] "U" 5 12 (by decide) (by decide) (by decide)⟩

theorem windowLog_eq_map (table : List Event) (userID roomID : String) (lo hi : Int) :
    windowLog table userID roomID lo hi =
      (userRoomEvents table userID roomID lo hi).map abstractEvent := by
  simp [windowLog, abstractLog, roomLog, userRoomEvents, abstractEvent, toMembershipEvent,
    List.map_map, Function.comp_def]

/-- Every interval of a walk starts where the walk was opened, at a join, or is the
point interval of an invite. -/
theorem walk_starts (toNID : Int) (es : List (Int × MemberKind)) (op : Option Int)
    (iv : Int × Int) (h : iv ∈ walk toNID op es) :
    op = some iv.1 ∨
      ∃ e ∈ es, e.1 = iv.1 ∧
        (e.2 = MemberKind.join ∨ (e.2 = MemberKind.invite ∧ iv.2 = e.1)) := by
  induction es generalizing op with
  | nil =>
    cases op with
    | none => simp [walk] at h
    | some a =>
      simp only [walk, List.mem_singleton] at h
      left
      rw [h]
  | cons e es ih =>
    obtain ⟨n, k⟩ := e
    have hlift : (∃ e ∈ es, e.1 = iv.1 ∧
        (e.2 = MemberKind.join ∨ (e.2 = MemberKind.invite ∧ iv.2 = e.1))) →
        ∃ e ∈ (n, k) :: es, e.1 = iv.1 ∧
          (e.2 = MemberKind.join ∨ (e.2 = MemberKind.invite ∧ iv.2 = e.1)) := by
      rintro ⟨e, he, hrest⟩
      exact ⟨e, List.mem_cons_of_mem _ he, hrest⟩
    cases op with
    | none =>
      right
      by_cases hj : k = MemberKind.join
      · simp only [walk, hj, if_true] at h
        rcases ih (some n) h with h1 | h1
        · exact ⟨(n, k), List.mem_cons_self _ _, Option.some.inj h1, Or.inl hj⟩
        · exact hlift h1
      · by_cases hi : k = MemberKind.invite
        · simp only [walk, hi, if_true, reduceCtorEq, if_false, List.mem_cons] at h
          rcases h with h1 | h1
          · exact ⟨(n, k), List.mem_cons_self _ _, by rw [h1], Or.inr ⟨hi, by rw [h1]⟩⟩
          · rcases ih none h1 with h2 | h2
            · exact absurd h2 (by simp)
            · exact hlift h2
        · simp only [walk, hj, hi, if_false] at h
          rcases ih none h with h2 | h2
          · exact absurd h2 (by simp)
          · exact hlift h2
    | some a =>
      by_cases hl : k = MemberKind.leaveBan
      · simp only [walk, hl, if_true, List.mem_cons] at h
        rcases h with h1 | h1
        · left
          rw [h1]
        · rcases ih none h1 with h2 | h2
          · exact absurd h2 (by simp)
          · exact Or.inr (hlift h2)
      · simp only [walk, hl, if_false] at h
        rcases ih (some a) h with h2 | h2
        · exact Or.inl h2
        · exact Or.inr (hlift h2)

/-- While not joined, events that are neither joins nor invites leave no interval. -/
theorem walk_none_skip (toNID : Int) (pre rest : List (Int × MemberKind))
    (hpre : ∀ e ∈ pre, e.2 ≠ MemberKind.join ∧ e.2 ≠ MemberKind.invite) :
    walk toNID none (pre ++ rest) = walk toNID none rest := by
  induction pre with
  | nil => rfl
  | cons e pre ih =>
    obtain ⟨n, k⟩ := e
    obtain ⟨h1, h2⟩ := hpre (n, k) (List.mem_cons_self _ _)
    simp only at h1 h2
    simp only [List.cons_append, walk, h1, h2, if_false]
    exact ih (fun e he => hpre e (List.mem_cons_of_mem _ he))

/-- While joined, events that are neither leaves nor bans keep the interval open up to
`toNID`. -/
theorem walk_some_open (toNID a : Int) (post : List (Int × MemberKind))
    (hpost : ∀ e ∈ post, e.2 ≠ MemberKind.leaveBan) :
    walk toNID (some a) post = [(a, toNID)] := by
  induction post with
  | nil => rfl
  | cons e post ih =>
    obtain ⟨n, k⟩ := e
    have h1 := hpost (n, k) (List.mem_cons_self _ _)
    simp only at h1
    simp only [walk, h1, if_false]
    exact ih (fun e he => hpost e (List.mem_cons_of_mem _ he))

theorem kindOf_eq_join_iff (m : String) : kindOf m = MemberKind.join ↔ m = "join" := by
  unfold kindOf
  by_cases h1 : m = "join"
  · simp [h1]
  · by_cases h2 : m = "leave" ∨ m = "ban"
    · simp [h1, h2]
    · by_cases h3 : m = "invite"
      · simp [h1, h2, h3]
      · simp [h1, h2, h3]

/-- Counterexample to C23 as stated: the user is invited to R1 at NID 3 and joins at
NID 5 without ever leaving. With `from = 0` and `to = 10` the room, which the user is
joined to, gets the intervals `[3,3]` and `[5,10]`: the first one starts at the invite,
which is the NID of no join event, and the result is not `[[5, 10]]`. -/
theorem invite_interval_starts_before_join :
    VisibleEventNIDsBetween [memberEvent 3 "R1" "U" "invite", memberEvent 5 "R1" "U" "join"]
        "U" 0 10 = Except.ok [("R1", [(3, 3), (5, 10)])] ∧
    joinedAt [memberEvent 3 "R1" "U" "invite", memberEvent 5 "R1" "U" "join"] "U" "R1" 10 =
      true ∧
    ∀ ev ∈ [memberEvent 3 "R1" "U" "invite", memberEvent 5 "R1" "U" "join"],
      gjsonStr ev.JSON.membership = "join" → ev.NID ≠ 3 :=
  ⟨rfl, by decide, by decide⟩

/-- C23, amended: for `from = 0` and every `to`, every interval that
`VisibleEventNIDsBetween(user, 0, to)` returns for a room starts at the NID of one of
the user's join events in that room, or is the point interval `[N, N]` of one of the
user's invites there, and so never starts at 0; a room whose membership events of the
user up to `to` hold a join at NID `j` with no join or invite before it and no leave or
ban after it yields `[[j, to]]`. -/
theorem visibleEventNIDsBetween_from_zero (table : List Event) (userID : String)
    (toNID : Int) :
    ∃ result, VisibleEventNIDsBetween table userID 0 toNID = Except.ok result ∧
      ∀ roomID,
        (∀ iv ∈ GoMap.getSlice result roomID,
          0 < iv.1 ∧
          ∃ ev ∈ userRoomEvents table userID roomID 0 toNID, ev.NID = iv.1 ∧
            (gjsonStr ev.JSON.membership = "join" ∨
              (gjsonStr ev.JSON.membership = "invite" ∧ iv.2 = ev.NID))) ∧
        (∀ (pre post : List Event) (jev : Event),
          userRoomEvents table userID roomID 0 toNID = pre ++ jev :: post →
          gjsonStr jev.JSON.membership = "join" →
          (∀ ev ∈ pre, gjsonStr ev.JSON.membership ≠ "join" ∧
            gjsonStr ev.JSON.membership ≠ "invite") →
          (∀ ev ∈ post, gjsonStr ev.JSON.membership ≠ "leave" ∧
            gjsonStr ev.JSON.membership ≠ "ban") →
          GoMap.getSlice result roomID = [(jev.NID, toNID)]) := by
  rw [visibleEventNIDsBetween_eq]
  have hnil : table.filter (selects userID 0 0) = [] := by
    rw [List.filter_eq_nil_iff]
    intro ev _ hsel
    unfold selects at hsel
    simp only [Bool.and_eq_true, decide_eq_true_eq] at hsel
    omega
  rw [hnil]
  simp only [List.foldl_nil]
  obtain ⟨result, hres, hall⟩ := visibleEventNIDsWithData_getSlice []
    (by simp [GoMap.WF, GoMap.keys]) (table.filter (selects userID 0 toNID)) userID 0 toNID
  refine ⟨result, hres, ?_⟩
  intro roomID
  have hc : GoMap.contains ([] : GoMap Int) roomID = false := rfl
  have hes : abstractLog (roomLog roomID (table.filter (selects userID 0 toNID))) =
      windowLog table userID roomID 0 toNID := rfl
  rw [hall roomID, replayLog_eq_walk, hc, hes, windowLog_eq_map]
  simp only [Bool.false_eq_true, if_false]
  constructor
  · intro iv hiv
    rcases walk_starts toNID _ none iv hiv with h | ⟨e, he, h1, h2⟩
    · exact absurd h (by simp)
    · obtain ⟨ev, hev, hab⟩ := List.mem_map.1 he
      have hsel : selects userID 0 toNID ev = true := by
        unfold userRoomEvents at hev
        exact (List.mem_filter.1 (List.mem_filter.1 hev).1).2
      unfold selects at hsel
      simp only [Bool.and_eq_true, decide_eq_true_eq] at hsel
      have hnid : ev.NID = iv.1 := by rw [← h1, ← hab]; rfl
      have hkind : kindOf (gjsonStr ev.JSON.membership) = e.2 := by rw [← hab]; rfl
      refine ⟨by omega, ev, hev, hnid, ?_⟩
      rcases h2 with h2 | ⟨h2, h3⟩
      · exact Or.inl ((kindOf_eq_join_iff _).1 (hkind.trans h2))
      · exact Or.inr ⟨(kindOf_eq_invite_iff _).1 (hkind.trans h2), by omega⟩
  · intro pre post jev hsplit hjoin hpre hpost
    rw [hsplit, List.map_append, List.map_cons, walk_none_skip]
    · have hk : abstractEvent jev = (jev.NID, MemberKind.join) := by
        simp [abstractEvent, (kindOf_eq_join_iff _).2 hjoin]
      rw [hk]
      simp only [walk, if_true]
      apply walk_some_open
      intro e he
      obtain ⟨ev, hev, hab⟩ := List.mem_map.1 he
      rw [← hab]
      intro hcon
      have := (kindOf_eq_leaveBan_iff _).1 hcon
      exact this.elim (hpost ev hev).1 (hpost ev hev).2
    · intro e he
      obtain ⟨ev, hev, hab⟩ := List.mem_map.1 he
      rw [← hab]
      exact ⟨fun hcon => (hpre ev hev).1 ((kindOf_eq_join_iff _).1 hcon),
        fun hcon => (hpre ev hev).2 ((kindOf_eq_invite_iff _).1 hcon)⟩

/-- Witness for C23: the user leaves R1 at NID 2 (a rejected invite of before the
window), joins it at 5 and stays, and joins R2 at 7. From 0 to 10, R1 yields
`[[5, 10]]`, and the only interval of R2 starts at 7. -/
theorem visibleEventNIDsBetween_from_zero_witness :
    ∃ result,
      VisibleEventNIDsBetween
        [memberEvent 2 "R1" "U" "leave", memberEvent 5 "R1" "U" "join",
          memberEvent 7 "R2" "U" "join"] "U" 0 10 = Except.ok result ∧
      GoMap.getSlice result "R1" = [(5, 10)] ∧
      ∀ iv ∈ GoMap.getSlice result "R2", 0 < iv.1 := by
  obtain ⟨result, hres, hall⟩ := visibleEventNIDsBetween_from_zero
    [memberEvent 2 "R1" "U" "leave", memberEvent 5 "R1" "U" "join",
      memberEvent 7 "R2" "U" "join"] "U" 10
  exact ⟨result, hres,
    (hall "R1").2 [memberEvent 2 "R1" "U" "leave"] [] (memberEvent 5 "R1" "U" "join")
      (by decide) (by decide) (by decide) (by decide),
    fun iv hiv => ((hall "R2").1 iv hiv).1⟩

/-- One iteration of the latest-timestamps loop, when no map involved is nil: it
succeeds, touches the entry of the row's room only, and leaves there the row's timestamp
when the room had an entry and the timestamp of the new metadata when it had none. -/
theorem latestEventStep_ok (newRoomMetadata : String → RoomMetadata)
    (hnew : ∀ k, (newRoomMetadata k).LatestEventsByType ≠ none)
    (result : GoMap RoomMetadata)
    (hmaps : ∀ k m, GoMap.get? result k = some m → m.LatestEventsByType ≠ none)
    (ev : Event) :
    ∃ r1 m, latestEventStep newRoomMetadata result ev = Except.ok r1 ∧
      (∀ k m, GoMap.get? r1 k = some m → m.LatestEventsByType ≠ none) ∧
      (∀ k, k ≠ ev.RoomID → GoMap.get? r1 k = GoMap.get? result k) ∧
      GoMap.get? r1 ev.RoomID = some m ∧
      m.LastMessageTimestamp =
        if GoMap.get? result ev.RoomID = none then
          (newRoomMetadata ev.RoomID).LastMessageTimestamp
        else gjsonUint ev.JSON.origin_server_ts := by
  have hfinish : ∀ (md : RoomMetadata) (l : GoMap EventMetadata),
      (∀ k m, GoMap.get? (GoMap.set result ev.RoomID
          { md with LatestEventsByType := some l, RoomID := ev.RoomID }) k = some m →
        m.LatestEventsByType ≠ none) ∧
      (∀ k, k ≠ ev.RoomID → GoMap.get? (GoMap.set result ev.RoomID
          { md with LatestEventsByType := some l, RoomID := ev.RoomID }) k =
        GoMap.get? result k) := by
    intro md l
    constructor
    · intro k m hk
      rw [GoMap.get?_set] at hk
      by_cases he : k = ev.RoomID
      · rw [if_pos he] at hk
        rw [← Option.some.inj hk]
        simp
      · rw [if_neg he] at hk
        exact hmaps k m hk
    · intro k hk
      rw [GoMap.get?_set, if_neg hk]
  rcases Option.eq_none_or_eq_some (GoMap.get? result ev.RoomID) with hn | ⟨m0, hn⟩
  · cases hl : (newRoomMetadata ev.RoomID).LatestEventsByType with
    | none => exact absurd hl (hnew ev.RoomID)
    | some l =>
      have hf := hfinish (newRoomMetadata ev.RoomID)
        (GoMap.set l (gjsonStr ev.JSON.evType)
          { NID := ev.NID, Timestamp := gjsonUint ev.JSON.origin_server_ts })
      refine ⟨_, { newRoomMetadata ev.RoomID with
          LatestEventsByType := some (GoMap.set l (gjsonStr ev.JSON.evType)
            { NID := ev.NID, Timestamp := gjsonUint ev.JSON.origin_server_ts }),
          RoomID := ev.RoomID }, ?_, hf.1, hf.2, ?_, ?_⟩
      · simp only [latestEventStep, GoMap.contains, hn, Option.isSome_none, Bool.not_false,
          if_true, hl]
      · rw [GoMap.get?_set, if_pos rfl]
      · simp [hn]
  · cases hl : m0.LatestEventsByType with
    | none => exact absurd hl (hmaps _ _ hn)
    | some l =>
      have hf := hfinish { m0 with LastMessageTimestamp := gjsonUint ev.JSON.origin_server_ts }
        (GoMap.set l (gjsonStr ev.JSON.evType)
          { NID := ev.NID, Timestamp := gjsonUint ev.JSON.origin_server_ts })
      refine ⟨_, { m0 with
          LastMessageTimestamp := gjsonUint ev.JSON.origin_server_ts,
          LatestEventsByType := some (GoMap.set l (gjsonStr ev.JSON.evType)
            { NID := ev.NID, Timestamp := gjsonUint ev.JSON.origin_server_ts }),
          RoomID := ev.RoomID }, ?_, hf.1, hf.2, ?_, ?_⟩
      · simp only [latestEventStep, GoMap.contains, hn, Option.isSome_some, Bool.not_true,
          Bool.false_eq_true, if_false, Option.getD_some, hl]
      · rw [GoMap.get?_set, if_pos rfl]
      · simp [hn]

/-- The latest-timestamps loop, when no map involved is nil: it succeeds, and the last
message timestamp of every room is the one that `timestampAfter` describes. -/
theorem latestEventLoop_spec (newRoomMetadata : String → RoomMetadata)
    (hnew : ∀ k, (newRoomMetadata k).LatestEventsByType ≠ none)
    (events : List Event) (result : GoMap RoomMetadata)
    (hmaps : ∀ k m, GoMap.get? result k = some m → m.LatestEventsByType ≠ none) :
    ∃ result', latestEventLoop newRoomMetadata result events = Except.ok result' ∧
      ∀ roomID, (GoMap.get? result' roomID).map (fun m => m.LastMessageTimestamp) =
        timestampAfter newRoomMetadata roomID (GoMap.get? result roomID)
          (rowsOfRoom roomID events) := by
  induction events generalizing result with
  | nil =>
    exact ⟨result, rfl, fun roomID => by simp [rowsOfRoom, timestampAfter]⟩
  | cons ev rest ih =>
    obtain ⟨r1, m, hstep, hmaps1, hother, hentry, hts⟩ :=
      latestEventStep_ok newRoomMetadata hnew result hmaps ev
    obtain ⟨result', hloop, hall⟩ := ih r1 hmaps1
    refine ⟨result', by simp only [latestEventLoop, hstep]; exact hloop, ?_⟩
    intro roomID
    rw [hall roomID]
    by_cases hr : ev.RoomID = roomID
    · subst hr
      have hrows : rowsOfRoom ev.RoomID (ev :: rest) = ev :: rowsOfRoom ev.RoomID rest := by
        simp [rowsOfRoom]
      rw [hrows, hentry]
      cases hrest : rowsOfRoom ev.RoomID rest with
      | nil =>
        by_cases hn : GoMap.get? result ev.RoomID = none
        · simp [timestampAfter, hts, hn]
        · simp [timestampAfter, hts, hn]
      | cons x xs =>
        have hlast : (ev :: x :: xs).getLast? = (x :: xs).getLast? := by
          simp [List.getLast?_cons_cons]
        obtain ⟨l, hl⟩ : ∃ l, (x :: xs).getLast? = some l :=
          ⟨_, List.getLast?_eq_getLast _ (by simp)⟩
        simp [timestampAfter, hlast, hl]
    · have hrows : rowsOfRoom roomID (ev :: rest) = rowsOfRoom roomID rest := by
        simp [rowsOfRoom, hr]
      rw [hrows, hother roomID (fun e => hr e.symm)]

/-- C26: what the latest-timestamps loop of `MetadataForAllRooms` leaves as the
`LastMessageTimestamp` of a room that has rows in the latest-event-by-type result (no
map involved being nil, the loop succeeds). When the room had a metadata entry, or has
more than one row, it is the `origin_server_ts` of the last row processed for the room.
When the room had no entry and has a single row, the timestamp written is discarded with
the copy it was written to, and the room keeps the timestamp of the newly constructed
metadata, whatever the `origin_server_ts` of the row. -/
theorem latestEventLoop_last_message_timestamp (newRoomMetadata : String → RoomMetadata)
    (hnew : ∀ k, (newRoomMetadata k).LatestEventsByType ≠ none)
    (result : GoMap RoomMetadata)
    (hmaps : ∀ k m, GoMap.get? result k = some m → m.LatestEventsByType ≠ none)
    (events : List Event) (roomID : String) :
    ∃ result', latestEventLoop newRoomMetadata result events = Except.ok result' ∧
      (∀ pre last, rowsOfRoom roomID events = pre ++ [last] →
        (GoMap.contains result roomID = true ∨ pre ≠ []) →
        (GoMap.get? result' roomID).map (fun m => m.LastMessageTimestamp) =
          some (gjsonUint last.JSON.origin_server_ts)) ∧
      (∀ only, rowsOfRoom roomID events = [only] → GoMap.contains result roomID = false →
        (GoMap.get? result' roomID).map (fun m => m.LastMessageTimestamp) =
          some (newRoomMetadata roomID).LastMessageTimestamp) := by
  obtain ⟨result', hloop, hall⟩ := latestEventLoop_spec newRoomMetadata hnew events result hmaps
  refine ⟨result', hloop, ?_, ?_⟩
  · intro pre last hrows hor
    rw [hall roomID, hrows]
    have hlast : (pre ++ [last]).getLast? = some last := by simp
    simp only [timestampAfter, hlast]
    rcases hor with hc | hpre
    · have hne : ¬ GoMap.get? result roomID = none := by
        intro hn
        simp [GoMap.contains, hn] at hc
      simp [hne]
    · have hlen : ¬ (pre ++ [last]).length = 1 := by
        cases pre with
        | nil => exact absurd rfl hpre
        | cons p ps => simp
      rw [if_neg (fun h => hlen h.2)]
  · intro only hrows hc
    rw [hall roomID, hrows]
    have hn : GoMap.get? result roomID = none := by
      simpa [GoMap.contains] using hc
    simp [timestampAfter, hn]

/-- Witness for C26: nothing is known about room `!r` before the call and the
latest-event-by-type result has one row for it, with `origin_server_ts = 1000`. The loop
leaves `LastMessageTimestamp = 0` for the room, and `1000` only in the per-type map. -/
theorem latestEventLoop_last_message_timestamp_witness :
    latestEventLoop NewRoomMetadata [] [latestRow 7 "!r" "m.room.message" 1000] =
      Except.ok [("!r",
        { RoomID := "!r", JoinCount := 0, InviteCount := 0, LastMessageTimestamp := 0,
          LatestEventsByType := some [("m.room.message", { NID := 7, Timestamp := 1000 })] })] ∧
    ∃ result', latestEventLoop NewRoomMetadata [] [latestRow 7 "!r" "m.room.message" 1000] =
        Except.ok result' ∧
      (GoMap.get? result' "!r").map (fun m => m.LastMessageTimestamp) = some 0 := by
  refine ⟨rfl, ?_⟩
  obtain ⟨result', hloop, -, h⟩ := latestEventLoop_last_message_timestamp NewRoomMetadata
    (fun k => by simp [NewRoomMetadata]) [] (fun k m h => by simp [GoMap.get?] at h)
    [latestRow 7 "!r" "m.room.message" 1000] "!r"
  exact ⟨result', hloop, h (latestRow 7 "!r" "m.room.message" 1000) (by decide) (by decide)⟩

/-- With a single latest event the row loop of the filtered path cannot fail: every row
is looked up at index 0. -/
theorem replaceLoop_single (latest : Event) (rows : List Event)
    (roomToEvents : GoMap (List Event)) :
    replaceLoop [latest] (roomIndexOf [latest]) roomToEvents rows =
      Except.ok (rows.foldl (fun m ev =>
        pushEvent m (if latest.ReplacesNID = ev.NID then latest else ev)) roomToEvents) := by
  induction rows generalizing roomToEvents with
  | nil => rfl
  | cons ev rest ih =>
    have hidx : (GoMap.get? (roomIndexOf [latest]) ev.RoomID).getD 0 = 0 := by
      have hri : roomIndexOf [latest] = GoMap.set [] latest.RoomID 0 := rfl
      rw [hri, GoMap.get?_set]
      by_cases h : ev.RoomID = latest.RoomID
      · simp [h]
      · simp [h, GoMap.get?]
    simp only [replaceLoop, hidx, List.getElem?_cons_zero, List.foldl_cons]
    exact ih _

/-- The list of one room after a run of appends. -/
theorem getSlice_pushFold (f : Event → Event) (rows : List Event)
    (roomToEvents : GoMap (List Event)) (roomID : String) :
    GoMap.getSlice (rows.foldl (fun m ev => pushEvent m (f ev)) roomToEvents) roomID =
      GoMap.getSlice roomToEvents roomID ++
        (rows.map f).filter (fun ev => decide (ev.RoomID = roomID)) := by
  induction rows generalizing roomToEvents with
  | nil => simp
  | cons ev rest ih =>
    simp only [List.foldl_cons, List.map_cons]
    rw [ih, pushEvent, GoMap.getSlice_set]
    by_cases h : (f ev).RoomID = roomID
    · subst h
      simp [List.filter_cons]
    · have h' : ¬ roomID = (f ev).RoomID := fun e => h e.symm
      simp [List.filter_cons, h, h']

/-- The list of the latest event's room after the last loop of the filtered path: one
copy of the event is appended for every entry of the filter that lists it. -/
theorem getSlice_appendIfListed (latest : Event) (filter : GoMap (List String))
    (roomToEvents : GoMap (List Event)) :
    GoMap.getSlice (filter.foldl (appendIfListed latest) roomToEvents) latest.RoomID =
      GoMap.getSlice roomToEvents latest.RoomID ++
        List.replicate (filter.countP (listedBy latest)) latest := by
  induction filter generalizing roomToEvents with
  | nil => simp
  | cons kv rest ih =>
    simp only [List.foldl_cons]
    rw [ih]
    by_cases h1 : kv.1 = latest.EventType
    · by_cases h2 : kv.2.length = 0
      · have hl : listedBy latest kv = true := by simp [listedBy, h1, h2]
        simp [appendIfListed, h1, h2, pushEvent, GoMap.getSlice_set, List.countP_cons, hl,
          List.replicate_succ]
      · by_cases h3 : kv.2.any (fun skey => decide (skey = latest.StateKey)) = true
        · have hl : listedBy latest kv = true := by
            simp only [listedBy, h1, h3, decide_True, Bool.or_true, Bool.and_self]
          have happ : appendIfListed latest roomToEvents kv = pushEvent roomToEvents latest := by
            simp only [appendIfListed, h1, ne_eq, not_true_eq_false, if_false, h2, h3, if_true]
          rw [happ]
          simp [pushEvent, GoMap.getSlice_set, List.countP_cons, hl, List.replicate_succ]
        · have h3' : kv.2.any (fun skey => decide (skey = latest.StateKey)) = false :=
            Bool.eq_false_iff.2 h3
          have hl : listedBy latest kv = false := by
            simp only [listedBy, h1, h2, h3', decide_True, decide_False, Bool.or_self,
              Bool.and_false]
          have happ : appendIfListed latest roomToEvents kv = roomToEvents := by
            simp only [appendIfListed, h1, ne_eq, not_true_eq_false, if_false, h2, h3',
              Bool.false_eq_true]
          rw [happ]
          simp [List.countP_cons, hl]
    · have hl : listedBy latest kv = false := by simp [listedBy, h1]
      have happ : appendIfListed latest roomToEvents kv = roomToEvents := by
        simp [appendIfListed, h1]
      rw [happ]
      simp [List.countP_cons, hl]

/-- An event that the `WHERE` clause of the filtered query accepts is listed by some
entry of the filter. -/
theorem countP_listedBy_pos (filter : GoMap (List String)) (ev : Event)
    (h : matchesFilter filter ev = true) : 0 < filter.countP (listedBy ev) := by
  rw [List.countP_pos_iff]
  unfold matchesFilter at h
  rw [List.any_eq_true] at h
  obtain ⟨kv, hkv, hc⟩ := h
  refine ⟨kv, hkv, ?_⟩
  by_cases h2 : kv.2.length = 0
  · rw [if_pos h2] at hc
    have h1 : kv.1 = ev.EventType := (of_decide_eq_true hc).symm
    simp [listedBy, h1, h2]
  · rw [if_neg h2, List.any_eq_true] at hc
    obtain ⟨skey, hs, hcs⟩ := hc
    simp only [Bool.and_eq_true, decide_eq_true_eq] at hcs
    have hany : kv.2.any (fun skey => decide (skey = ev.StateKey)) = true :=
      List.any_eq_true.2 ⟨skey, hs, by simp [hcs.2]⟩
    simp [listedBy, hcs.1, hany]

/-- The filtered path for a single latest event with `replaces_nid = 0`: the list of the
event's room holds the rows of the query (none of them is replaced unless its NID is 0,
in which case it becomes the latest event), followed by one copy of the latest event for
every entry of the filter that lists it. -/
theorem filteredStateEvents_single (table : List Event)
    (snapshots : Int → Option SnapshotRow) (snapshotRow : SnapshotRow) (latest : Event)
    (filter : GoMap (List String))
    (hsnap : snapshots latest.BeforeStateSnapshotID = some snapshotRow)
    (hrep : latest.ReplacesNID = 0) :
    ∃ roomToEvents,
      filteredStateEvents table snapshots [latest] filter = Except.ok roomToEvents ∧
      GoMap.getSlice roomToEvents latest.RoomID =
        (((table.filter (fun ev => matchesFilter filter ev &&
            decide (ev.NID ∈ snapshotNIDColumns
              ((GoMap.keys filter).any (fun evType => decide (evType = "m.room.member")))
              ((GoMap.keys filter).any (fun evType => !decide (evType = "m.room.member")))
              snapshotRow))).map scanRow).map
          (fun ev => if latest.ReplacesNID = ev.NID then latest else ev)).filter
            (fun ev => decide (ev.RoomID = latest.RoomID)) ++
        List.replicate (filter.countP (listedBy latest)) latest := by
  have heq : filteredStateEvents table snapshots [latest] filter =
      Except.ok (appendLatest filter
        (((table.filter (fun ev => matchesFilter filter ev &&
            decide (ev.NID ∈ snapshotNIDColumns
              ((GoMap.keys filter).any (fun evType => decide (evType = "m.room.member")))
              ((GoMap.keys filter).any (fun evType => !decide (evType = "m.room.member")))
              snapshotRow))).map scanRow).foldl (fun m ev =>
          pushEvent m (if latest.ReplacesNID = ev.NID then latest else ev)) []) latest) := by
    simp only [filteredStateEvents, List.map_cons, List.map_nil, List.filterMap_cons, hsnap,
      List.filterMap_nil, List.flatMap_cons, List.flatMap_nil, List.append_nil,
      replaceLoop_single, List.foldl_cons, List.foldl_nil]
  refine ⟨_, heq, ?_⟩
  simp only [appendLatest, hrep, if_true]
  rw [getSlice_appendIfListed, getSlice_pushFold]
  simp [GoMap.getSlice, GoMap.get?, hrep]

/-- The rows selected by NID from a table with distinct NIDs hold a given NID at most
once, and not at all when it is not listed. -/
theorem count_selectByNIDs_le (table : List Event)
    (hasc : table.Pairwise (fun a b => a.NID < b.NID)) (nids : List Int) (nid : Int) :
    ((table.filter (fun ev => decide (ev.NID ∈ nids))).map (fun ev => ev.NID)).count nid ≤
      if nid ∈ nids then 1 else 0 := by
  by_cases h : nid ∈ nids
  · rw [if_pos h]
    have hnd : ((table.filter (fun ev => decide (ev.NID ∈ nids))).map
        (fun ev => ev.NID)).Nodup := by
      have h1 : (table.filter (fun ev => decide (ev.NID ∈ nids))).Pairwise
          (fun a b => a.NID < b.NID) := hasc.filter _
      exact List.pairwise_map.2 (h1.imp (fun hab => ne_of_lt hab))
    exact List.nodup_iff_count_le_one.1 hnd nid
  · rw [if_neg h]
    apply Nat.le_of_eq
    rw [List.count_eq_zero]
    intro hmem
    obtain ⟨ev, hev, hnid⟩ := List.mem_map.1 hmem
    have := (List.mem_filter.1 hev).2
    simp only [decide_eq_true_eq] at this
    exact h (hnid ▸ this)

/-- C28: a case in which the filtered path of `RoomStateAfterEventPosition` does not
return what the empty-filter path returns. For a single room with snapshot S, a latest
event E with `replaces_nid = 0` that the filter F accepts, and E either not a state event
or already part of S (its `before_state_snapshot_id` was 0 and the current snapshot was
used): the filtered path returns E more often than the empty-filter path does, because
its last loop appends E without looking at what the query returned or at whether E is
state. The events table has distinct NIDs and holds the row of E, and S keeps membership
events apart from the others. -/
theorem filtered_path_returns_latest_event_again (table : List Event)
    (hasc : table.Pairwise (fun a b => a.NID < b.NID))
    (snapshots : Int → Option SnapshotRow) (snapshotRow : SnapshotRow) (latest : Event)
    (filter : GoMap (List String))
    (hsnap : snapshots latest.BeforeStateSnapshotID = some snapshotRow)
    (hrow : ∃ row ∈ table, row.NID = latest.NID ∧ row.RoomID = latest.RoomID ∧
      row.EventType = latest.EventType ∧ row.StateKey = latest.StateKey)
    (hcols : (latest.NID ∈ snapshotRow.MembershipEvents →
        latest.EventType = "m.room.member") ∧
      (latest.NID ∈ snapshotRow.OtherEvents → latest.EventType ≠ "m.room.member"))
    (hrep : latest.ReplacesNID = 0)
    (hmatch : matchesFilter filter latest = true)
    (hcase : latest.JSON.state_key = none ∨
      latest.NID ∈ snapshotRow.MembershipEvents ++ snapshotRow.OtherEvents) :
    ∃ roomToEvents events,
      filteredStateEvents table snapshots [latest] filter = Except.ok roomToEvents ∧
      emptyFilterEvents table snapshotRow latest = Except.ok events ∧
      (events.map (fun ev => ev.NID)).count latest.NID <
        ((GoMap.getSlice roomToEvents latest.RoomID).map (fun ev => ev.NID)).count
          latest.NID := by
  obtain ⟨roomToEvents, hfiltered, hslice⟩ :=
    filteredStateEvents_single table snapshots snapshotRow latest filter hsnap hrep
  have hroll : rollForwardStateNIDs snapshotRow latest =
      snapshotRow.MembershipEvents ++ snapshotRow.OtherEvents := by
    rcases hcase with hk | hin
    · simp [rollForwardStateNIDs, hk]
    · by_cases hk : latest.JSON.state_key.isSome = true
      · have hany : (snapshotRow.MembershipEvents ++ snapshotRow.OtherEvents).any
            (fun nid => decide (nid = latest.NID)) = true :=
          List.any_eq_true.2 ⟨latest.NID, hin, by simp⟩
        simp only [rollForwardStateNIDs, hk, hrep, hany]
        rfl
      · simp [rollForwardStateNIDs, hk]
  refine ⟨roomToEvents, _, hfiltered, rfl, ?_⟩
  rw [hroll, hslice, List.map_append, List.count_append, List.map_replicate,
    List.count_replicate_self]
  have hc := countP_listedBy_pos filter latest hmatch
  have hle := count_selectByNIDs_le table hasc
    (snapshotRow.MembershipEvents ++ snapshotRow.OtherEvents) latest.NID
  by_cases hin : latest.NID ∈ snapshotRow.MembershipEvents ++ snapshotRow.OtherEvents
  · rw [if_pos hin] at hle
    obtain ⟨row, hrowmem, hnid, hroom, htype, hkey⟩ := hrow
    have hmrow : matchesFilter filter row = true := by
      have : matchesFilter filter row = matchesFilter filter latest := by
        simp [matchesFilter, htype, hkey]
      rw [this]
      exact hmatch
    obtain ⟨kv, hkv, hl⟩ := List.countP_pos_iff.1 hc
    have hkey1 : kv.1 = latest.EventType := by
      simp only [listedBy, Bool.and_eq_true, decide_eq_true_eq] at hl
      exact hl.1
    have hkmem : kv.1 ∈ GoMap.keys filter := List.mem_map.2 ⟨kv, hkv, rfl⟩
    have hcol : row.NID ∈ snapshotNIDColumns
        ((GoMap.keys filter).any (fun evType => decide (evType = "m.room.member")))
        ((GoMap.keys filter).any (fun evType => !decide (evType = "m.room.member")))
        snapshotRow := by
      rw [hnid]
      rcases List.mem_append.1 hin with hm | ho
      · have hmember := hcols.1 hm
        have hhas : (GoMap.keys filter).any (fun evType => decide (evType = "m.room.member")) =
            true := List.any_eq_true.2 ⟨kv.1, hkmem, by simp [hkey1, hmember]⟩
        unfold snapshotNIDColumns
        rw [hhas]
        cases (GoMap.keys filter).any (fun evType => !decide (evType = "m.room.member"))
        · simpa using hm
        · simp [hm]
      · have hother := hcols.2 ho
        have hhas : (GoMap.keys filter).any (fun evType => !decide (evType = "m.room.member")) =
            true := List.any_eq_true.2 ⟨kv.1, hkmem, by simp [hkey1, hother]⟩
        unfold snapshotNIDColumns
        rw [hhas]
        cases (GoMap.keys filter).any (fun evType => decide (evType = "m.room.member"))
        · simpa using ho
        · simp [ho]
    have hpos : 0 < (List.map (fun ev => ev.NID)
        ((((table.filter (fun ev => matchesFilter filter ev &&
            decide (ev.NID ∈ snapshotNIDColumns
              ((GoMap.keys filter).any (fun evType => decide (evType = "m.room.member")))
              ((GoMap.keys filter).any (fun evType => !decide (evType = "m.room.member")))
              snapshotRow))).map scanRow).map
          (fun ev => if latest.ReplacesNID = ev.NID then latest else ev)).filter
            (fun ev => decide (ev.RoomID = latest.RoomID)))).count latest.NID := by
      have hprop : (if latest.ReplacesNID = (scanRow row).NID then latest
            else scanRow row).RoomID = latest.RoomID ∧
          (if latest.ReplacesNID = (scanRow row).NID then latest
            else scanRow row).NID = latest.NID := by
        split
        · exact ⟨rfl, rfl⟩
        · exact ⟨hroom, hnid⟩
      rw [List.count_pos_iff]
      refine List.mem_map.2 ⟨if latest.ReplacesNID = (scanRow row).NID then latest
        else scanRow row, ?_, hprop.2⟩
      refine List.mem_filter.2 ⟨List.mem_map.2 ⟨scanRow row, List.mem_map.2 ⟨row, ?_, rfl⟩,
        rfl⟩, decide_eq_true hprop.1⟩
      exact List.mem_filter.2 ⟨hrowmem, by simp [hmrow, hcol]⟩
    omega
  · rw [if_neg hin] at hle
    omega

/-- Witness for C28: a room that only has its initial state. The snapshot holds the
create event (NID 1), which is also the latest event E, with `replaces_nid = 0`; its
`before_state_snapshot_id` was 0 and has been filled with the current snapshot 1. With
the filter `m.room.create -> []` the filtered path returns the create event twice, the
empty-filter path once. -/
theorem filtered_path_returns_latest_event_again_witness :
    filteredStateEvents [stateRow 1 "m.room.create" "" 0 0] (oneSnapshot ⟨[], [1]⟩)
        [stateRow 1 "m.room.create" "" 1 0] [("m.room.create", [])] =
      Except.ok [("!r", [scanRow (stateRow 1 "m.room.create" "" 0 0),
        stateRow 1 "m.room.create" "" 1 0])] ∧
    emptyFilterEvents [stateRow 1 "m.room.create" "" 0 0] ⟨[], [1]⟩
        (stateRow 1 "m.room.create" "" 1 0) =
      Except.ok [stateRow 1 "m.room.create" "" 0 0] ∧
    ∃ roomToEvents events,
      filteredStateEvents [stateRow 1 "m.room.create" "" 0 0] (oneSnapshot ⟨[], [1]⟩)
        [stateRow 1 "m.room.create" "" 1 0] [("m.room.create", [])] =
        Except.ok roomToEvents ∧
      emptyFilterEvents [stateRow 1 "m.room.create" "" 0 0] ⟨[], [1]⟩
        (stateRow 1 "m.room.create" "" 1 0) = Except.ok events ∧
      (events.map (fun ev => ev.NID)).count 1 <
        ((GoMap.getSlice roomToEvents "!r").map (fun ev => ev.NID)).count 1 :=
  ⟨rfl, rfl,
    filtered_path_returns_latest_event_again [stateRow 1 "m.room.create" "" 0 0]
      (by decide) (oneSnapshot ⟨[], [1]⟩) ⟨[], [1]⟩ (stateRow 1 "m.room.create" "" 1 0)
      [("m.room.create", [])] rfl
      ⟨stateRow 1 "m.room.create" "" 0 0, by simp, rfl, rfl, rfl, rfl⟩
      ⟨fun h => absurd h (by decide), fun _ => by decide⟩ rfl (by decide)
      (Or.inr (by decide))⟩

end State
